import Mathlib

/-! # Lab5_Stabilizator: the arm manipulator of `arm_api.cpp`

A shallow embedding of `src/arm_api.h` and `src/arm_api.cpp`.

* Every definition is generic in the scalar type `α` that stands for `double` and asks only
  for the operations it uses (`+`, `-`, `*`, `/`, `<`, the literals): the definitions assume no
  law of arithmetic.
* Two scalar types are used.  `Double` is IEEE 754 binary64 (rounding to nearest, overflow to
  infinity, NaN); it carries the statements whose truth depends on rounding, overflow or NaN.
  A linearly ordered field (`ℝ` where trigonometry is needed) is exact arithmetic; it carries
  the statements that are comparisons and operation-for-operation identities.
* `std::cos`, `std::sin` and `std::sqrt` are passed in as a record `CMath α`.
* `std::vector` is `List`; a member function that mutates `*this` returns the new object.
-/

set_option linter.unusedSectionVars false

namespace ArmApi

section Embedding

variable {α : Type} [Zero α] [One α] [NatCast α] [OfScientific α] [Add α] [Sub α] [Mul α]
  [Div α] [Neg α] [LT α] [DecidableRel (fun a b : α => a < b)] [LE α]

/-! ## Scalars and the C math library -/

/-- The three `<cmath>` routines used by the program. -/
structure CMath (α : Type) where
  cos : α → α
  sin : α → α
  sqrt : α → α

/-- The macro `#define M_PI 3.14159265358979323846`. -/
def M_PI : α := 3.14159265358979323846

/-- The semantics of `std::clamp(v, lo, hi)`: `(v < lo) ? lo : (hi < v) ? hi : v`. -/
def clamp (v lo hi : α) : α :=
  if v < lo then lo else if hi < v then hi else v

/-! ## `arm_api.h`: `Vec3D` -/

/-- The struct `Vec3D` of `arm_api.h`. -/
structure Vec3D (α : Type) where
  x : α
  y : α
  z : α

/-- The member `Vec3D::operator+`. -/
def Vec3D.add (a other : Vec3D α) : Vec3D α :=
  ⟨a.x + other.x, a.y + other.y, a.z + other.z⟩

/-- The member `Vec3D::operator*(double k)`. -/
def Vec3D.scale (a : Vec3D α) (k : α) : Vec3D α :=
  ⟨a.x * k, a.y * k, a.z * k⟩

/-! ## `AngleLimit` -/

/-- The struct `AngleLimit`. -/
structure AngleLimit (α : Type) where
  low : α
  high : α
  enabled : Bool

/-- The constructor `AngleLimit(l, h)` with its defaulted third argument `en = true`. -/
def AngleLimit.ofRange {α : Type} (l h : α) : AngleLimit α := ⟨l, h, true⟩

/-- The constructor `AngleLimit()` with every argument defaulted:
`l = -M_PI`, `h = M_PI`, `en = true`. -/
def AngleLimit.ofDefaults : AngleLimit α :=
  ⟨-M_PI, M_PI, true⟩

/-- The member `AngleLimit::apply`: `enabled ? std::clamp(a, low, high) : a`. -/
def AngleLimit.apply (lim : AngleLimit α) (a : α) : α :=
  if lim.enabled then clamp a lim.low lim.high else a

/-! ## Rotations about the principal axes -/

/-- The function `rotX`. -/
def rotX (L : CMath α) (p : Vec3D α) (a : α) : Vec3D α :=
  let c := L.cos a
  let s := L.sin a
  ⟨p.x, p.y * c - p.z * s, p.y * s + p.z * c⟩

/-- The function `rotY`. -/
def rotY (L : CMath α) (p : Vec3D α) (a : α) : Vec3D α :=
  let c := L.cos a
  let s := L.sin a
  ⟨p.x * c + p.z * s, p.y, -p.x * s + p.z * c⟩

/-- The function `rotZ`. -/
def rotZ (L : CMath α) (p : Vec3D α) (a : α) : Vec3D α :=
  let c := L.cos a
  let s := L.sin a
  ⟨p.x * c - p.y * s, p.x * s + p.y * c, p.z⟩

/-! ## `ArmJoint` and `ArmLink` -/

/-- The enum `ArmJoint::Axis`. -/
inductive Axis where
  | X
  | Y
  | Z
deriving DecidableEq

/-- The class `ArmJoint`. -/
structure ArmJoint (α : Type) where
  axis : Axis
  angle : α
  lims : AngleLimit α

/-- The member `ArmJoint::set`: `angle = lims.apply(a)`. -/
def ArmJoint.set (j : ArmJoint α) (a : α) : ArmJoint α :=
  { j with angle := j.lims.apply a }

/-- The member `ArmJoint::get`. -/
def ArmJoint.get {α : Type} (j : ArmJoint α) : α := j.angle

/-- The member `ArmJoint::rotate`: dispatch on the axis. -/
def ArmJoint.rotate (L : CMath α) (j : ArmJoint α)
    (d : Vec3D α) : Vec3D α :=
  match j.axis with
  | Axis.X => rotX L d j.angle
  | Axis.Y => rotY L d j.angle
  | Axis.Z => rotZ L d j.angle

/-- The struct `ArmLink`. -/
structure ArmLink (α : Type) where
  len : α
  dir : Vec3D α

/-! ## `ArmManipulator` -/

/-- The data members of the class `ArmManipulator`. -/
structure ArmManipulator (α : Type) where
  basePos : Vec3D α
  joints : List (ArmJoint α)
  links : List (ArmLink α)

/-- The member `ArmManipulator::configure`: clear both vectors, push four joints and four links. -/
def ArmManipulator.configure (m : ArmManipulator α) :
    ArmManipulator α :=
  { m with
    joints :=
      [ ⟨Axis.Z, 0.0, AngleLimit.ofRange (-M_PI) M_PI⟩,
        ⟨Axis.Y, 0.0, AngleLimit.ofRange (-M_PI / 2) (M_PI / 2)⟩,
        ⟨Axis.X, 0.0, AngleLimit.ofRange 0 8⟩,
        ⟨Axis.Y, 0.0, AngleLimit.ofRange (-M_PI) M_PI⟩ ]
    links :=
      [ ⟨2.0, ⟨0, 1, 0⟩⟩,
        ⟨3.0, ⟨0, 1, 0⟩⟩,
        ⟨2.5, ⟨0, 1, 0⟩⟩,
        ⟨1.0, ⟨0, 1, 0⟩⟩ ] }

/-- The constructor `ArmManipulator(Vec3D base)`: `basePos(base)` then `configure()`
(this is also what `Arm_Create` builds). -/
def ArmManipulator.create (base : Vec3D α) :
    ArmManipulator α :=
  ArmManipulator.configure ⟨base, [], []⟩

/-- The loop of `setAngles` on the joint vector: `joints[i].set(a[i])` for
`i < min(a.size(), joints.size())`; the joints past the end of `a` are not touched. -/
def setAnglesLoop :
    List (ArmJoint α) → List α → List (ArmJoint α)
  | j :: js, a :: as => j.set a :: setAnglesLoop js as
  | js, _ => js

/-- The member `ArmManipulator::setAngles`. -/
def ArmManipulator.setAngles (m : ArmManipulator α)
    (a : List α) : ArmManipulator α :=
  { m with joints := setAnglesLoop m.joints a }

/-- The member `ArmManipulator::angles`. -/
def ArmManipulator.angles {α : Type} (m : ArmManipulator α) : List α :=
  m.joints.map ArmJoint.get

/-- The member `ArmManipulator::count`. -/
def ArmManipulator.count {α : Type} (m : ArmManipulator α) : Nat := m.joints.length

/-- The inner loop of `forward` and `jointsWorld`:
`for (j = 0; j <= i; ++j) linkDir = joints[j].rotate(linkDir)`. -/
def rotateChain (L : CMath α) (joints : List (ArmJoint α))
    (i : Nat) (linkDir : Vec3D α) : Vec3D α :=
  (List.range (i + 1)).foldl
    (fun d j => match joints[j]? with
      | some jt => jt.rotate L d
      | none => d)
    linkDir

/-- The element `links[i]`.  Reading past the end is undefined behaviour in C++; it cannot
happen in a state built by `configure`, where both vectors have four elements, and the
model returns a zero link there. -/
def linkAt (links : List (ArmLink α)) (i : Nat) : ArmLink α :=
  links.getD i ⟨0, ⟨0, 0, 0⟩⟩

/-- One pass of the outer loop body shared by `forward` and `jointsWorld`:
`pos + linkDir * links[i].len` with `linkDir` the rotated `links[i].dir`. -/
def advance (L : CMath α) (m : ArmManipulator α)
    (pos : Vec3D α) (i : Nat) : Vec3D α :=
  pos.add ((rotateChain L m.joints i (linkAt m.links i).dir).scale (linkAt m.links i).len)

/-- The member `ArmManipulator::forward`. -/
def ArmManipulator.forward (L : CMath α)
    (m : ArmManipulator α) : Vec3D α :=
  (List.range m.joints.length).foldl (fun pos i => advance L m pos i) m.basePos

/-- The member `ArmManipulator::endEffector`. -/
def ArmManipulator.endEffector (L : CMath α)
    (m : ArmManipulator α) : Vec3D α :=
  m.forward L

/-- The member `ArmManipulator::jointsWorld`; the loop state is `(pos, out)`. -/
def ArmManipulator.jointsWorld (L : CMath α)
    (m : ArmManipulator α) : List (Vec3D α) :=
  ((List.range m.joints.length).foldl
    (fun (s : Vec3D α × List (Vec3D α)) i =>
      let pos := advance L m s.1 i
      (pos, s.2 ++ [pos]))
    (m.basePos, [m.basePos])).2

/-! ## Inverse kinematics -/

/-- The lambda `sqDist` of `solveIK`. -/
def sqDist (a b : Vec3D α) : α :=
  (a.x - b.x) * (a.x - b.x) + (a.y - b.y) * (a.y - b.y) + (a.z - b.z) * (a.z - b.z)

/-- The constant `tol` of `solveIK`. -/
def tol : α := 0.01

/-- The constant `lr` of `solveIK`. -/
def lr : α := 0.01

/-- The constant `maxIt` of `solveIK`. -/
def maxIt : Nat := 100

/-- The state threaded through the finite-difference loop of `solveIK`: the manipulator,
the working vector `out` and the gradient vector `grad`. -/
structure GradState (α : Type) where
  arm : ArmManipulator α
  out : List α
  grad : List α

/-- The body of the finite-difference loop for index `i`:
`backup = out[i]; out[i] += 0.001; setAngles(out); nxt = endEffector();`
`grad[i] = (sqDist(nxt,tgt) - sqDist(cur,tgt)) / 0.001; out[i] = backup`. -/
def gradStep (L : CMath α) (tgt cur : Vec3D α)
    (s : GradState α) (i : Nat) : GradState α :=
  let backup := s.out.getD i 0
  let out1 := s.out.set i (s.out.getD i 0 + 0.001)
  let arm1 := s.arm.setAngles out1
  let nxt := arm1.endEffector L
  let grad1 := s.grad.set i ((sqDist nxt tgt - sqDist cur tgt) / 0.001)
  ⟨arm1, out1.set i backup, grad1⟩

/-- The finite-difference loop of `solveIK`, with `grad` created as `out.size()` zeros. -/
def gradLoop (L : CMath α) (tgt cur : Vec3D α)
    (m : ArmManipulator α) (out : List α) : GradState α :=
  (List.range out.length).foldl (gradStep L tgt cur) ⟨m, out, List.replicate out.length 0⟩

/-- The update loop of `solveIK`: `out[i] -= lr * grad[i]` for every `i < out.size()`. -/
def descend (out grad : List α) : List α :=
  (List.range out.length).foldl
    (fun (o : List α) i => o.set i (o.getD i 0 - lr * grad.getD i 0)) out

/-- What `solveIK` leaves behind: the returned flag, the manipulator, and the vector `out`. -/
structure IKResult (α : Type) where
  ok : Bool
  arm : ArmManipulator α
  out : List α

/-- The main loop of `solveIK`; the first argument is the number of iterations still
allowed (`maxIt - it`), and `cur` is the local variable of that name. -/
def solveLoop (L : CMath α) (tgt : Vec3D α) :
    Nat → ArmManipulator α → List α → Vec3D α → IKResult α
  | 0, m, out, _ => ⟨false, m, out⟩
  | n + 1, m, out, cur =>
    if L.sqrt (sqDist cur tgt) < tol then ⟨true, m.setAngles out, out⟩
    else
      let g := gradLoop L tgt cur m out
      let out2 := descend g.out g.grad
      let m2 := g.arm.setAngles out2
      solveLoop L tgt n m2 out2 (m2.endEffector L)

/-- The member `ArmManipulator::solveIK`.  The incoming contents of the reference parameter
`out` are overwritten by `out = angles()` before they are read. -/
def ArmManipulator.solveIK (L : CMath α)
    (m : ArmManipulator α) (tgt : Vec3D α) (_out : List α) : IKResult α :=
  solveLoop L tgt maxIt m m.angles (m.endEffector L)

/-- The quantity minimised by `solveIK`, as a function of the angle vector handed to
`setAngles`: the squared distance between the target and the resulting end effector. -/
def cost (L : CMath α) (m : ArmManipulator α)
    (tgt : Vec3D α) (v : List α) : α :=
  sqDist ((m.setAngles v).endEffector L) tgt

/-- One full pass of the main loop of `solveIK` that does not take the early return, as a map
on the pair (manipulator, working vector); `cur` is the end effector at the top of the pass. -/
def ikIter (L : CMath α) (tgt : Vec3D α)
    (s : ArmManipulator α × List α) : ArmManipulator α × List α :=
  let g := gradLoop L tgt (s.1.endEffector L) s.1 s.2
  let out2 := descend g.out g.grad
  (g.arm.setAngles out2, out2)

/-! ## States -/

/-- The manipulator with base `b` whose four joints hold the angles `a0 .. a3`: the chain of
`configure` with the `angle` members replaced. -/
def pose (b : Vec3D α) (a0 a1 a2 a3 : α) :
    ArmManipulator α :=
  { basePos := b
    joints :=
      [ ⟨Axis.Z, a0, AngleLimit.ofRange (-M_PI) M_PI⟩,
        ⟨Axis.Y, a1, AngleLimit.ofRange (-M_PI / 2) (M_PI / 2)⟩,
        ⟨Axis.X, a2, AngleLimit.ofRange 0 8⟩,
        ⟨Axis.Y, a3, AngleLimit.ofRange (-M_PI) M_PI⟩ ]
    links := (ArmManipulator.create b).links }

/-- The states a client can reach: construction, then any sequence of `setAngles` and
`solveIK` calls (whatever the flag returned by the latter). -/
inductive Reachable (L : CMath α) :
    ArmManipulator α → Prop
  | create (base : Vec3D α) : Reachable L (ArmManipulator.create base)
  | setAngles {m : ArmManipulator α} (a : List α) :
      Reachable L m → Reachable L (m.setAngles a)
  | solveIK {m : ArmManipulator α} (tgt : Vec3D α) (out : List α) :
      Reachable L m → Reachable L (m.solveIK L tgt out).arm

/-! ## Auxiliary notions used in the statements -/

/-- The four angles satisfy the limits installed by `configure`. -/
def InLimits (a0 a1 a2 a3 : α) : Prop :=
  (-M_PI ≤ a0 ∧ a0 ≤ M_PI) ∧ (-M_PI / 2 ≤ a1 ∧ a1 ≤ M_PI / 2) ∧
    (0 ≤ a2 ∧ a2 ≤ 8) ∧ (-M_PI ≤ a3 ∧ a3 ≤ M_PI)

/-- The angle that `setAngles` leaves in a joint with limits `[lo, hi]` and old angle `old`
when the input vector has (or lacks) an entry for that joint. -/
def newAngle (lo hi old : α) : Option α → α
  | some v => clamp v lo hi
  | none => old

/-- A configured chain whose angles respect the joint limits. -/
def Posed (m : ArmManipulator α) : Prop :=
  ∃ b a0 a1 a2 a3, m = pose b a0 a1 a2 a3 ∧ InLimits a0 a1 a2 a3

/-- The loop state (manipulator, working vector) in which entry 0 of the working vector has
run past the upper limit `M_PI` of joint 0 and the manipulator has been set from the vector. -/
def Stuck (b : Vec3D α)
    (s : ArmManipulator α × List α) : Prop :=
  ∃ o0 o1 o2 o3, s.2 = [o0, o1, o2, o3] ∧ M_PI ≤ o0 ∧ s.1 = (pose b 0 0 0 0).setAngles s.2

/-- A `Vec3D ℝ` as a point of Euclidean 3-space. -/
def toE (v : Vec3D ℝ) : EuclideanSpace ℝ (Fin 3) :=
  fun i => ![v.x, v.y, v.z] i

/-! ## Diagnostics: `debugPrint` -/

/-- One item sent to `std::cout`: a string literal, a `double`, a `size_t` index, or
`std::endl`. -/
inductive Tok (α : Type) where
  | str (s : String)
  | num (x : α)
  | idx (i : Nat)
  | endl

/-- The local `maxReach` of `debugPrint`:
`double maxReach = 0; for (const auto& link : links) maxReach += link.len;`. -/
def ArmManipulator.maxReach (m : ArmManipulator α) : α :=
  m.links.foldl (fun acc link => acc + link.len) 0

/-- The member `ArmManipulator::debugPrint`, as the sequence of items it sends to
`std::cout`. -/
def ArmManipulator.debugPrint (L : CMath α)
    (m : ArmManipulator α) : List (Tok α) :=
  [Tok.str "=== ARM DEBUG INFO ===", Tok.endl,
    Tok.str "Base position: (", Tok.num m.basePos.x, Tok.str ", ", Tok.num m.basePos.y,
    Tok.str ", ", Tok.num m.basePos.z, Tok.str ")", Tok.endl,
    Tok.str "Joint angles (radians):", Tok.endl]
  ++ (List.range m.joints.length).foldl
      (fun acc i => acc ++
        [Tok.str "  Joint ", Tok.idx i, Tok.str ": ", Tok.num (m.angles.getD i 0),
          Tok.str " rad (", Tok.num (m.angles.getD i 0 * 180.0 / M_PI), Tok.str " deg)",
          Tok.endl]) []
  ++ [Tok.str "Link lengths:", Tok.endl]
  ++ (List.range m.links.length).foldl
      (fun acc i => acc ++
        [Tok.str "  Link ", Tok.idx i, Tok.str ": ", Tok.num (linkAt m.links i).len,
          Tok.endl]) []
  ++ [Tok.str "Joint positions:", Tok.endl]
  ++ (List.range (m.jointsWorld L).length).foldl
      (fun acc i => acc ++
        [Tok.str "  Position ", Tok.idx i, Tok.str ": (",
          Tok.num ((m.jointsWorld L).getD i ⟨0, 0, 0⟩).x, Tok.str ", ",
          Tok.num ((m.jointsWorld L).getD i ⟨0, 0, 0⟩).y, Tok.str ", ",
          Tok.num ((m.jointsWorld L).getD i ⟨0, 0, 0⟩).z, Tok.str ")", Tok.endl]) []
  ++ [Tok.str "End effector: ", Tok.str "(", Tok.num (m.endEffector L).x, Tok.str ", ",
      Tok.num (m.endEffector L).y, Tok.str ", ", Tok.num (m.endEffector L).z, Tok.str ")",
      Tok.endl,
      Tok.str "Maximum reach: ", Tok.num m.maxReach, Tok.endl,
      Tok.str "===================", Tok.endl]

/-! ## The `extern "C"` boundary

A `void*` handle is an `Option`: `none` is the null pointer, `some m` points to the
manipulator `m`.  A function that mutates the pointee or a caller's array returns the new
contents.  Arrays are lists; reading or writing past the end of a caller's array is undefined
behaviour in C++ and is modelled by `List.take`, `List.set` (which then does nothing). -/

/-- The conversion `static_cast<size_t>(n)` of an `int`, with a 64-bit `size_t`. -/
def toSizeT (n : Int) : Nat := (n % 2 ^ 64).toNat

/-- The conversion `static_cast<int>(k)` of a `size_t`: reduction modulo `2^32` into the
signed range. -/
def toInt (k : Nat) : Int := ((k : Int) + 2 ^ 31) % 2 ^ 32 - 2 ^ 31

/-- The function `Arm_Create`. -/
def Arm_Create (x y z : α) : Option (ArmManipulator α) :=
  some (ArmManipulator.create ⟨x, y, z⟩)

/-- The function `Arm_SetAngles`: `v(a, a+n)` is the first `n` entries of the array.  For a
live handle and a negative `n` the constructor of the vector throws `std::length_error` and
the program terminates; the definition then returns the manipulator unchanged, and no
statement below is about that case. -/
def Arm_SetAngles (h : Option (ArmManipulator α))
    (a : List α) (n : Int) : Option (ArmManipulator α) :=
  match h with
  | none => none
  | some m => some (m.setAngles (a.take n.toNat))

/-- The function `Arm_GetJointPos`; the result is the buffer `p` and the integer `*cnt` after
the call. -/
def Arm_GetJointPos (L : CMath α)
    (h : Option (ArmManipulator α)) (p : List α) (cnt : Int) : List α × Int :=
  match h with
  | none => (p, cnt)
  | some m =>
    let vec := m.jointsWorld L
    ((List.range vec.length).foldl
        (fun (q : List α) i =>
          ((q.set (i * 3) (vec.getD i ⟨0, 0, 0⟩).x).set (i * 3 + 1)
            (vec.getD i ⟨0, 0, 0⟩).y).set (i * 3 + 2) (vec.getD i ⟨0, 0, 0⟩).z) p,
      toInt (vec.length * 3))

/-- The function `Arm_GetJointCount`. -/
def Arm_GetJointCount {α : Type} (h : Option (ArmManipulator α)) : Int :=
  match h with
  | some m => toInt m.count
  | none => 0

/-- What a call of `Arm_SolveIK` leaves behind: the returned `int`, the pointee of the handle,
and the caller's array `ang`. -/
structure SolveIKCall (α : Type) where
  ret : Int
  arm : Option (ArmManipulator α)
  ang : List α

/-- The function `Arm_SolveIK`. -/
def Arm_SolveIK (L : CMath α)
    (h : Option (ArmManipulator α)) (tx ty tz : α) (ang : List α) (n : Int) :
    SolveIKCall α :=
  match h with
  | none => ⟨0, none, ang⟩
  | some m =>
    if toSizeT n ≠ m.count then ⟨0, some m, ang⟩
    else
      let res := List.replicate n.toNat (0 : α)
      let r := m.solveIK L ⟨tx, ty, tz⟩ res
      let ang2 :=
        if r.ok then
          (List.range n.toNat).foldl (fun (a : List α) i => a.set i (r.out.getD i 0)) ang
        else ang
      ⟨if r.ok then 1 else 0, some r.arm, ang2⟩

/-- The function `Arm_Debug`; `cout` is what has been written to `std::cout` so far. -/
def Arm_Debug (L : CMath α)
    (h : Option (ArmManipulator α)) (cout : List (Tok α)) : List (Tok α) :=
  match h with
  | none => cout
  | some m => cout ++ m.debugPrint L

/-- The tolerance test at the top of a pass of the main loop of `solveIK`, on the loop state
(manipulator, working vector): `std::sqrt(sqDist(cur, tgt)) < tol` with `cur` the end effector
of the manipulator. -/
def closeEnough (L : CMath α) (tgt : Vec3D α)
    (s : ArmManipulator α × List α) : Prop :=
  L.sqrt (sqDist (s.1.endEffector L) tgt) < tol

end Embedding

/-! ## The type `double`: IEEE 754 binary64

The program computes in `double`.  The embedding above is generic in the scalar type; this
section gives the scalar type of the compiled program: binary64 with round-to-nearest,
ties-to-even, gradual underflow, overflow to infinity, signed zeros and one NaN (the sign and
payload of a NaN are not observable by the program).  Every operation of the source is one
operation here and is rounded on its own: the expressions are not contracted into fused
multiply-adds and are not evaluated in a wider format.  A decimal literal denotes the nearest
`double`, an `int` converts exactly. -/

/-- The worker of `bitlen`; the first argument bounds the number of halvings. -/
def bitlenAux : Nat → Nat → Nat
  | 0, _ => 0
  | f + 1, n => if n = 0 then 0 else bitlenAux f (n / 2) + 1

/-- The number of binary digits of `n` (`0` for `n = 0`). -/
def bitlen (n : Nat) : Nat := bitlenAux n n

/-- A value of type `double`: the finite number `(-1)^s * m * 2^e`, an infinity, or NaN.
The values built by the operations below are in canonical form: `m` is odd, or `m = 0` and
`e = 0` (a signed zero). -/
inductive Double where
  | fin (s : Bool) (m : Nat) (e : Int)
  | inf (s : Bool)
  | nan
  deriving DecidableEq

/-- Removal of the trailing zero bits of a nonzero mantissa; the first argument bounds the
number of steps. -/
def Double.strip : Nat → Bool → Nat → Int → Double
  | 0, s, m, e => .fin s m e
  | f + 1, s, m, e => if m % 2 = 0 then Double.strip f s (m / 2) (e + 1) else .fin s m e

/-- The canonical form of `(-1)^s * m * 2^e`, a number already on the binary64 grid:
a signed zero, an infinity when `2^1024 ≤ m * 2^e`, the stripped pair otherwise. -/
def Double.pack (s : Bool) (m : Nat) (e : Int) : Double :=
  if m = 0 then .fin s 0 0
  else if 1024 < (bitlen m : Int) + e then .inf s
  else Double.strip m s m e

/-- Rounding of the exact value `(-1)^s * M * 2^E` to binary64: round to nearest, ties to
even, with a 53-bit significand and least exponent `-1074`. -/
def Double.round (s : Bool) (M : Nat) (E : Int) : Double :=
  let u := max (E + bitlen M - 53) (-1074)
  if u ≤ E then Double.pack s M E
  else
    let k := (u - E).toNat
    let q := M / 2 ^ k
    let r := M % 2 ^ k
    let h := 2 ^ (k - 1)
    Double.pack s (if r < h then q else if h < r then q + 1 else if q % 2 = 0 then q else q + 1) u

/-- Rounding of the exact value `(-1)^s * (a / b) * 2^E` with `b ≠ 0`: the quotient is
computed to at least 55 bits and a sticky bit records a nonzero remainder. -/
def Double.roundDiv (s : Bool) (a b : Nat) (E : Int) : Double :=
  let sh := bitlen b + 55 - bitlen a
  let q := (a * 2 ^ sh) / b
  let r := (a * 2 ^ sh) % b
  Double.round s (2 * q + (if r = 0 then 0 else 1)) (E - sh - 1)

/-- The integer `(-1)^s * m`. -/
def Double.signed (s : Bool) (m : Nat) : Int := if s then -(m : Int) else m

/-- Unary minus. -/
def Double.neg : Double → Double
  | .fin s m e => .fin (!s) m e
  | .inf s => .inf (!s)
  | .nan => .nan

/-- Addition. -/
def Double.add : Double → Double → Double
  | .fin s1 m1 e1, .fin s2 m2 e2 =>
    let e := min e1 e2
    let a := Double.signed s1 (m1 * 2 ^ (e1 - e).toNat) + Double.signed s2 (m2 * 2 ^ (e2 - e).toNat)
    if a = 0 then .fin (s1 && s2) 0 0 else Double.round (decide (a < 0)) a.natAbs e
  | .fin _ _ _, .inf s => .inf s
  | .inf s, .fin _ _ _ => .inf s
  | .inf s, .inf t => if s = t then .inf s else .nan
  | _, _ => .nan

/-- Subtraction: `x - y` is `x + (-y)`. -/
def Double.sub (x y : Double) : Double := Double.add x (Double.neg y)

/-- Multiplication. -/
def Double.mul : Double → Double → Double
  | .fin s1 m1 e1, .fin s2 m2 e2 => Double.round (xor s1 s2) (m1 * m2) (e1 + e2)
  | .fin s1 m1 _, .inf s2 => if m1 = 0 then .nan else .inf (xor s1 s2)
  | .inf s1, .fin s2 m2 _ => if m2 = 0 then .nan else .inf (xor s1 s2)
  | .inf s1, .inf s2 => .inf (xor s1 s2)
  | _, _ => .nan

/-- Division. -/
def Double.div : Double → Double → Double
  | .fin s1 m1 e1, .fin s2 m2 e2 =>
    if m2 = 0 then (if m1 = 0 then .nan else .inf (xor s1 s2))
    else Double.roundDiv (xor s1 s2) m1 m2 (e1 - e2)
  | .fin s1 _ _, .inf s2 => .fin (xor s1 s2) 0 0
  | .inf s1, .fin s2 _ _ => .inf (xor s1 s2)
  | _, _ => .nan

/-- The comparison `x < y`; it is false when either side is NaN, and the two zeros are
equal. -/
def Double.lt : Double → Double → Bool
  | .fin s1 m1 e1, .fin s2 m2 e2 =>
    let e := min e1 e2
    decide (Double.signed s1 (m1 * 2 ^ (e1 - e).toNat) < Double.signed s2 (m2 * 2 ^ (e2 - e).toNat))
  | .fin _ _ _, .inf s => !s
  | .inf s, .fin _ _ _ => s
  | .inf s, .inf t => s && !t
  | _, _ => false

/-- The comparison `x <= y`; it is false when either side is NaN. -/
def Double.le : Double → Double → Bool
  | .fin s1 m1 e1, .fin s2 m2 e2 =>
    let e := min e1 e2
    decide (Double.signed s1 (m1 * 2 ^ (e1 - e).toNat) ≤ Double.signed s2 (m2 * 2 ^ (e2 - e).toNat))
  | .fin _ _ _, .inf s => !s
  | .inf s, .fin _ _ _ => s
  | .inf s, .inf t => s || !t
  | _, _ => false

/-- The worker of `isqrt`: the bits of the root are decided from the top. -/
def isqrtAux (n : Nat) : Nat → Nat → Nat
  | 0, r => r
  | i + 1, r => isqrtAux n i (if (r + 2 ^ i) * (r + 2 ^ i) ≤ n then r + 2 ^ i else r)

/-- The integer square root: the largest `r` with `r * r ≤ n`. -/
def isqrt (n : Nat) : Nat := isqrtAux n (bitlen n) 0

/-- The correctly rounded square root (`std::sqrt` on an IEEE 754 platform): the root of the
mantissa is computed to at least 55 bits and a sticky bit records inexactness. -/
def Double.sqrt : Double → Double
  | .fin s m e =>
    if m = 0 then .fin s 0 0
    else if s then .nan
    else
      let t := 110 + (e % 2).toNat
      let r := isqrt (m * 2 ^ t)
      Double.round false (2 * r + (if r * r = m * 2 ^ t then 0 else 1)) ((e - t) / 2 - 1)
  | .inf s => if s then .nan else .inf false
  | .nan => .nan

instance : Zero Double := ⟨.fin false 0 0⟩
instance : One Double := ⟨.fin false 1 0⟩
instance : NatCast Double := ⟨fun n => Double.round false n 0⟩
instance : OfScientific Double :=
  ⟨fun m s e => if s then Double.roundDiv false m (10 ^ e) 0 else Double.round false (m * 10 ^ e) 0⟩
instance : Neg Double := ⟨Double.neg⟩
instance : Add Double := ⟨Double.add⟩
instance : Sub Double := ⟨Double.sub⟩
instance : Mul Double := ⟨Double.mul⟩
instance : Div Double := ⟨Double.div⟩
instance : LT Double := ⟨fun x y => Double.lt x y = true⟩
instance : LE Double := ⟨fun x y => Double.le x y = true⟩
instance : DecidableRel (fun x y : Double => x < y) :=
  fun x y => inferInstanceAs (Decidable (Double.lt x y = true))
instance : DecidableRel (fun x y : Double => x ≤ y) :=
  fun x y => inferInstanceAs (Decidable (Double.le x y = true))

/-- The rational number denoted by a finite `double`; `0` for an infinity or NaN. -/
def Double.val : Double → ℚ
  | .fin s m e => (if s then -1 else 1) * (m : ℚ) * 2 ^ e
  | _ => 0

/-- The value `x` is NaN or a finite number in the interval `[lo, hi]`. -/
def Double.Btw (lo hi : ℚ) : Double → Prop
  | .fin s m e => lo ≤ (Double.fin s m e).val ∧ (Double.fin s m e).val ≤ hi
  | .inf _ => False
  | .nan => True

/-- The value `x` is NaN or a finite number of absolute value at most `B`. -/
def Double.Within (B : ℚ) (x : Double) : Prop := Double.Btw (-B) B x

/-- The value `x` is `+inf` or NaN. -/
def Double.Blown : Double → Prop
  | .fin _ _ _ => False
  | .inf s => s = false
  | .nan => True

/-- A bound on the error of one rounding of an exact result of absolute value at most `W`:
half a unit in the last place is at most `W / 2^53`, and `2^-1074` is the spacing of the
subnormal numbers. -/
def slack (W : ℚ) : ℚ := W / 2 ^ 52 + 1 / 2 ^ 1074

/-- A coarse `<cmath>` for `double`.  `std::sqrt` is the correctly rounded root that IEEE 754
prescribes.  The values of `std::cos` and `std::sin` are not fixed by any standard; they are
stood for by the Taylor polynomials `1 - a*a/2` and `a`, clamped to `[-1, 1]`.  These agree
with every libm at the argument `0` (`cos 0 = 1`, `sin 0 = 0`), which is all that the closed
examples on `double` evaluate, and they satisfy `SaneMath`, which is all that the general
theorems on `double` assume. -/
def coarseMath : CMath Double :=
  ⟨fun a => clamp (1 - a * a / 2) (-1) 1, fun a => clamp a (-1) 1, Double.sqrt⟩

/-- What the theorems on `double` assume of the platform's `<cmath>`: a cosine or sine is
NaN or lies in `[-1, 1]`, and `std::sqrt` is the correctly rounded root. -/
def SaneMath (L : CMath Double) : Prop :=
  (∀ a, Double.Within 1 (L.cos a)) ∧ (∀ a, Double.Within 1 (L.sin a)) ∧ L.sqrt = Double.sqrt

/-- Each coordinate of `p` is NaN or bounded in absolute value by the corresponding bound. -/
def Vec3D.Within (bx bz bw : ℚ) (p : Vec3D Double) : Prop :=
  Double.Within bx p.x ∧ Double.Within bz p.y ∧ Double.Within bw p.z

/-- The value `x` is finite and of absolute value at most `B`. -/
def Double.Small (B : ℚ) : Double → Prop
  | .fin _ m e => (m : ℚ) * 2 ^ e ≤ B
  | _ => False

/-- The value `x` is NaN or a finite number within `d` of the rational `r`. -/
def Double.Near (r d : ℚ) : Double → Prop
  | .fin s m e => |(Double.fin s m e).val - r| ≤ d
  | .inf _ => False
  | .nan => True

section GenericExact

variable {α : Type} [LinearOrderedField α]

theorem M_PI_pos : (0 : α) < M_PI := by
  unfold M_PI; norm_num

theorem create_eq_pose (b : Vec3D α) : ArmManipulator.create b = pose b 0 0 0 0 := by
  simp only [ArmManipulator.create, ArmManipulator.configure, pose]
  norm_num

end GenericExact

section Generic

variable {α : Type} [Zero α] [One α] [NatCast α] [OfScientific α] [Add α] [Sub α] [Mul α]
  [Div α] [Neg α] [LT α] [DecidableRel (fun a b : α => a < b)] [LE α]

/-- The pair loop of `jointsWorld` carries the position loop of `forward` in its first
component, and that position is the last element pushed. -/
theorem jointsWorld_fold (L : CMath α) (m : ArmManipulator α) (l : List Nat) :
    ∀ (pos : Vec3D α) (out : List (Vec3D α)), out.getLast? = some pos →
      (l.foldl (fun (s : Vec3D α × List (Vec3D α)) i =>
          let p := advance L m s.1 i
          (p, s.2 ++ [p])) (pos, out)).2.getLast?
        = some (l.foldl (fun p i => advance L m p i) pos) ∧
      (l.foldl (fun (s : Vec3D α × List (Vec3D α)) i =>
          let p := advance L m s.1 i
          (p, s.2 ++ [p])) (pos, out)).2.length = out.length + l.length := by
  induction l with
  | nil => intro pos out h; simpa using h
  | cons i l ih =>
    intro pos out _
    simp only [List.foldl_cons]
    obtain ⟨h1, h2⟩ := ih (advance L m pos i) (out ++ [advance L m pos i]) (by simp)
    refine ⟨h1, ?_⟩
    rw [h2, List.length_append, List.length_cons, List.length_cons, List.length_nil]
    omega

theorem forward_pose (L : CMath α) (b : Vec3D α) (a0 a1 a2 a3 : α) :
    (pose b a0 a1 a2 a3).forward L =
      (((b.add ((rotZ L ⟨0, 1, 0⟩ a0).scale 2.0)).add
          ((rotY L (rotZ L ⟨0, 1, 0⟩ a0) a1).scale 3.0)).add
          ((rotX L (rotY L (rotZ L ⟨0, 1, 0⟩ a0) a1) a2).scale 2.5)).add
          ((rotY L (rotX L (rotY L (rotZ L ⟨0, 1, 0⟩ a0) a1) a2) a3).scale 1.0) := by
  simp [ArmManipulator.forward, pose, ArmManipulator.create, ArmManipulator.configure,
    List.range_succ, advance, rotateChain, linkAt, ArmJoint.rotate]

end Generic

/-! ## Clamping -/

section ClampingExact

variable {α : Type} [LinearOrderedField α]

theorem clamp_bounds (v lo hi : α) (h : lo ≤ hi) : lo ≤ clamp v lo hi ∧ clamp v lo hi ≤ hi := by
  unfold clamp
  split_ifs with h1 h2
  · exact ⟨le_refl _, h⟩
  · exact ⟨h, le_refl _⟩
  · exact ⟨not_lt.mp h1, not_lt.mp h2⟩

theorem clamp_of_bounds (v lo hi : α) (h1 : lo ≤ v) (h2 : v ≤ hi) : clamp v lo hi = v := by
  unfold clamp
  rw [if_neg (not_lt.mpr h1), if_neg (not_lt.mpr h2)]

theorem clamp_idem (v lo hi : α) (h : lo ≤ hi) :
    clamp (clamp v lo hi) lo hi = clamp v lo hi :=
  clamp_of_bounds _ _ _ (clamp_bounds v lo hi h).1 (clamp_bounds v lo hi h).2

theorem limit0_ok : (-M_PI : α) ≤ M_PI := by
  have := M_PI_pos (α := α); linarith

theorem limit1_ok : (-M_PI / 2 : α) ≤ M_PI / 2 := by
  have := M_PI_pos (α := α); linarith

theorem limit2_ok : (0 : α) ≤ 8 := by norm_num

theorem inLimits_zero : InLimits (0 : α) 0 0 0 := by
  have := M_PI_pos (α := α)
  refine ⟨⟨?_, ?_⟩, ⟨?_, ?_⟩, ⟨?_, ?_⟩, ⟨?_, ?_⟩⟩ <;> linarith

end ClampingExact

/-! ## `setAngles` on a configured chain -/

section Clamping

variable {α : Type} [Zero α] [One α] [NatCast α] [OfScientific α] [Add α] [Sub α] [Mul α]
  [Div α] [Neg α] [LT α] [DecidableRel (fun a b : α => a < b)] [LE α]

theorem setAngles_pose (b : Vec3D α) (a0 a1 a2 a3 : α) (v : List α) :
    (pose b a0 a1 a2 a3).setAngles v =
      pose b (newAngle (-M_PI) M_PI a0 v[0]?) (newAngle (-M_PI / 2) (M_PI / 2) a1 v[1]?)
        (newAngle 0 8 a2 v[2]?) (newAngle (-M_PI) M_PI a3 v[3]?) := by
  rcases v with _ | ⟨x0, _ | ⟨x1, _ | ⟨x2, _ | ⟨x3, r⟩⟩⟩⟩ <;>
    simp [ArmManipulator.setAngles, pose, setAnglesLoop, ArmJoint.set, AngleLimit.apply,
      AngleLimit.ofRange, newAngle]

end Clamping

section ClampingExact2

variable {α : Type} [LinearOrderedField α]

theorem newAngle_bounds (lo hi old : α) (o : Option α) (h : lo ≤ hi)
    (ho : lo ≤ old ∧ old ≤ hi) : lo ≤ newAngle lo hi old o ∧ newAngle lo hi old o ≤ hi := by
  cases o with
  | none => exact ho
  | some v => exact clamp_bounds v lo hi h

theorem posed_create (b : Vec3D α) : Posed (ArmManipulator.create b) :=
  ⟨b, 0, 0, 0, 0, create_eq_pose b, inLimits_zero⟩

theorem posed_setAngles {m : ArmManipulator α} (v : List α) (h : Posed m) :
    Posed (m.setAngles v) := by
  obtain ⟨b, a0, a1, a2, a3, rfl, h0, h1, h2, h3⟩ := h
  exact ⟨b, _, _, _, _, setAngles_pose b a0 a1 a2 a3 v,
    newAngle_bounds _ _ _ _ limit0_ok h0, newAngle_bounds _ _ _ _ limit1_ok h1,
    newAngle_bounds _ _ _ _ limit2_ok h2, newAngle_bounds _ _ _ _ limit0_ok h3⟩

end ClampingExact2

section Clamping2

variable {α : Type} [Zero α] [One α] [NatCast α] [OfScientific α] [Add α] [Sub α] [Mul α]
  [Div α] [Neg α] [LT α] [DecidableRel (fun a b : α => a < b)] [LE α]

/-- A property of the manipulator kept by `setAngles` survives the finite-difference loop. -/
theorem gradLoop_arm_induct (P : ArmManipulator α → Prop)
    (hP : ∀ m v, P m → P (m.setAngles v)) (L : CMath α) (tgt cur : Vec3D α)
    (m : ArmManipulator α) (out : List α) (h : P m) : P (gradLoop L tgt cur m out).arm := by
  unfold gradLoop
  have key : ∀ (l : List Nat) (s : GradState α), P s.arm →
      P (l.foldl (gradStep L tgt cur) s).arm := by
    intro l
    induction l with
    | nil => intro s hs; exact hs
    | cons i l ih =>
      intro s hs
      rw [List.foldl_cons]
      exact ih _ (hP _ _ hs)
  exact key _ _ h

/-- A property of the manipulator kept by `setAngles` survives `solveIK`. -/
theorem solveLoop_arm_induct (P : ArmManipulator α → Prop)
    (hP : ∀ m v, P m → P (m.setAngles v)) (L : CMath α) (tgt : Vec3D α) (n : Nat) :
    ∀ (m : ArmManipulator α) (out : List α) (cur : Vec3D α), P m →
      P (solveLoop L tgt n m out cur).arm := by
  induction n with
  | zero => intro m out cur h; exact h
  | succ n ih =>
    intro m out cur h
    rw [solveLoop]
    split_ifs with hc
    · exact hP _ _ h
    · exact ih _ _ _ (hP _ _ (gradLoop_arm_induct P hP L tgt cur m out h))

end Clamping2

section ClampingExact3

variable {α : Type} [LinearOrderedField α]

theorem reachable_posed (L : CMath α) {m : ArmManipulator α} (h : Reachable L m) : Posed m := by
  induction h with
  | create b => exact posed_create b
  | setAngles a _ ih => exact posed_setAngles a ih
  | solveIK tgt out _ ih =>
    exact solveLoop_arm_induct Posed (fun _ v hm => posed_setAngles v hm) L tgt maxIt _ _ _ ih

end ClampingExact3

/-! ## Structure of `solveIK` -/

section Solver

variable {α : Type} [Zero α] [One α] [NatCast α] [OfScientific α] [Add α] [Sub α] [Mul α]
  [Div α] [Neg α] [LT α] [DecidableRel (fun a b : α => a < b)] [LE α]

theorem setAnglesLoop_same (js : List (ArmJoint α)) :
    ∀ v : List α, setAnglesLoop (setAnglesLoop js v) v = setAnglesLoop js v := by
  induction js with
  | nil => intro v; cases v <;> rfl
  | cons j js ih =>
    intro v
    cases v with
    | nil => rfl
    | cons a as =>
      simp only [setAnglesLoop, ih as]
      rfl

theorem setAngles_same (m : ArmManipulator α) (v : List α) :
    (m.setAngles v).setAngles v = m.setAngles v := by
  simp only [ArmManipulator.setAngles, setAnglesLoop_same]

end Solver

section SolverExact

variable {α : Type} [LinearOrderedField α]

theorem setAngles_angles_pose (b : Vec3D α) (a0 a1 a2 a3 : α) (h : InLimits a0 a1 a2 a3) :
    (pose b a0 a1 a2 a3).setAngles (pose b a0 a1 a2 a3).angles = pose b a0 a1 a2 a3 := by
  obtain ⟨h0, h1, h2, h3⟩ := h
  rw [setAngles_pose]
  simp only [ArmManipulator.angles, pose, List.map, ArmJoint.get, List.getElem?_cons_zero,
    List.getElem?_cons_succ, newAngle]
  rw [clamp_of_bounds _ _ _ h0.1 h0.2, clamp_of_bounds _ _ _ h1.1 h1.2,
    clamp_of_bounds _ _ _ h2.1 h2.2, clamp_of_bounds _ _ _ h3.1 h3.2]

theorem setAngles_angles_posed {m : ArmManipulator α} (h : Posed m) :
    m.setAngles m.angles = m := by
  obtain ⟨b, a0, a1, a2, a3, rfl, hl⟩ := h
  exact setAngles_angles_pose b a0 a1 a2 a3 hl

end SolverExact

section Solver2

variable {α : Type} [Zero α] [One α] [NatCast α] [OfScientific α] [Add α] [Sub α] [Mul α]
  [Div α] [Neg α] [LT α] [DecidableRel (fun a b : α => a < b)] [LE α]

/-- At every return of the main loop the manipulator holds the clamped working vector, and on
the early return the end effector is the `cur` that passed the tolerance test. -/
theorem solveLoop_post (L : CMath α) (tgt : Vec3D α) (n : Nat) :
    ∀ (m : ArmManipulator α) (out : List α) (cur : Vec3D α),
      m.setAngles out = m → cur = m.forward L →
      (solveLoop L tgt n m out cur).arm.setAngles (solveLoop L tgt n m out cur).out
          = (solveLoop L tgt n m out cur).arm ∧
      ((solveLoop L tgt n m out cur).ok = true →
        L.sqrt (sqDist ((solveLoop L tgt n m out cur).arm.forward L) tgt) < tol) := by
  induction n with
  | zero =>
    intro m out cur h _
    exact ⟨h, fun hok => by simp [solveLoop] at hok⟩
  | succ n ih =>
    intro m out cur h hc
    rw [solveLoop]
    split_ifs with ht
    · refine ⟨setAngles_same m out, fun _ => ?_⟩
      show L.sqrt (sqDist ((m.setAngles out).forward L) tgt) < tol
      rw [h, ← hc]
      exact ht
    · exact ih _ _ _ (setAngles_same _ _) rfl

end Solver2

section SolverExact2

variable {α : Type} [LinearOrderedField α]

/-- If the tolerance test passes on entry, `solveIK` returns at once. -/
theorem solveIK_of_close (L : CMath α) {m : ArmManipulator α} (tgt : Vec3D α) (out : List α)
    (hm : Posed m) (hc : L.sqrt (sqDist (m.endEffector L) tgt) < tol) :
    m.solveIK L tgt out = ⟨true, m, m.angles⟩ := by
  unfold ArmManipulator.solveIK maxIt
  rw [solveLoop, if_pos hc, setAngles_angles_posed hm]

end SolverExact2

section RealWitness

theorem forward_create_zero :
    (ArmManipulator.create (⟨0, 0, 0⟩ : Vec3D ℝ)).forward ⟨Real.cos, Real.sin, Real.sqrt⟩
      = ⟨0, 8.5, 0⟩ := by
  rw [create_eq_pose, forward_pose]
  simp [rotX, rotY, rotZ, Vec3D.add, Vec3D.scale]
  norm_num

theorem zero_pose_close :
    (⟨Real.cos, Real.sin, Real.sqrt⟩ : CMath ℝ).sqrt
      (sqDist ((ArmManipulator.create (⟨0, 0, 0⟩ : Vec3D ℝ)).endEffector
        ⟨Real.cos, Real.sin, Real.sqrt⟩) ⟨0, 8.5, 0⟩) < tol := by
  show Real.sqrt _ < _
  rw [ArmManipulator.endEffector, forward_create_zero]
  simp only [sqDist, tol, sub_self, mul_zero, add_zero, Real.sqrt_zero]
  norm_num

end RealWitness

section Reach

/-! ## Reach of the arm in real arithmetic -/

theorem toE_add (p q : Vec3D ℝ) : toE (p.add q) = toE p + toE q := by
  ext i
  fin_cases i <;> simp [toE, Vec3D.add]

theorem toE_scale (p : Vec3D ℝ) (k : ℝ) : toE (p.scale k) = k • toE p := by
  ext i
  fin_cases i <;> simp [toE, Vec3D.scale, mul_comm]

theorem norm_toE (p : Vec3D ℝ) : ‖toE p‖ = Real.sqrt (p.x ^ 2 + p.y ^ 2 + p.z ^ 2) := by
  rw [EuclideanSpace.norm_eq, Fin.sum_univ_three]
  simp [toE]

theorem dist_toE (p q : Vec3D ℝ) : dist (toE p) (toE q) = Real.sqrt (sqDist p q) := by
  rw [EuclideanSpace.dist_eq, Fin.sum_univ_three]
  congr 1
  simp [toE, sqDist, Real.dist_eq, sq_abs]
  ring

theorem norm_rotX (p : Vec3D ℝ) (a : ℝ) :
    ‖toE (rotX ⟨Real.cos, Real.sin, Real.sqrt⟩ p a)‖ = ‖toE p‖ := by
  rw [norm_toE, norm_toE]
  congr 1
  simp only [rotX]
  nlinarith [Real.sin_sq_add_cos_sq a]

theorem norm_rotY (p : Vec3D ℝ) (a : ℝ) :
    ‖toE (rotY ⟨Real.cos, Real.sin, Real.sqrt⟩ p a)‖ = ‖toE p‖ := by
  rw [norm_toE, norm_toE]
  congr 1
  simp only [rotY]
  nlinarith [Real.sin_sq_add_cos_sq a]

theorem norm_rotZ (p : Vec3D ℝ) (a : ℝ) :
    ‖toE (rotZ ⟨Real.cos, Real.sin, Real.sqrt⟩ p a)‖ = ‖toE p‖ := by
  rw [norm_toE, norm_toE]
  congr 1
  simp only [rotZ]
  nlinarith [Real.sin_sq_add_cos_sq a]

theorem norm_unit_y : ‖toE ⟨0, 1, 0⟩‖ = 1 := by
  rw [norm_toE]; simp

/-- The end effector of a configured chain is within `8.5` of the base. -/
theorem reach_pose (b : Vec3D ℝ) (a0 a1 a2 a3 : ℝ) :
    dist (toE b) (toE ((pose b a0 a1 a2 a3).forward ⟨Real.cos, Real.sin, Real.sqrt⟩)) ≤ 8.5 := by
  rw [forward_pose]
  simp only [toE_add, toE_scale, dist_eq_norm]
  set u0 := toE (rotZ ⟨Real.cos, Real.sin, Real.sqrt⟩ ⟨0, 1, 0⟩ a0) with hu0
  set u1 := toE (rotY ⟨Real.cos, Real.sin, Real.sqrt⟩
    (rotZ ⟨Real.cos, Real.sin, Real.sqrt⟩ ⟨0, 1, 0⟩ a0) a1) with hu1
  set u2 := toE (rotX ⟨Real.cos, Real.sin, Real.sqrt⟩ (rotY ⟨Real.cos, Real.sin, Real.sqrt⟩
    (rotZ ⟨Real.cos, Real.sin, Real.sqrt⟩ ⟨0, 1, 0⟩ a0) a1) a2) with hu2
  set u3 := toE (rotY ⟨Real.cos, Real.sin, Real.sqrt⟩ (rotX ⟨Real.cos, Real.sin, Real.sqrt⟩
    (rotY ⟨Real.cos, Real.sin, Real.sqrt⟩
      (rotZ ⟨Real.cos, Real.sin, Real.sqrt⟩ ⟨0, 1, 0⟩ a0) a1) a2) a3) with hu3
  have n0 : ‖u0‖ = 1 := by rw [hu0, norm_rotZ, norm_unit_y]
  have n1 : ‖u1‖ = 1 := by rw [hu1, norm_rotY, norm_rotZ, norm_unit_y]
  have n2 : ‖u2‖ = 1 := by rw [hu2, norm_rotX, norm_rotY, norm_rotZ, norm_unit_y]
  have n3 : ‖u3‖ = 1 := by rw [hu3, norm_rotY, norm_rotX, norm_rotY, norm_rotZ, norm_unit_y]
  have e : toE b - (toE b + (2.0 : ℝ) • u0 + (3.0 : ℝ) • u1 + (2.5 : ℝ) • u2 + (1.0 : ℝ) • u3)
      = -((2.0 : ℝ) • u0 + (3.0 : ℝ) • u1 + (2.5 : ℝ) • u2 + (1.0 : ℝ) • u3) := by abel
  rw [e, norm_neg]
  have t1 := norm_add_le ((2.0 : ℝ) • u0 + (3.0 : ℝ) • u1 + (2.5 : ℝ) • u2) ((1.0 : ℝ) • u3)
  have t2 := norm_add_le ((2.0 : ℝ) • u0 + (3.0 : ℝ) • u1) ((2.5 : ℝ) • u2)
  have t3 := norm_add_le ((2.0 : ℝ) • u0) ((3.0 : ℝ) • u1)
  rw [norm_smul, n3] at t1
  rw [norm_smul, n2] at t2
  rw [norm_smul, norm_smul, n0, n1] at t3
  norm_num at t1 t2 t3 ⊢
  linarith

/-- A target at distance at least `8.5 + 0.01` from the base fails the tolerance test in every
configuration of the chain. -/
theorem far_not_close (b tgt : Vec3D ℝ) (a0 a1 a2 a3 : ℝ)
    (h : 8.5 + 0.01 ≤ Real.sqrt (sqDist b tgt)) :
    ¬ Real.sqrt (sqDist ((pose b a0 a1 a2 a3).forward ⟨Real.cos, Real.sin, Real.sqrt⟩) tgt)
        < tol := by
  rw [← dist_toE] at h ⊢
  have h1 := dist_triangle (toE b)
    (toE ((pose b a0 a1 a2 a3).forward ⟨Real.cos, Real.sin, Real.sqrt⟩)) (toE tgt)
  have h2 := reach_pose b a0 a1 a2 a3
  unfold tol
  norm_num at h ⊢
  linarith

end Reach

section Failure

variable {α : Type} [Zero α] [One α] [NatCast α] [OfScientific α] [Add α] [Sub α] [Mul α]
  [Div α] [Neg α] [LT α] [DecidableRel (fun a b : α => a < b)] [LE α]

/-- If no state satisfying a `setAngles`-stable property passes the tolerance test, the main
loop runs out of iterations and returns `false`. -/
theorem solveLoop_fails (P : ArmManipulator α → Prop)
    (hP : ∀ m v, P m → P (m.setAngles v)) (L : CMath α) (tgt : Vec3D α)
    (hfar : ∀ m, P m → ¬ L.sqrt (sqDist (m.forward L) tgt) < tol) (n : Nat) :
    ∀ (m : ArmManipulator α) (out : List α), P m →
      (solveLoop L tgt n m out (m.forward L)).ok = false := by
  induction n with
  | zero => intro m out _; rfl
  | succ n ih =>
    intro m out h
    rw [solveLoop, if_neg (hfar m h)]
    exact ih _ _ (hP _ _ (gradLoop_arm_induct P hP L tgt _ m out h))

end Failure

section FarTarget

/-- Over the reals, `solveIK` fails on every target at distance at least `8.5 + 0.01` from the
base. -/
theorem solveIK_far (m : ArmManipulator ℝ) (tgt : Vec3D ℝ) (out : List ℝ) (hm : Posed m)
    (h : 8.5 + 0.01 ≤ Real.sqrt (sqDist m.basePos tgt)) :
    (m.solveIK ⟨Real.cos, Real.sin, Real.sqrt⟩ tgt out).ok = false := by
  obtain ⟨b, a0, a1, a2, a3, rfl, _⟩ := hm
  have hb : (pose b a0 a1 a2 a3).basePos = b := rfl
  rw [hb] at h
  refine solveLoop_fails (fun m => ∃ c0 c1 c2 c3, m = pose b c0 c1 c2 c3) ?_ _ tgt ?_ maxIt _ _
    ⟨a0, a1, a2, a3, rfl⟩
  · rintro m v ⟨c0, c1, c2, c3, rfl⟩
    exact ⟨_, _, _, _, setAngles_pose b c0 c1 c2 c3 v⟩
  · rintro m ⟨c0, c1, c2, c3, rfl⟩
    exact far_not_close b tgt c0 c1 c2 c3 h

end FarTarget

section SolveFacts

variable {α : Type} [Zero α] [One α] [NatCast α] [OfScientific α] [Add α] [Sub α] [Mul α]
  [Div α] [Neg α] [LT α] [DecidableRel (fun a b : α => a < b)] [LE α]

theorem far_target_example :
    8.5 + 0.01 ≤ Real.sqrt (sqDist (ArmManipulator.create (⟨0, 0, 0⟩ : Vec3D ℝ)).basePos
      ⟨0, 100, 0⟩) := by
  rw [Real.le_sqrt' (by norm_num)]
  simp only [ArmManipulator.create, ArmManipulator.configure, sqDist]
  norm_num

theorem zero_pose_close_lit :
    Real.sqrt (sqDist ((ArmManipulator.create (⟨0, 0, 0⟩ : Vec3D ℝ)).endEffector
        ⟨Real.cos, Real.sin, Real.sqrt⟩) ⟨0, 8.5, 0⟩) < 0.01 :=
  zero_pose_close

end SolveFacts

section FailurePath

variable {α : Type} [Zero α] [One α] [NatCast α] [OfScientific α] [Add α] [Sub α] [Mul α]
  [Div α] [Neg α] [LT α] [DecidableRel (fun a b : α => a < b)] [LE α]

theorem gradLoop_out_length (L : CMath α) (tgt cur : Vec3D α) (m : ArmManipulator α)
    (out : List α) : (gradLoop L tgt cur m out).out.length = out.length := by
  unfold gradLoop
  have key : ∀ (l : List Nat) (s : GradState α),
      (l.foldl (gradStep L tgt cur) s).out.length = s.out.length := by
    intro l
    induction l with
    | nil => intro s; rfl
    | cons i l ih =>
      intro s
      rw [List.foldl_cons, ih]
      simp [gradStep]
  exact key _ _

theorem descend_length (out grad : List α) : (descend out grad).length = out.length := by
  unfold descend
  have key : ∀ (l : List Nat) (o : List α),
      (l.foldl (fun (o : List α) i => o.set i (o.getD i 0 - lr * grad.getD i 0)) o).length
        = o.length := by
    intro l
    induction l with
    | nil => intro o; rfl
    | cons i l ih =>
      intro o
      rw [List.foldl_cons, ih]
      simp
  exact key _ _

theorem solveLoop_out_length (L : CMath α) (tgt : Vec3D α) (n : Nat) :
    ∀ (m : ArmManipulator α) (out : List α) (cur : Vec3D α),
      (solveLoop L tgt n m out cur).out.length = out.length := by
  induction n with
  | zero => intro m out cur; rfl
  | succ n ih =>
    intro m out cur
    rw [solveLoop]
    split_ifs with ht
    · rfl
    · rw [ih, descend_length, gradLoop_out_length]

/-- A run of the main loop that returns `false` has made all its passes. -/
theorem solveLoop_false_iterate (L : CMath α) (tgt : Vec3D α) (n : Nat) :
    ∀ (m : ArmManipulator α) (out : List α),
      (solveLoop L tgt n m out (m.endEffector L)).ok = false →
      ((solveLoop L tgt n m out (m.endEffector L)).arm,
        (solveLoop L tgt n m out (m.endEffector L)).out) = (ikIter L tgt)^[n] (m, out) := by
  induction n with
  | zero => intro m out _; rfl
  | succ n ih =>
    intro m out h
    rw [solveLoop] at h ⊢
    split_ifs at h ⊢ with ht
    rw [Function.iterate_succ_apply]
    exact ih _ _ h

end FailurePath

section FailurePathExact

variable {α : Type} [LinearOrderedField α]

/-- What a failed `solveIK` leaves behind in a configured chain. -/
theorem solveIK_false_post (L : CMath α) (m : ArmManipulator α) (tgt : Vec3D α)
    (out : List α) (hm : Posed m) (hfail : (m.solveIK L tgt out).ok = false) :
    (m.solveIK L tgt out).out = ((ikIter L tgt)^[100] (m, m.angles)).2 ∧
    (m.solveIK L tgt out).arm = ((ikIter L tgt)^[100] (m, m.angles)).1 ∧
    ∃ o0 o1 o2 o3, (m.solveIK L tgt out).out = [o0, o1, o2, o3] ∧
      (m.solveIK L tgt out).arm.angles =
        [clamp o0 (-M_PI) M_PI, clamp o1 (-M_PI / 2) (M_PI / 2), clamp o2 0 8,
          clamp o3 (-M_PI) M_PI] := by
  have hit := solveLoop_false_iterate L tgt maxIt m m.angles hfail
  have hlen := solveLoop_out_length L tgt maxIt m m.angles (m.endEffector L)
  have hpost := (solveLoop_post L tgt maxIt m m.angles (m.endEffector L)
    (setAngles_angles_posed hm) rfl).1
  have hposed : Posed (m.solveIK L tgt out).arm :=
    solveLoop_arm_induct Posed (fun _ v h => posed_setAngles v h) L tgt maxIt _ _ _ hm
  refine ⟨(congrArg Prod.snd hit : _), (congrArg Prod.fst hit : _), ?_⟩
  change (m.solveIK L tgt out).out.length = m.angles.length at hlen
  change (m.solveIK L tgt out).arm.setAngles (m.solveIK L tgt out).out
    = (m.solveIK L tgt out).arm at hpost
  generalize (m.solveIK L tgt out).out = o at hlen hpost
  generalize (m.solveIK L tgt out).arm = r at hpost hposed
  obtain ⟨b, a0, a1, a2, a3, rfl, _⟩ := hm
  obtain ⟨b', c0, c1, c2, c3, rfl, _⟩ := hposed
  rcases o with _ | ⟨o0, _ | ⟨o1, _ | ⟨o2, _ | ⟨o3, _ | ⟨o4, r⟩⟩⟩⟩⟩ <;>
    simp [ArmManipulator.angles, pose] at hlen
  refine ⟨o0, o1, o2, o3, rfl, ?_⟩
  rw [← hpost, setAngles_pose]
  rfl

end FailurePathExact

section LimitFactsExact

variable {α : Type} [LinearOrderedField α]

theorem apply_angle_pose (b : Vec3D α) (a0 a1 a2 a3 : α) (h : InLimits a0 a1 a2 a3) :
    ∀ j ∈ (pose b a0 a1 a2 a3).joints, j.angle = j.lims.apply j.angle := by
  obtain ⟨h0, h1, h2, h3⟩ := h
  intro j hj
  simp only [pose, List.mem_cons, List.mem_singleton, List.not_mem_nil, or_false] at hj
  rcases hj with rfl | rfl | rfl | rfl <;>
    simp only [AngleLimit.apply, AngleLimit.ofRange, if_true]
  · exact (clamp_of_bounds _ _ _ h0.1 h0.2).symm
  · exact (clamp_of_bounds _ _ _ h1.1 h1.2).symm
  · exact (clamp_of_bounds _ _ _ h2.1 h2.2).symm
  · exact (clamp_of_bounds _ _ _ h3.1 h3.2).symm

theorem clamp_pi_joint1 : clamp (M_PI : α) (-M_PI / 2) (M_PI / 2) = M_PI / 2 := by
  have hpi := M_PI_pos (α := α)
  unfold clamp
  rw [if_neg (by linarith), if_pos (by linarith)]

theorem clamp_minus_ten_joint1 : clamp (-10 : α) (-M_PI / 2) (M_PI / 2) = -M_PI / 2 := by
  have h4 : (M_PI : α) < 4 := by unfold M_PI; norm_num
  unfold clamp
  rw [if_pos (by linarith)]

end LimitFactsExact

section SetAnglesFacts

variable {α : Type} [Zero α] [One α] [NatCast α] [OfScientific α] [Add α] [Sub α] [Mul α]
  [Div α] [Neg α] [LT α] [DecidableRel (fun a b : α => a < b)] [LE α]

theorem setAnglesLoop_length (js : List (ArmJoint α)) :
    ∀ v : List α, (setAnglesLoop js v).length = js.length := by
  induction js with
  | nil => intro v; cases v <;> rfl
  | cons j js ih =>
    intro v
    cases v with
    | nil => rfl
    | cons a as => simp [setAnglesLoop, ih as]

theorem setAnglesLoop_drop (js : List (ArmJoint α)) :
    ∀ v : List α, (setAnglesLoop js v).drop v.length = js.drop v.length := by
  induction js with
  | nil => intro v; cases v <;> rfl
  | cons j js ih =>
    intro v
    cases v with
    | nil => rfl
    | cons a as => simp [setAnglesLoop, ih as]

theorem setAnglesLoop_take (js : List (ArmJoint α)) :
    ∀ v : List α, setAnglesLoop js (v.take js.length) = setAnglesLoop js v := by
  induction js with
  | nil => intro v; cases v <;> rfl
  | cons j js ih =>
    intro v
    cases v with
    | nil => rfl
    | cons a as => simp [setAnglesLoop, ih as]

theorem setAnglesLoop_axis (js : List (ArmJoint α)) :
    ∀ v : List α, (setAnglesLoop js v).map ArmJoint.axis = js.map ArmJoint.axis := by
  induction js with
  | nil => intro v; cases v <;> rfl
  | cons j js ih =>
    intro v
    cases v with
    | nil => rfl
    | cons a as => simp [setAnglesLoop, ih as, ArmJoint.set]

theorem setAnglesLoop_lims (js : List (ArmJoint α)) :
    ∀ v : List α, (setAnglesLoop js v).map ArmJoint.lims = js.map ArmJoint.lims := by
  induction js with
  | nil => intro v; cases v <;> rfl
  | cons j js ih =>
    intro v
    cases v with
    | nil => rfl
    | cons a as => simp [setAnglesLoop, ih as, ArmJoint.set]

end SetAnglesFacts

/-! ## One pass of the gradient loop -/

section GradientPass

variable {α : Type} [Zero α] [One α] [NatCast α] [OfScientific α] [Add α] [Sub α] [Mul α]
  [Div α] [Neg α] [LT α] [DecidableRel (fun a b : α => a < b)] [LE α]

theorem set_restore (l : List α) (i : Nat) (x : α) : (l.set i x).set i (l.getD i 0) = l := by
  rw [List.set_set]
  apply List.ext_getElem?
  intro n
  rw [List.getElem?_set]
  split_ifs with h1 h2
  · subst h1
    simp [List.getElem?_eq_getElem h2]
  · subst h1
    exact (List.getElem?_eq_none (not_lt.mp h2)).symm
  · rfl

theorem gradStep_out (L : CMath α) (tgt cur : Vec3D α) (s : GradState α) (i : Nat) :
    (gradStep L tgt cur s i).out = s.out :=
  set_restore s.out i _

theorem setAnglesLoop_override (js : List (ArmJoint α)) :
    ∀ (w v : List α), js.length ≤ v.length →
      setAnglesLoop (setAnglesLoop js w) v = setAnglesLoop js v := by
  induction js with
  | nil => intro w v _; cases w <;> rfl
  | cons j js ih =>
    intro w v h
    cases v with
    | nil => simp at h
    | cons a as =>
      cases w with
      | nil => rfl
      | cons c cs =>
        simp only [setAnglesLoop]
        rw [ih cs as (by simpa using h)]
        rfl

theorem setAngles_override (m : ArmManipulator α) (w v : List α)
    (h : m.joints.length ≤ v.length) : (m.setAngles w).setAngles v = m.setAngles v := by
  simp only [ArmManipulator.setAngles, setAnglesLoop_override _ w v h]

theorem setAngles_joints_length (m : ArmManipulator α) (v : List α) :
    (m.setAngles v).joints.length = m.joints.length :=
  setAnglesLoop_length _ _

/-- The finite-difference loop, spelled out: `out` comes back unchanged, entry `i` of `grad` is
`(cost(out + 0.001 e_i) - sqDist(cur, tgt)) / 0.001`, and the manipulator it leaves behaves
like `m` under any later full-length `setAngles`. -/
theorem gradLoop_spec (L : CMath α) (tgt cur : Vec3D α) (m : ArmManipulator α) (out : List α)
    (hlen : m.joints.length ≤ out.length) :
    (gradLoop L tgt cur m out).out = out ∧
    (gradLoop L tgt cur m out).grad.length = out.length ∧
    (∀ i, i < out.length → (gradLoop L tgt cur m out).grad[i]? =
      some ((cost L m tgt (out.set i (out.getD i 0 + 0.001)) - sqDist cur tgt) / 0.001)) ∧
    (gradLoop L tgt cur m out).arm.joints.length = m.joints.length ∧
    (∀ v : List α, m.joints.length ≤ v.length →
      (gradLoop L tgt cur m out).arm.setAngles v = m.setAngles v) := by
  unfold gradLoop
  have key : ∀ k, k ≤ out.length →
      ((List.range k).foldl (gradStep L tgt cur) ⟨m, out, List.replicate out.length 0⟩).out
        = out ∧
      ((List.range k).foldl (gradStep L tgt cur)
        ⟨m, out, List.replicate out.length 0⟩).grad.length = out.length ∧
      (∀ i, i < k → ((List.range k).foldl (gradStep L tgt cur)
          ⟨m, out, List.replicate out.length 0⟩).grad[i]? =
        some ((cost L m tgt (out.set i (out.getD i 0 + 0.001)) - sqDist cur tgt) / 0.001)) ∧
      ((List.range k).foldl (gradStep L tgt cur)
        ⟨m, out, List.replicate out.length 0⟩).arm.joints.length = m.joints.length ∧
      (∀ v : List α, m.joints.length ≤ v.length →
        ((List.range k).foldl (gradStep L tgt cur)
          ⟨m, out, List.replicate out.length 0⟩).arm.setAngles v = m.setAngles v) := by
    intro k
    induction k with
    | zero =>
      intro _
      refine ⟨rfl, by simp, fun i hi => absurd hi (Nat.not_lt_zero i), rfl, fun v _ => rfl⟩
    | succ k ih =>
      intro hk
      obtain ⟨h1, h2, h3, h4, h5⟩ := ih (Nat.le_of_succ_le hk)
      rw [List.range_succ, List.foldl_append, List.foldl_cons, List.foldl_nil]
      generalize (List.range k).foldl (gradStep L tgt cur)
        ⟨m, out, List.replicate out.length 0⟩ = s at h1 h2 h3 h4 h5
      have hout1 : m.joints.length ≤ (s.out.set k (s.out.getD k 0 + 0.001)).length := by
        rw [List.length_set, h1]; exact hlen
      refine ⟨(gradStep_out L tgt cur s k).trans h1, ?_, ?_, ?_, ?_⟩
      · show (s.grad.set k _).length = out.length
        rw [List.length_set, h2]
      · intro i hi
        show (s.grad.set k _)[i]? = _
        rw [List.getElem?_set]
        by_cases hik : k = i
        · subst hik
          rw [if_pos rfl, if_pos (by rw [h2]; exact hk)]
          show some ((sqDist ((s.arm.setAngles
            (s.out.set k (s.out.getD k 0 + 0.001))).endEffector L) tgt - sqDist cur tgt)
              / 0.001) = _
          rw [h5 _ hout1, h1]
          rfl
        · rw [if_neg hik]
          exact h3 i (lt_of_le_of_ne (Nat.lt_succ_iff.mp hi) (fun h => hik h.symm))
      · show (s.arm.setAngles _).joints.length = m.joints.length
        rw [setAngles_joints_length, h4]
      · intro v hv
        show (s.arm.setAngles _).setAngles v = m.setAngles v
        rw [setAngles_override _ _ _ (by rw [h4]; exact hv), h5 v hv]
  exact key out.length (le_refl _)

/-- The update loop, spelled out entry by entry. -/
theorem descend_spec (out grad : List α) :
    (descend out grad).length = out.length ∧
    ∀ i, (descend out grad)[i]? = out[i]?.map (fun o => o - lr * grad.getD i 0) := by
  unfold descend
  have key : ∀ k, k ≤ out.length →
      ((List.range k).foldl
        (fun (o : List α) i => o.set i (o.getD i 0 - lr * grad.getD i 0)) out).length
          = out.length ∧
      ∀ i, ((List.range k).foldl
        (fun (o : List α) i => o.set i (o.getD i 0 - lr * grad.getD i 0)) out)[i]? =
          if i < k then out[i]?.map (fun o => o - lr * grad.getD i 0) else out[i]? := by
    intro k
    induction k with
    | zero => intro _; exact ⟨rfl, fun i => by simp⟩
    | succ k ih =>
      intro hk
      obtain ⟨h1, h2⟩ := ih (Nat.le_of_succ_le hk)
      rw [List.range_succ, List.foldl_append, List.foldl_cons, List.foldl_nil]
      generalize (List.range k).foldl
        (fun (o : List α) i => o.set i (o.getD i 0 - lr * grad.getD i 0)) out = o at h1 h2
      refine ⟨by rw [List.length_set, h1], fun i => ?_⟩
      rw [List.getElem?_set]
      have hkk : o[k]? = out[k]? := by rw [h2 k, if_neg (Nat.lt_irrefl k)]
      by_cases hik : k = i
      · subst hik
        rw [if_pos rfl, if_pos (by rw [h1]; exact hk), if_pos (Nat.lt_succ_self k),
          List.getD_eq_getElem?_getD, hkk, List.getElem?_eq_getElem hk]
        rfl
      · rw [if_neg hik, h2 i]
        by_cases hlt : i < k
        · rw [if_pos hlt, if_pos (Nat.lt_succ_of_lt hlt)]
        · rw [if_neg hlt, if_neg (fun h => hlt (lt_of_le_of_ne (Nat.lt_succ_iff.mp h)
            (fun h => hik h.symm)))]
  obtain ⟨h1, h2⟩ := key out.length (le_refl _)
  refine ⟨h1, fun i => ?_⟩
  rw [h2 i]
  by_cases hi : i < out.length
  · rw [if_pos hi]
  · rw [if_neg hi, List.getElem?_eq_none (not_lt.mp hi)]
    rfl

/-- One pass of the main loop, spelled out: every entry of the working vector moves by
`-lr` times its finite-difference quotient, and the manipulator is set from the new vector. -/
theorem ikIter_spec (L : CMath α) (tgt : Vec3D α) (m : ArmManipulator α) (out : List α)
    (hlen : m.joints.length ≤ out.length) :
    (ikIter L tgt (m, out)).2.length = out.length ∧
    (∀ i, i < out.length → (ikIter L tgt (m, out)).2[i]? =
      some (out.getD i 0 - lr * ((cost L m tgt (out.set i (out.getD i 0 + 0.001))
        - sqDist (m.endEffector L) tgt) / 0.001))) ∧
    (ikIter L tgt (m, out)).1 = m.setAngles (ikIter L tgt (m, out)).2 ∧
    (ikIter L tgt (m, out)).1.joints.length = m.joints.length := by
  obtain ⟨g1, g2, g3, g4, g5⟩ := gradLoop_spec L tgt (m.endEffector L) m out hlen
  obtain ⟨d1, d2⟩ := descend_spec (gradLoop L tgt (m.endEffector L) m out).out
    (gradLoop L tgt (m.endEffector L) m out).grad
  rw [g1] at d1 d2
  have hl : (ikIter L tgt (m, out)).2.length = out.length := by
    show (descend _ _).length = _
    rw [g1]
    exact d1
  refine ⟨hl, ?_, ?_, ?_⟩
  · intro i hi
    have hget : out.getD i 0 = out[i] := by
      rw [List.getD_eq_getElem?_getD, List.getElem?_eq_getElem hi]
      rfl
    have hg : (gradLoop L tgt (m.endEffector L) m out).grad.getD i 0 =
        (cost L m tgt (out.set i (out.getD i 0 + 0.001)) - sqDist (m.endEffector L) tgt)
          / 0.001 := by
      rw [List.getD_eq_getElem?_getD, g3 i hi]
      rfl
    show (descend _ _)[i]? = _
    rw [g1, d2 i, hg, List.getElem?_eq_getElem hi, hget]
    rfl
  · show (gradLoop L tgt (m.endEffector L) m out).arm.setAngles _ = _
    exact g5 _ (le_of_le_of_eq hlen hl.symm)
  · show ((gradLoop L tgt (m.endEffector L) m out).arm.setAngles _).joints.length = _
    rw [setAngles_joints_length, g4]

end GradientPass

/-! ## A failed solve that moves the arm -/

section SaturationExact

variable {α : Type} [LinearOrderedField α]

theorem clamp_of_high_le (v lo hi : α) (h : lo ≤ hi) (hv : hi ≤ v) : clamp v lo hi = hi := by
  unfold clamp
  rw [if_neg (not_lt.mpr (le_trans h hv))]
  split_ifs with h2
  · rfl
  · exact le_antisymm (not_lt.mp h2) hv

theorem stuck_step (L : CMath α) (tgt b : Vec3D α) (s : ArmManipulator α × List α)
    (h : Stuck b s) : Stuck b (ikIter L tgt s) := by
  obtain ⟨o0, o1, o2, o3, ho, hge, hm⟩ := h
  obtain ⟨m, out⟩ := s
  simp only at ho hm
  subst ho
  have hlen : m.joints.length ≤ [o0, o1, o2, o3].length := by
    rw [hm, setAngles_joints_length]; exact le_refl 4
  obtain ⟨r1, r2, r3, _⟩ := ikIter_spec L tgt m [o0, o1, o2, o3] hlen
  have h0 := r2 0 (by simp)
  have hsame : m.setAngles [o0 + 0.001, o1, o2, o3] = m := by
    rw [hm, setAngles_override _ _ _ (le_refl 4), setAngles_pose, setAngles_pose]
    simp only [List.getElem?_cons_zero, List.getElem?_cons_succ, newAngle]
    rw [clamp_of_high_le _ _ _ limit0_ok hge,
      clamp_of_high_le _ _ _ limit0_ok (le_trans hge (by norm_num))]
  have hcost : cost L m tgt ([o0, o1, o2, o3].set 0 ([o0, o1, o2, o3].getD 0 0 + 0.001))
      = sqDist (m.endEffector L) tgt := by
    show sqDist ((m.setAngles [o0 + 0.001, o1, o2, o3]).endEffector L) tgt = _
    rw [hsame]
  rw [hcost, sub_self, zero_div, mul_zero, sub_zero] at h0
  unfold Stuck
  generalize (ikIter L tgt (m, [o0, o1, o2, o3])).2 = p at r1 r3 h0 ⊢
  generalize (ikIter L tgt (m, [o0, o1, o2, o3])).1 = m' at r3 ⊢
  rcases p with _ | ⟨p0, _ | ⟨p1, _ | ⟨p2, _ | ⟨p3, _ | ⟨p4, r⟩⟩⟩⟩⟩ <;> simp at r1
  simp only [List.getElem?_cons_zero, List.getD_cons_zero, Option.some.injEq] at h0
  subst h0
  refine ⟨_, p1, p2, p3, rfl, hge, ?_⟩
  show m' = _
  rw [r3, hm, setAngles_override _ _ _ (le_refl 4)]

theorem stuck_iterate (L : CMath α) (tgt b : Vec3D α) (n : Nat) :
    ∀ s : ArmManipulator α × List α, Stuck b s → Stuck b ((ikIter L tgt)^[n] s) := by
  induction n with
  | zero => intro s h; exact h
  | succ n ih =>
    intro s h
    rw [Function.iterate_succ_apply]
    exact ih _ (stuck_step L tgt b s h)

theorem stuck_angles (b : Vec3D α) (s : ArmManipulator α × List α) (h : Stuck b s) :
    s.1.angles[0]? = some (M_PI : α) := by
  obtain ⟨o0, o1, o2, o3, ho, hge, hm⟩ := h
  rw [hm, ho, setAngles_pose]
  simp only [List.getElem?_cons_zero, newAngle, clamp_of_high_le _ _ _ limit0_ok hge]
  rfl

end SaturationExact

section SaturationReal

theorem sidewise_target_far :
    8.5 + 0.01 ≤ Real.sqrt (sqDist (ArmManipulator.create (⟨0, 0, 0⟩ : Vec3D ℝ)).basePos
      ⟨-1000, 0, 0⟩) := by
  rw [Real.le_sqrt' (by norm_num)]
  simp only [ArmManipulator.create, ArmManipulator.configure, sqDist]
  norm_num

theorem first_pass_cost :
    cost ⟨Real.cos, Real.sin, Real.sqrt⟩ (ArmManipulator.create (⟨0, 0, 0⟩ : Vec3D ℝ))
        ⟨-1000, 0, 0⟩ [0 + 0.001, 0, 0, 0]
      - sqDist ((ArmManipulator.create (⟨0, 0, 0⟩ : Vec3D ℝ)).endEffector
          ⟨Real.cos, Real.sin, Real.sqrt⟩) ⟨-1000, 0, 0⟩
      = -17000 * Real.sin 0.001 := by
  have hs : (ArmManipulator.create (⟨0, 0, 0⟩ : Vec3D ℝ)).setAngles [0 + 0.001, 0, 0, 0]
      = pose ⟨0, 0, 0⟩ 0.001 0 0 0 := by
    have hpi := M_PI_pos (α := ℝ)
    rw [create_eq_pose, setAngles_pose]
    simp only [List.getElem?_cons_zero, List.getElem?_cons_succ, newAngle]
    rw [clamp_of_bounds _ _ _ (by linarith) (by unfold M_PI; norm_num),
      clamp_of_bounds _ _ _ (by linarith) (by linarith),
      clamp_of_bounds _ _ _ (le_refl _) (by norm_num),
      clamp_of_bounds _ _ _ (by linarith) (by linarith)]
    norm_num
  unfold cost
  rw [hs, ArmManipulator.endEffector, ArmManipulator.endEffector, forward_create_zero,
    forward_pose]
  simp only [rotX, rotY, rotZ, Vec3D.add, Vec3D.scale, sqDist, Real.cos_zero, Real.sin_zero]
  nlinarith [Real.sin_sq_add_cos_sq (0.001 : ℝ)]

theorem first_pass_stuck :
    Stuck (⟨0, 0, 0⟩ : Vec3D ℝ)
      (ikIter ⟨Real.cos, Real.sin, Real.sqrt⟩ ⟨-1000, 0, 0⟩
        (ArmManipulator.create (⟨0, 0, 0⟩ : Vec3D ℝ),
          (ArmManipulator.create (⟨0, 0, 0⟩ : Vec3D ℝ)).angles)) := by
  have ha : (ArmManipulator.create (⟨0, 0, 0⟩ : Vec3D ℝ)).angles = [0, 0, 0, 0] := by
    rw [create_eq_pose]; rfl
  rw [ha]
  obtain ⟨r1, r2, r3, _⟩ := ikIter_spec ⟨Real.cos, Real.sin, Real.sqrt⟩ ⟨-1000, 0, 0⟩
    (ArmManipulator.create (⟨0, 0, 0⟩ : Vec3D ℝ)) [0, 0, 0, 0] (le_refl 4)
  have h0 := r2 0 (by simp)
  have hc :
      cost ⟨Real.cos, Real.sin, Real.sqrt⟩ (ArmManipulator.create (⟨0, 0, 0⟩ : Vec3D ℝ))
        ⟨-1000, 0, 0⟩ ([0, 0, 0, 0].set 0 ([0, 0, 0, 0].getD 0 0 + 0.001))
      - sqDist ((ArmManipulator.create (⟨0, 0, 0⟩ : Vec3D ℝ)).endEffector
          ⟨Real.cos, Real.sin, Real.sqrt⟩) ⟨-1000, 0, 0⟩
      = -17000 * Real.sin 0.001 := first_pass_cost
  rw [hc] at h0
  unfold Stuck
  generalize (ikIter ⟨Real.cos, Real.sin, Real.sqrt⟩ ⟨-1000, 0, 0⟩
    (ArmManipulator.create (⟨0, 0, 0⟩ : Vec3D ℝ), [0, 0, 0, 0])).2 = p at r1 r3 h0 ⊢
  generalize (ikIter ⟨Real.cos, Real.sin, Real.sqrt⟩ ⟨-1000, 0, 0⟩
    (ArmManipulator.create (⟨0, 0, 0⟩ : Vec3D ℝ), [0, 0, 0, 0])).1 = m' at r3 ⊢
  rcases p with _ | ⟨p0, _ | ⟨p1, _ | ⟨p2, _ | ⟨p3, _ | ⟨p4, r⟩⟩⟩⟩⟩ <;> simp at r1
  simp only [List.getElem?_cons_zero, List.getD_cons_zero, Option.some.injEq] at h0
  refine ⟨p0, p1, p2, p3, rfl, ?_, ?_⟩
  · rw [h0]
    have hsin := Real.sin_gt_sub_cube (x := 0.001) (by norm_num) (by norm_num)
    unfold M_PI lr
    norm_num at hsin ⊢
    linarith
  · show m' = _
    rw [r3, create_eq_pose]

/-- A failed `solveIK` that does not leave the arm where it found it: base `(0,0,0)`, zero
pose, target `(-1000, 0, 0)`.  The first update throws entry 0 of the working vector far past
`M_PI`; joint 0 saturates at its limit and stays there for the remaining passes. -/
theorem failed_solve_moves_arm :
    ((ArmManipulator.create (⟨0, 0, 0⟩ : Vec3D ℝ)).solveIK ⟨Real.cos, Real.sin, Real.sqrt⟩
      ⟨-1000, 0, 0⟩ []).ok = false ∧
    (ArmManipulator.create (⟨0, 0, 0⟩ : Vec3D ℝ)).angles[0]? = some 0 ∧
    ((ArmManipulator.create (⟨0, 0, 0⟩ : Vec3D ℝ)).solveIK ⟨Real.cos, Real.sin, Real.sqrt⟩
      ⟨-1000, 0, 0⟩ []).arm.angles[0]? = some (M_PI : ℝ) := by
  have hfail := solveIK_far (ArmManipulator.create (⟨0, 0, 0⟩ : Vec3D ℝ)) ⟨-1000, 0, 0⟩ []
    (posed_create _) sidewise_target_far
  refine ⟨hfail, by rw [create_eq_pose]; rfl, ?_⟩
  have hit := (solveIK_false_post ⟨Real.cos, Real.sin, Real.sqrt⟩ _ _ _
    (posed_create _) hfail).2.1
  rw [hit]
  have h100 : (100 : Nat) = 99 + 1 := rfl
  rw [h100, Function.iterate_succ_apply]
  exact stuck_angles _ _ (stuck_iterate _ _ _ 99 _ first_pass_stuck)

end SaturationReal

/-! ## Shape of a reachable manipulator -/

section Shape

variable {α : Type} [Zero α] [One α] [NatCast α] [OfScientific α] [Add α] [Sub α] [Mul α]
  [Div α] [Neg α] [LT α] [DecidableRel (fun a b : α => a < b)] [LE α]

theorem jointsWorld_fold_head (L : CMath α) (m : ArmManipulator α) (l : List Nat) :
    ∀ (pos : Vec3D α) (out : List (Vec3D α)), out ≠ [] →
      (l.foldl (fun (s : Vec3D α × List (Vec3D α)) i =>
          let p := advance L m s.1 i
          (p, s.2 ++ [p])) (pos, out)).2.head? = out.head? := by
  induction l with
  | nil => intro pos out _; rfl
  | cons i l ih =>
    intro pos out h
    rw [List.foldl_cons, ih _ _ (by simp)]
    cases out with
    | nil => exact absurd rfl h
    | cons a as => rfl

theorem jointsWorld_length (L : CMath α) (m : ArmManipulator α) :
    (m.jointsWorld L).length = m.joints.length + 1 := by
  have h := (jointsWorld_fold L m (List.range m.joints.length) m.basePos [m.basePos] rfl).2
  rw [List.length_range, List.length_singleton, Nat.add_comm] at h
  exact h

theorem jointsWorld_head (L : CMath α) (m : ArmManipulator α) :
    (m.jointsWorld L).head? = some m.basePos :=
  jointsWorld_fold_head L m _ m.basePos [m.basePos] (by simp)

theorem posed_shape {m : ArmManipulator α} (h : Posed m) :
    m.joints.length = 4 ∧ m.links.length = 4 ∧ m.angles.length = 4 ∧ m.count = 4 := by
  obtain ⟨b, a0, a1, a2, a3, rfl, _⟩ := h
  exact ⟨rfl, rfl, rfl, rfl⟩

end Shape

section ShapeExact

variable {α : Type} [LinearOrderedField α]

theorem maxReach_pose (b : Vec3D α) (a0 a1 a2 a3 : α) :
    (pose b a0 a1 a2 a3).maxReach = 8.5 := by
  simp only [ArmManipulator.maxReach, pose, ArmManipulator.create, ArmManipulator.configure,
    List.foldl_cons, List.foldl_nil]
  norm_num

theorem forward_zero_pose (L : CMath α) (b : Vec3D α) (hc : L.cos 0 = 1) (hs : L.sin 0 = 0) :
    (pose b 0 0 0 0).forward L = b.add ⟨0, 8.5, 0⟩ := by
  rw [forward_pose]
  simp only [rotX, rotY, rotZ, Vec3D.add, Vec3D.scale, hc, hs]
  norm_num
  ring

end ShapeExact

section ReachReal

theorem sqDist_comm (p q : Vec3D ℝ) : sqDist p q = sqDist q p := by
  unfold sqDist; ring

theorem zero_pose_distance (b : Vec3D ℝ) :
    Real.sqrt (sqDist ((pose b 0 0 0 0).forward ⟨Real.cos, Real.sin, Real.sqrt⟩) b) = 8.5 := by
  rw [forward_zero_pose _ b Real.cos_zero Real.sin_zero]
  have h : sqDist (b.add ⟨0, 8.5, 0⟩) b = 8.5 ^ 2 := by
    simp only [sqDist, Vec3D.add]; ring
  rw [h, Real.sqrt_sq (by norm_num)]

end ReachReal

/-! ## The boundary around `solveIK` -/

section Boundary

variable {α : Type} [Zero α] [One α] [NatCast α] [OfScientific α] [Add α] [Sub α] [Mul α]
  [Div α] [Neg α] [LT α] [DecidableRel (fun a b : α => a < b)] [LE α]

theorem toSizeT_ne_four (n : Int) (hlo : -2 ^ 31 ≤ n) (hhi : n < 2 ^ 31) (hn : n ≠ 4) :
    toSizeT n ≠ 4 := by
  unfold toSizeT
  omega

theorem toSizeT_four : toSizeT 4 = 4 := by decide

theorem toInt_four : toInt 4 = 4 := by decide

/-- Copying four solver results into a caller's array of at least four entries. -/
theorem copy_four (ang : List α) (o0 o1 o2 o3 : α) (h : 4 ≤ ang.length) :
    (List.range 4).foldl (fun (a : List α) i => a.set i ([o0, o1, o2, o3].getD i 0)) ang
      = [o0, o1, o2, o3] ++ ang.drop 4 := by
  rcases ang with _ | ⟨x0, _ | ⟨x1, _ | ⟨x2, _ | ⟨x3, r⟩⟩⟩⟩ <;> simp at h
  simp [List.range_succ]

theorem solveIK_out_length (L : CMath α) (m : ArmManipulator α) (tgt : Vec3D α)
    (out : List α) (hm : Posed m) : (m.solveIK L tgt out).out.length = 4 := by
  have h := solveLoop_out_length L tgt maxIt m m.angles (m.endEffector L)
  rw [(posed_shape hm).2.2.1] at h
  exact h

/-- The boundary call on a valid handle with `count = 4`, in terms of the core solver. -/
theorem Arm_SolveIK_four (L : CMath α) (m : ArmManipulator α) (tx ty tz : α) (ang : List α)
    (hm : Posed m) (hlen : 4 ≤ ang.length) :
    Arm_SolveIK L (some m) tx ty tz ang 4 =
      ⟨if (m.solveIK L ⟨tx, ty, tz⟩ []).ok then 1 else 0,
        some (m.solveIK L ⟨tx, ty, tz⟩ []).arm,
        if (m.solveIK L ⟨tx, ty, tz⟩ []).ok then
          (m.solveIK L ⟨tx, ty, tz⟩ []).out ++ ang.drop 4
        else ang⟩ := by
  have hcount : m.count = 4 := (posed_shape hm).2.2.2
  have hl := solveIK_out_length L m ⟨tx, ty, tz⟩ [] hm
  have hsame : ∀ res : List α, m.solveIK L ⟨tx, ty, tz⟩ res = m.solveIK L ⟨tx, ty, tz⟩ [] :=
    fun _ => rfl
  simp only [Arm_SolveIK, toSizeT_four, hcount, ne_eq, not_true_eq_false, if_false, hsame]
  generalize m.solveIK L ⟨tx, ty, tz⟩ [] = r at hl
  obtain ⟨ok, arm, out⟩ := r
  rcases out with _ | ⟨o0, _ | ⟨o1, _ | ⟨o2, _ | ⟨o3, _ | ⟨o4, r⟩⟩⟩⟩⟩ <;> simp at hl
  cases ok
  · rfl
  · simp only [if_true]
    have h4 : (4 : Int).toNat = 4 := rfl
    rw [h4, copy_four ang o0 o1 o2 o3 hlen]

end Boundary

/-! ## The main loop as an iteration -/

section MainLoop

variable {α : Type} [Zero α] [One α] [NatCast α] [OfScientific α] [Add α] [Sub α] [Mul α]
  [Div α] [Neg α] [LT α] [DecidableRel (fun a b : α => a < b)] [LE α]

/-- A pass that does not take the early return continues from `ikIter` of the state. -/
theorem solveLoop_step (L : CMath α) (tgt : Vec3D α) (n : Nat)
    (s : ArmManipulator α × List α) (h : ¬ closeEnough L tgt s) :
    solveLoop L tgt (n + 1) s.1 s.2 (s.1.endEffector L) =
      solveLoop L tgt n (ikIter L tgt s).1 (ikIter L tgt s).2
        ((ikIter L tgt s).1.endEffector L) := by
  unfold closeEnough at h
  rw [solveLoop, if_neg h]
  rfl

/-- A pass whose tolerance test succeeds returns at once. -/
theorem solveLoop_stop (L : CMath α) (tgt : Vec3D α) (n : Nat)
    (s : ArmManipulator α × List α) (h : closeEnough L tgt s) :
    solveLoop L tgt (n + 1) s.1 s.2 (s.1.endEffector L) = ⟨true, s.1.setAngles s.2, s.2⟩ := by
  unfold closeEnough at h
  rw [solveLoop, if_pos h]

/-- The loop returns at the first state of the iteration that passes the tolerance test. -/
theorem solveLoop_first_pass (L : CMath α) (tgt : Vec3D α) (n : Nat) :
    ∀ (s : ArmManipulator α × List α) (k : Nat), k < n →
      (∀ j, j < k → ¬ closeEnough L tgt ((ikIter L tgt)^[j] s)) →
      closeEnough L tgt ((ikIter L tgt)^[k] s) →
      solveLoop L tgt n s.1 s.2 (s.1.endEffector L) =
        ⟨true, ((ikIter L tgt)^[k] s).1.setAngles ((ikIter L tgt)^[k] s).2,
          ((ikIter L tgt)^[k] s).2⟩ := by
  induction n with
  | zero => intro s k hk; exact absurd hk (Nat.not_lt_zero k)
  | succ n ih =>
    intro s k hk hbefore hat
    cases k with
    | zero => exact solveLoop_stop L tgt n s hat
    | succ k =>
      rw [solveLoop_step L tgt n s (hbefore 0 (Nat.succ_pos k))]
      have h := ih (ikIter L tgt s) k (Nat.lt_of_succ_lt_succ hk)
        (fun j hj => by
          have := hbefore (j + 1) (Nat.succ_lt_succ hj)
          rwa [Function.iterate_succ_apply] at this)
        (by rwa [Function.iterate_succ_apply] at hat)
      rw [h, Function.iterate_succ_apply]

/-- The loop returns `false` exactly when none of its `n` tolerance tests passes. -/
theorem solveLoop_false_iff (L : CMath α) (tgt : Vec3D α) (n : Nat) :
    ∀ (s : ArmManipulator α × List α),
      (solveLoop L tgt n s.1 s.2 (s.1.endEffector L)).ok = false ↔
        ∀ k, k < n → ¬ closeEnough L tgt ((ikIter L tgt)^[k] s) := by
  induction n with
  | zero =>
    intro s
    exact ⟨fun _ k hk => absurd hk (Nat.not_lt_zero k), fun _ => rfl⟩
  | succ n ih =>
    intro s
    by_cases hc : closeEnough L tgt s
    · rw [solveLoop_stop L tgt n s hc]
      constructor
      · intro h; exact absurd h (by simp)
      · intro h; exact absurd hc (h 0 (Nat.succ_pos n))
    · rw [solveLoop_step L tgt n s hc, ih (ikIter L tgt s)]
      constructor
      · intro h k hk
        cases k with
        | zero => exact hc
        | succ k =>
          rw [Function.iterate_succ_apply]
          exact h k (Nat.lt_of_succ_lt_succ hk)
      · intro h k hk
        have := h (k + 1) (Nat.succ_lt_succ hk)
        rwa [Function.iterate_succ_apply] at this

/-- A successful run stopped at a first passing state before the iteration budget ran out. -/
theorem solveLoop_true_first (L : CMath α) (tgt : Vec3D α) (n : Nat)
    (s : ArmManipulator α × List α)
    (h : (solveLoop L tgt n s.1 s.2 (s.1.endEffector L)).ok = true) :
    ∃ k, k < n ∧ closeEnough L tgt ((ikIter L tgt)^[k] s) ∧
      (∀ j, j < k → ¬ closeEnough L tgt ((ikIter L tgt)^[j] s)) ∧
      solveLoop L tgt n s.1 s.2 (s.1.endEffector L) =
        ⟨true, ((ikIter L tgt)^[k] s).1.setAngles ((ikIter L tgt)^[k] s).2,
          ((ikIter L tgt)^[k] s).2⟩ := by
  classical
  have hex : ∃ k, k < n ∧ closeEnough L tgt ((ikIter L tgt)^[k] s) := by
    by_contra hno
    have hall : ∀ k, k < n → ¬ closeEnough L tgt ((ikIter L tgt)^[k] s) :=
      fun k hk hck => hno ⟨k, hk, hck⟩
    rw [(solveLoop_false_iff L tgt n s).mpr hall] at h
    exact absurd h (by simp)
  have hmin : ∀ j, j < Nat.find hex → ¬ closeEnough L tgt ((ikIter L tgt)^[j] s) := by
    intro j hj hcj
    exact Nat.find_min hex hj ⟨lt_trans hj (Nat.find_spec hex).1, hcj⟩
  exact ⟨Nat.find hex, (Nat.find_spec hex).1, (Nat.find_spec hex).2, hmin,
    solveLoop_first_pass L tgt n s _ (Nat.find_spec hex).1 hmin (Nat.find_spec hex).2⟩

end MainLoop

section IterationInvariantExact

variable {α : Type} [LinearOrderedField α]

/-- Along the passes of `solveIK` started in a configured chain `m`, the working vector has
four entries, the manipulator has been set from it, and the manipulator differs from `m` only
in its angles (any full-length `setAngles` gives the same result on both). -/
theorem iterate_inv (L : CMath α) (tgt : Vec3D α) (m : ArmManipulator α) (hm : Posed m)
    (k : Nat) :
    ((ikIter L tgt)^[k] (m, m.angles)).2.length = 4 ∧
    ((ikIter L tgt)^[k] (m, m.angles)).1.joints.length = 4 ∧
    ((ikIter L tgt)^[k] (m, m.angles)).1.setAngles ((ikIter L tgt)^[k] (m, m.angles)).2
      = ((ikIter L tgt)^[k] (m, m.angles)).1 ∧
    (∀ v : List α, 4 ≤ v.length →
      ((ikIter L tgt)^[k] (m, m.angles)).1.setAngles v = m.setAngles v) := by
  induction k with
  | zero =>
    obtain ⟨h1, _, h3, _⟩ := posed_shape hm
    exact ⟨h3, h1, setAngles_angles_posed hm, fun _ _ => rfl⟩
  | succ k ih =>
    obtain ⟨i1, i2, _, i4⟩ := ih
    rw [Function.iterate_succ_apply']
    generalize (ikIter L tgt)^[k] (m, m.angles) = s at i1 i2 i4
    obtain ⟨r1, _, r3, r4⟩ := ikIter_spec L tgt s.1 s.2 (by rw [i1, i2])
    have e : ikIter L tgt (s.1, s.2) = ikIter L tgt s := rfl
    rw [e] at r1 r3 r4
    refine ⟨by rw [r1, i1], by rw [r4, i2], ?_, ?_⟩
    · rw [r3, setAngles_same, ← r3]
    · intro v hv
      rw [r3, setAngles_override _ _ _ (by rw [i2]; exact hv), i4 v hv]

/-- After any call of `solveIK` in a configured chain the returned vector has four entries and
`angles()` is that vector with each entry clamped to the limit of its joint. -/
theorem solveIK_angles_clamped (L : CMath α) (m : ArmManipulator α) (tgt : Vec3D α)
    (out : List α) (hm : Posed m) :
    ∃ o0 o1 o2 o3, (m.solveIK L tgt out).out = [o0, o1, o2, o3] ∧
      (m.solveIK L tgt out).arm.angles =
        [clamp o0 (-M_PI) M_PI, clamp o1 (-M_PI / 2) (M_PI / 2), clamp o2 0 8,
          clamp o3 (-M_PI) M_PI] := by
  have hlen := solveIK_out_length L m tgt out hm
  have hpost := (solveLoop_post L tgt maxIt m m.angles (m.endEffector L)
    (setAngles_angles_posed hm) rfl).1
  have hposed : Posed (m.solveIK L tgt out).arm :=
    solveLoop_arm_induct Posed (fun _ v h => posed_setAngles v h) L tgt maxIt _ _ _ hm
  change (m.solveIK L tgt out).arm.setAngles (m.solveIK L tgt out).out
    = (m.solveIK L tgt out).arm at hpost
  generalize (m.solveIK L tgt out).out = o at hlen hpost
  generalize (m.solveIK L tgt out).arm = r at hpost hposed
  obtain ⟨b, c0, c1, c2, c3, rfl, _⟩ := hposed
  rcases o with _ | ⟨o0, _ | ⟨o1, _ | ⟨o2, _ | ⟨o3, _ | ⟨o4, r⟩⟩⟩⟩⟩ <;> simp at hlen
  refine ⟨o0, o1, o2, o3, rfl, ?_⟩
  rw [← hpost, setAngles_pose]
  rfl

end IterationInvariantExact

/-! ## A successful solve whose result leaves the joint limits -/

section OvershootGeneric

variable {α : Type} [Zero α] [One α] [NatCast α] [OfScientific α] [Add α] [Sub α] [Mul α]
  [Div α] [Neg α] [LT α] [DecidableRel (fun a b : α => a < b)] [LE α]

theorem clamp_of_lt_low (v lo hi : α) (h : v < lo) : clamp v lo hi = lo := by
  unfold clamp
  rw [if_pos h]

theorem setAngles_four_pose (b : Vec3D α) (c0 c1 c2 c3 x0 x1 x2 x3 : α) :
    (pose b c0 c1 c2 c3).setAngles [x0, x1, x2, x3] =
      pose b (clamp x0 (-M_PI) M_PI) (clamp x1 (-M_PI / 2) (M_PI / 2)) (clamp x2 0 8)
        (clamp x3 (-M_PI) M_PI) := by
  rw [setAngles_pose]
  rfl

end OvershootGeneric

section OvershootGenericExact

variable {α : Type} [LinearOrderedField α]

theorem clamp_zero_limits :
    clamp (0 : α) (-M_PI) M_PI = 0 ∧ clamp (0 : α) (-M_PI / 2) (M_PI / 2) = 0 ∧
      clamp (0 : α) 0 8 = 0 := by
  have hpi := M_PI_pos (α := α)
  exact ⟨clamp_of_bounds _ _ _ (by linarith) (by linarith),
    clamp_of_bounds _ _ _ (by linarith) (by linarith),
    clamp_of_bounds _ _ _ (le_refl _) (by norm_num)⟩

theorem clamp_small_limits (x : α) (h0 : 0 ≤ x) (h1 : x ≤ 1) :
    clamp x (-M_PI) M_PI = x ∧ clamp x (-M_PI / 2) (M_PI / 2) = x ∧ clamp x 0 8 = x := by
  have hpi : (3 : α) < M_PI := by unfold M_PI; norm_num
  exact ⟨clamp_of_bounds _ _ _ (by linarith) (by linarith),
    clamp_of_bounds _ _ _ (by linarith) (by linarith),
    clamp_of_bounds _ _ _ h0 (by linarith)⟩

end OvershootGenericExact

section OvershootReal

theorem sqDist_joint0 (a : ℝ) :
    sqDist ((pose (⟨0, 0, 0⟩ : Vec3D ℝ) a 0 0 0).forward ⟨Real.cos, Real.sin, Real.sqrt⟩)
        ⟨-0.02, 8.5, 0⟩
      = (0.02 - 8.5 * Real.sin a) ^ 2 + (8.5 * Real.cos a - 8.5) ^ 2 := by
  rw [forward_pose]
  simp only [rotX, rotY, rotZ, Vec3D.add, Vec3D.scale, sqDist, Real.cos_zero, Real.sin_zero]
  ring

theorem sqDist_joint1 (a : ℝ) :
    sqDist ((pose (⟨0, 0, 0⟩ : Vec3D ℝ) 0 a 0 0).forward ⟨Real.cos, Real.sin, Real.sqrt⟩)
        ⟨-0.02, 8.5, 0⟩ = 0.0004 := by
  rw [forward_pose]
  simp only [rotX, rotY, rotZ, Vec3D.add, Vec3D.scale, sqDist, Real.cos_zero, Real.sin_zero]
  ring

theorem sqDist_joint2 (a : ℝ) :
    sqDist ((pose (⟨0, 0, 0⟩ : Vec3D ℝ) 0 0 a 0).forward ⟨Real.cos, Real.sin, Real.sqrt⟩)
        ⟨-0.02, 8.5, 0⟩
      = 0.0004 + (3.5 * Real.cos a - 3.5) ^ 2 + (3.5 * Real.sin a) ^ 2 := by
  rw [forward_pose]
  simp only [rotX, rotY, rotZ, Vec3D.add, Vec3D.scale, sqDist, Real.cos_zero, Real.sin_zero]
  ring

theorem sqDist_joint3 (a : ℝ) :
    sqDist ((pose (⟨0, 0, 0⟩ : Vec3D ℝ) 0 0 0 a).forward ⟨Real.cos, Real.sin, Real.sqrt⟩)
        ⟨-0.02, 8.5, 0⟩ = 0.0004 := by
  rw [forward_pose]
  simp only [rotX, rotY, rotZ, Vec3D.add, Vec3D.scale, sqDist, Real.cos_zero, Real.sin_zero]
  ring

theorem near_target_start :
    sqDist ((ArmManipulator.create (⟨0, 0, 0⟩ : Vec3D ℝ)).endEffector
      ⟨Real.cos, Real.sin, Real.sqrt⟩) ⟨-0.02, 8.5, 0⟩ = 0.0004 := by
  rw [ArmManipulator.endEffector, create_eq_pose]
  exact sqDist_joint1 0

theorem near_target_not_close :
    ¬ closeEnough ⟨Real.cos, Real.sin, Real.sqrt⟩ ⟨-0.02, 8.5, 0⟩
      (ArmManipulator.create (⟨0, 0, 0⟩ : Vec3D ℝ),
        (ArmManipulator.create (⟨0, 0, 0⟩ : Vec3D ℝ)).angles) := by
  unfold closeEnough
  show ¬ Real.sqrt _ < _
  rw [near_target_start, Real.sqrt_lt' (by norm_num [tol])]
  norm_num [tol]

end OvershootReal

section OvershootRun

theorem small_angle_facts :
    (0.001 : ℝ) - 0.001 ^ 3 / 4 < Real.sin 0.001 ∧ Real.sin 0.001 < 0.001 ∧
      1 - (0.001 : ℝ) ^ 2 / 2 ≤ Real.cos 0.001 ∧ Real.cos 0.001 ≤ 1 :=
  ⟨Real.sin_gt_sub_cube (by norm_num) (by norm_num), Real.sin_lt (by norm_num),
    Real.one_sub_sq_div_two_le_cos, Real.cos_le_one _⟩

theorem near_cost0 :
    cost ⟨Real.cos, Real.sin, Real.sqrt⟩ (ArmManipulator.create (⟨0, 0, 0⟩ : Vec3D ℝ))
        ⟨-0.02, 8.5, 0⟩ [0 + 0.001, 0, 0, 0]
      = (0.02 - 8.5 * Real.sin 0.001) ^ 2 + (8.5 * Real.cos 0.001 - 8.5) ^ 2 := by
  unfold cost
  rw [ArmManipulator.endEffector, create_eq_pose, setAngles_four_pose, clamp_zero_limits.2.1,
    clamp_zero_limits.2.2, clamp_zero_limits.1, zero_add,
    (clamp_small_limits (0.001 : ℝ) (by norm_num) (by norm_num)).1]
  exact sqDist_joint0 0.001

theorem near_cost1 :
    cost ⟨Real.cos, Real.sin, Real.sqrt⟩ (ArmManipulator.create (⟨0, 0, 0⟩ : Vec3D ℝ))
        ⟨-0.02, 8.5, 0⟩ [0, 0 + 0.001, 0, 0] = 0.0004 := by
  unfold cost
  rw [ArmManipulator.endEffector, create_eq_pose, setAngles_four_pose, clamp_zero_limits.1,
    clamp_zero_limits.2.2, zero_add,
    (clamp_small_limits (0.001 : ℝ) (by norm_num) (by norm_num)).2.1]
  exact sqDist_joint1 0.001

theorem near_cost2 :
    cost ⟨Real.cos, Real.sin, Real.sqrt⟩ (ArmManipulator.create (⟨0, 0, 0⟩ : Vec3D ℝ))
        ⟨-0.02, 8.5, 0⟩ [0, 0, 0 + 0.001, 0]
      = 0.0004 + (3.5 * Real.cos 0.001 - 3.5) ^ 2 + (3.5 * Real.sin 0.001) ^ 2 := by
  unfold cost
  rw [ArmManipulator.endEffector, create_eq_pose, setAngles_four_pose, clamp_zero_limits.1,
    clamp_zero_limits.2.1, zero_add,
    (clamp_small_limits (0.001 : ℝ) (by norm_num) (by norm_num)).2.2]
  exact sqDist_joint2 0.001

theorem near_cost3 :
    cost ⟨Real.cos, Real.sin, Real.sqrt⟩ (ArmManipulator.create (⟨0, 0, 0⟩ : Vec3D ℝ))
        ⟨-0.02, 8.5, 0⟩ [0, 0, 0, 0 + 0.001] = 0.0004 := by
  unfold cost
  rw [ArmManipulator.endEffector, create_eq_pose, setAngles_four_pose, clamp_zero_limits.1,
    clamp_zero_limits.2.1, clamp_zero_limits.2.2, zero_add,
    (clamp_small_limits (0.001 : ℝ) (by norm_num) (by norm_num)).1]
  exact sqDist_joint3 0.001

/-- The first pass from the zero pose towards `(-0.02, 8.5, 0)`: joint 0 turns by a small
positive angle, entry 2 of the working vector becomes negative (joint 2 stays at its lower
limit `0`), entries 1 and 3 stay `0`. -/
theorem near_first_pass :
    ∃ A p2 : ℝ, 0.0026 < A ∧ A ≤ 0.0034 ∧ p2 < 0 ∧
      (ikIter ⟨Real.cos, Real.sin, Real.sqrt⟩ ⟨-0.02, 8.5, 0⟩
        (ArmManipulator.create (⟨0, 0, 0⟩ : Vec3D ℝ),
          (ArmManipulator.create (⟨0, 0, 0⟩ : Vec3D ℝ)).angles)).2 = [A, 0, p2, 0] ∧
      (ikIter ⟨Real.cos, Real.sin, Real.sqrt⟩ ⟨-0.02, 8.5, 0⟩
        (ArmManipulator.create (⟨0, 0, 0⟩ : Vec3D ℝ),
          (ArmManipulator.create (⟨0, 0, 0⟩ : Vec3D ℝ)).angles)).1
        = pose ⟨0, 0, 0⟩ A 0 0 0 := by
  have ha : (ArmManipulator.create (⟨0, 0, 0⟩ : Vec3D ℝ)).angles = [0, 0, 0, 0] := by
    rw [create_eq_pose]; rfl
  rw [ha]
  obtain ⟨r1, r2, r3, _⟩ := ikIter_spec ⟨Real.cos, Real.sin, Real.sqrt⟩ ⟨-0.02, 8.5, 0⟩
    (ArmManipulator.create (⟨0, 0, 0⟩ : Vec3D ℝ)) [0, 0, 0, 0] (le_refl 4)
  have h0 := r2 0 (by simp)
  have h1 := r2 1 (by simp)
  have h2 := r2 2 (by simp)
  have h3 := r2 3 (by simp)
  simp only [List.set_cons_zero, List.set_cons_succ, List.getD_cons_zero, List.getD_cons_succ,
    near_cost0, near_cost1, near_cost2, near_cost3, near_target_start] at h0 h1 h2 h3
  generalize (ikIter ⟨Real.cos, Real.sin, Real.sqrt⟩ ⟨-0.02, 8.5, 0⟩
    (ArmManipulator.create (⟨0, 0, 0⟩ : Vec3D ℝ), [0, 0, 0, 0])).2 = p at r1 r3 h0 h1 h2 h3 ⊢
  generalize (ikIter ⟨Real.cos, Real.sin, Real.sqrt⟩ ⟨-0.02, 8.5, 0⟩
    (ArmManipulator.create (⟨0, 0, 0⟩ : Vec3D ℝ), [0, 0, 0, 0])).1 = m' at r3 ⊢
  rcases p with _ | ⟨p0, _ | ⟨p1, _ | ⟨p2, _ | ⟨p3, _ | ⟨p4, r⟩⟩⟩⟩⟩ <;> simp at r1
  simp only [List.getElem?_cons_zero, List.getElem?_cons_succ, Option.some.injEq] at h0 h1 h2 h3
  obtain ⟨s1, s2, c1, c2⟩ := small_angle_facts
  have hsc := Real.sin_sq_add_cos_sq (0.001 : ℝ)
  unfold lr at h0 h1 h2 h3
  generalize Real.sin 0.001 = S at h0 h2 s1 s2 hsc
  generalize Real.cos 0.001 = C at h0 h2 c1 c2 hsc
  have hp0 : p0 = 3.4 * S - 1445 * (1 - C) := by
    rw [h0]; norm_num; linear_combination (-722.5 : ℝ) * hsc
  have hp2 : p2 = -(245 * (1 - C)) := by
    rw [h2]; norm_num; linear_combination (122.5 : ℝ) * hsc
  have hp1 : p1 = 0 := by rw [h1]; norm_num
  have hp3 : p3 = 0 := by rw [h3]; norm_num
  norm_num at s1 s2 c1
  have hA1 : 0.0026 < p0 := by rw [hp0]; norm_num; linarith
  have hA2 : p0 ≤ 0.0034 := by rw [hp0]; norm_num; linarith
  have hcos : C < 1 := by
    by_contra hge
    have hc1 : C = 1 := le_antisymm c2 (not_lt.mp hge)
    rw [hc1] at hsc
    have hs0 : S ^ 2 = 0 := by linarith
    have hs00 : S = 0 := pow_eq_zero_iff (two_ne_zero) |>.mp hs0
    linarith
  have hneg : p2 < 0 := by rw [hp2]; linarith
  refine ⟨p0, p2, hA1, hA2, hneg, by rw [hp1, hp3], ?_⟩
  rw [r3, create_eq_pose, setAngles_four_pose, hp1, hp3, clamp_zero_limits.1,
    clamp_zero_limits.2.1, clamp_of_lt_low _ _ _ hneg,
    (clamp_small_limits p0 (by linarith) (by linarith)).1]

theorem near_second_check (A : ℝ) (w : List ℝ) (h1 : 0.0026 < A) (h2 : A ≤ 0.0034) :
    closeEnough ⟨Real.cos, Real.sin, Real.sqrt⟩ ⟨-0.02, 8.5, 0⟩
      (pose (⟨0, 0, 0⟩ : Vec3D ℝ) A 0 0 0, w) := by
  unfold closeEnough
  show Real.sqrt (sqDist ((pose (⟨0, 0, 0⟩ : Vec3D ℝ) A 0 0 0).forward _) _) < _
  rw [sqDist_joint0, Real.sqrt_lt' (by norm_num [tol])]
  have s1 := Real.sin_gt_sub_cube (x := A) (by linarith) (by linarith)
  have s2 := Real.sin_lt (x := A) (by linarith)
  have c1 := Real.one_sub_sq_div_two_le_cos (x := A)
  have c2 := Real.cos_le_one A
  have hApos : 0 < A := by linarith
  have hA2 : A ^ 2 ≤ 0.0034 ^ 2 := pow_le_pow_left₀ hApos.le h2 2
  have hA3 : A ^ 3 ≤ A := by
    have h21 : A ^ 2 ≤ 1 := le_trans hA2 (by norm_num)
    calc A ^ 3 = A * A ^ 2 := by ring
      _ ≤ A * 1 := mul_le_mul_of_nonneg_left h21 hApos.le
      _ = A := mul_one A
  have hx : (0.02 - 8.5 * Real.sin A) ^ 2 < 0.0089 ^ 2 :=
    sq_lt_sq' (by linarith) (by linarith)
  have hy : (8.5 * Real.cos A - 8.5) ^ 2 ≤ 0.0001 ^ 2 :=
    sq_le_sq' (by norm_num at hA2 ⊢; linarith) (by linarith)
  unfold tol
  norm_num at hx hy ⊢
  linarith

/-- The run from the zero pose towards `(-0.02, 8.5, 0)` succeeds at its second tolerance
test, with the working vector `[A, 0, p2, 0]`, `p2 < 0`, and the manipulator at
`[A, 0, 0, 0]`. -/
theorem overshoot_run :
    ∃ A p2 : ℝ, 0.0026 < A ∧ A ≤ 0.0034 ∧ p2 < 0 ∧
      (ArmManipulator.create (⟨0, 0, 0⟩ : Vec3D ℝ)).solveIK ⟨Real.cos, Real.sin, Real.sqrt⟩
        ⟨-0.02, 8.5, 0⟩ [] = ⟨true, pose ⟨0, 0, 0⟩ A 0 0 0, [A, 0, p2, 0]⟩ := by
  obtain ⟨A, p2, hA1, hA2, hneg, hout, harm⟩ := near_first_pass
  refine ⟨A, p2, hA1, hA2, hneg, ?_⟩
  have h1 : (ikIter ⟨Real.cos, Real.sin, Real.sqrt⟩ ⟨-0.02, 8.5, 0⟩)^[1]
      (ArmManipulator.create (⟨0, 0, 0⟩ : Vec3D ℝ),
        (ArmManipulator.create (⟨0, 0, 0⟩ : Vec3D ℝ)).angles)
      = (pose ⟨0, 0, 0⟩ A 0 0 0, [A, 0, p2, 0]) := by
    rw [Function.iterate_one, ← harm, ← hout]
  have hrun := solveLoop_first_pass ⟨Real.cos, Real.sin, Real.sqrt⟩ ⟨-0.02, 8.5, 0⟩ maxIt
    (ArmManipulator.create (⟨0, 0, 0⟩ : Vec3D ℝ),
      (ArmManipulator.create (⟨0, 0, 0⟩ : Vec3D ℝ)).angles) 1 (by decide)
    (fun j hj => by
      have hj0 : j = 0 := Nat.lt_one_iff.mp hj
      rw [hj0, Function.iterate_zero]
      exact near_target_not_close)
    (by rw [h1]; exact near_second_check A _ hA1 hA2)
  rw [h1] at hrun
  have hset : (pose (⟨0, 0, 0⟩ : Vec3D ℝ) A 0 0 0).setAngles [A, 0, p2, 0]
      = pose ⟨0, 0, 0⟩ A 0 0 0 := by
    rw [setAngles_four_pose, clamp_zero_limits.1, clamp_zero_limits.2.1,
      clamp_of_lt_low _ _ _ hneg, (clamp_small_limits A (by linarith) (by linarith)).1]
  rw [hset] at hrun
  exact hrun

end OvershootRun

section DoubleRounding

/-! ## Rounding in `double` -/

theorem bitlenAux_spec : ∀ f n : Nat, n < 2 ^ f →
    n < 2 ^ bitlenAux f n ∧ (n ≠ 0 → 2 ^ (bitlenAux f n - 1) ≤ n) := by
  intro f
  induction f with
  | zero =>
    intro n h
    have h0 : n = 0 := by simpa using h
    subst h0
    simp [bitlenAux]
  | succ f ih =>
    intro n h
    unfold bitlenAux
    by_cases h0 : n = 0
    · simp [h0]
    · rw [if_neg h0]
      have hlt : n / 2 < 2 ^ f := by
        rw [pow_succ] at h
        omega
      obtain ⟨i1, i2⟩ := ih (n / 2) hlt
      refine ⟨?_, fun _ => ?_⟩
      · rw [pow_succ]
        omega
      · rw [Nat.add_sub_cancel]
        by_cases h2 : n / 2 = 0
        · have hb : bitlenAux f (n / 2) = 0 := by
            rw [h2]
            cases f <;> simp [bitlenAux]
          rw [hb]
          simp
          omega
        · have i3 := i2 h2
          have hpos : 0 < bitlenAux f (n / 2) := by
            rcases Nat.eq_zero_or_pos (bitlenAux f (n / 2)) with hz | hz
            · rw [hz] at i1
              simp at i1
              exact absurd i1 h2
            · exact hz
          have e : bitlenAux f (n / 2) = (bitlenAux f (n / 2) - 1) + 1 := by omega
          rw [e, pow_succ]
          omega

theorem bitlen_lt (n : Nat) : n < 2 ^ bitlen n :=
  (bitlenAux_spec n n (Nat.lt_two_pow n)).1

theorem bitlen_le (n : Nat) (h : n ≠ 0) : 2 ^ (bitlen n - 1) ≤ n :=
  (bitlenAux_spec n n (Nat.lt_two_pow n)).2 h

theorem bitlen_pos (n : Nat) (h : n ≠ 0) : 0 < bitlen n := by
  have := bitlen_lt n
  rcases Nat.eq_zero_or_pos (bitlen n) with hz | hz
  · rw [hz] at this
    simp at this
    exact absurd this h
  · exact hz

theorem two_zpow_pos (e : Int) : (0 : ℚ) < 2 ^ e := zpow_pos (by norm_num) e

theorem two_zpow_add (a b : Int) : (2 : ℚ) ^ (a + b) = 2 ^ a * 2 ^ b :=
  zpow_add₀ (by norm_num) a b

/-- In rational terms: `2^(bitlen n - 1 + e) ≤ n * 2^e < 2^(bitlen n + e)`. -/
theorem bitlen_val (n : Nat) (e : Int) :
    (n : ℚ) * 2 ^ e < 2 ^ ((bitlen n : Int) + e) ∧
    (n ≠ 0 → (2 : ℚ) ^ ((bitlen n : Int) - 1 + e) ≤ (n : ℚ) * 2 ^ e) := by
  constructor
  · rw [two_zpow_add]
    apply mul_lt_mul_of_pos_right _ (two_zpow_pos e)
    rw [zpow_natCast]
    exact_mod_cast bitlen_lt n
  · intro h
    rw [two_zpow_add]
    apply mul_le_mul_of_nonneg_right _ (two_zpow_pos e).le
    have hp := bitlen_pos n h
    have e1 : (bitlen n : Int) - 1 = ((bitlen n - 1 : Nat) : Int) := by omega
    rw [e1, zpow_natCast]
    exact_mod_cast bitlen_le n h

theorem strip_spec : ∀ (f : Nat) (s : Bool) (m : Nat) (e : Int),
    ∃ m2 e2, Double.strip f s m e = .fin s m2 e2 ∧ (m2 : ℚ) * 2 ^ e2 = (m : ℚ) * 2 ^ e := by
  intro f
  induction f with
  | zero => intro s m e; exact ⟨m, e, rfl, rfl⟩
  | succ f ih =>
    intro s m e
    unfold Double.strip
    by_cases h : m % 2 = 0
    · rw [if_pos h]
      obtain ⟨m2, e2, h1, h2⟩ := ih s (m / 2) (e + 1)
      refine ⟨m2, e2, h1, ?_⟩
      rw [h2, two_zpow_add]
      have hm : (m : ℚ) = 2 * ((m / 2 : Nat) : ℚ) := by
        have : m = 2 * (m / 2) := by omega
        exact_mod_cast this
      rw [hm, zpow_one]
      ring
    · rw [if_neg h]
      exact ⟨m, e, rfl, rfl⟩

theorem pack_cases (s : Bool) (m : Nat) (e : Int) :
    Double.pack s m e = .inf s ∨
    ∃ m2 e2, Double.pack s m e = .fin s m2 e2 ∧ (m2 : ℚ) * 2 ^ e2 = (m : ℚ) * 2 ^ e := by
  unfold Double.pack
  by_cases h0 : m = 0
  · rw [if_pos h0]
    exact Or.inr ⟨0, 0, rfl, by simp [h0]⟩
  · rw [if_neg h0]
    by_cases h1 : 1024 < (bitlen m : Int) + e
    · rw [if_pos h1]; exact Or.inl rfl
    · rw [if_neg h1]; exact Or.inr (strip_spec m s m e)

theorem pack_fin (s : Bool) (m : Nat) (e : Int) (h : (m : ℚ) * 2 ^ e < 2 ^ (1024 : Int)) :
    ∃ m2 e2, Double.pack s m e = .fin s m2 e2 ∧ (m2 : ℚ) * 2 ^ e2 = (m : ℚ) * 2 ^ e := by
  unfold Double.pack
  by_cases h0 : m = 0
  · rw [if_pos h0]
    exact ⟨0, 0, rfl, by simp [h0]⟩
  · rw [if_neg h0]
    have h1 : ¬ 1024 < (bitlen m : Int) + e := by
      intro hh
      have h2 := (bitlen_val m e).2 h0
      have h3 : (2 : ℚ) ^ (1024 : Int) ≤ 2 ^ ((bitlen m : Int) - 1 + e) :=
        zpow_le_zpow_right₀ (by norm_num) (by omega)
      exact absurd (lt_of_le_of_lt (le_trans h3 h2) h) (lt_irrefl _)
    rw [if_neg h1]
    exact strip_spec m s m e

theorem pack_inf (s : Bool) (m : Nat) (e : Int) (h : (2 : ℚ) ^ (1024 : Int) ≤ (m : ℚ) * 2 ^ e) :
    Double.pack s m e = .inf s := by
  unfold Double.pack
  have h0 : m ≠ 0 := by
    intro h0
    rw [h0] at h
    simp at h
    exact absurd h (not_le.mpr (two_zpow_pos 1024))
  rw [if_neg h0]
  have h1 : 1024 < (bitlen m : Int) + e := by
    have h2 := (bitlen_val m e).1
    have h3 := lt_of_le_of_lt h h2
    exact (zpow_lt_zpow_iff_right₀ (by norm_num : (1 : ℚ) < 2)).mp h3
  rw [if_pos h1]

end DoubleRounding

section DoubleRounding2

theorem slack_nonneg {W : ℚ} (h : 0 ≤ W) : 0 ≤ slack W := by
  unfold slack
  positivity

theorem slack_mono {V W : ℚ} (h : V ≤ W) : slack V ≤ slack W := by
  unfold slack
  have : V / 2 ^ 52 ≤ W / 2 ^ 52 := div_le_div_of_nonneg_right h (by positivity)
  linarith

theorem round_zero (s : Bool) (E : Int) : Double.round s 0 E = .fin s 0 0 := by
  unfold Double.round
  simp only [Nat.zero_div, Nat.zero_mod]
  have hp : ∀ k : Nat, (0 : Nat) < 2 ^ k := fun k => by positivity
  simp [Double.pack, hp]

/-- The rounding of `M * 2^E` is the canonical form of a grid point `q * 2^u` within one
rounding error of it, and rounding does not bring a value below `2^1024`. -/
theorem round_spec (s : Bool) (M : Nat) (E : Int) (hM : M ≠ 0) :
    ∃ q u, Double.round s M E = Double.pack s q u ∧
      |(q : ℚ) * 2 ^ u - (M : ℚ) * 2 ^ E| ≤ slack ((M : ℚ) * 2 ^ E) ∧
      ((2 : ℚ) ^ (1024 : Int) ≤ (M : ℚ) * 2 ^ E → (2 : ℚ) ^ (1024 : Int) ≤ (q : ℚ) * 2 ^ u) := by
  have hv : (0 : ℚ) ≤ (M : ℚ) * 2 ^ E := mul_nonneg (Nat.cast_nonneg M) (two_zpow_pos E).le
  unfold Double.round
  by_cases hu : max (E + (bitlen M : Int) - 53) (-1074) ≤ E
  · simp only [hu, if_true]
    refine ⟨M, E, rfl, ?_, fun h => h⟩
    rw [sub_self, abs_zero]
    exact slack_nonneg hv
  · simp only [hu, if_false]
    have hu2 : E < max (E + (bitlen M : Int) - 53) (-1074) := not_le.mp hu
    generalize hud : max (E + (bitlen M : Int) - 53) (-1074) = u at hu2 ⊢
    generalize hkd : (u - E).toNat = k
    have hk : (k : Int) = u - E := by rw [← hkd]; omega
    have hkpos : 0 < k := by omega
    have hdiv : 2 ^ k * (M / 2 ^ k) + M % 2 ^ k = M := Nat.div_add_mod M (2 ^ k)
    have hmod : M % 2 ^ k < 2 ^ k := Nat.mod_lt M (by positivity)
    generalize hqd : M / 2 ^ k = q at hdiv ⊢
    generalize hrd : M % 2 ^ k = r at hdiv hmod ⊢
    generalize hq2d :
      (if r < 2 ^ (k - 1) then q else if 2 ^ (k - 1) < r then q + 1
        else if q % 2 = 0 then q else q + 1) = q2
    have hq1 : q ≤ q2 := by rw [← hq2d]; split_ifs <;> omega
    have hq3 : q2 ≤ q + 1 := by rw [← hq2d]; split_ifs <;> omega
    have hU : (2 : ℚ) ^ u = 2 ^ k * 2 ^ E := by
      have : u = (k : Int) + E := by omega
      rw [this, two_zpow_add, zpow_natCast]
    have hMq : (M : ℚ) = 2 ^ k * (q : ℚ) + (r : ℚ) := by exact_mod_cast hdiv.symm
    have hrq : (r : ℚ) < 2 ^ k := by exact_mod_cast hmod
    have hr0 : (0 : ℚ) ≤ (r : ℚ) := Nat.cast_nonneg r
    have hq1q : (q : ℚ) ≤ (q2 : ℚ) := by exact_mod_cast hq1
    have hq3q : (q2 : ℚ) ≤ (q : ℚ) + 1 := by exact_mod_cast hq3
    have hkp : (0 : ℚ) < 2 ^ k := by positivity
    have hEp := two_zpow_pos E
    refine ⟨q2, u, rfl, ?_, ?_⟩
    · have herr : |(q2 : ℚ) * 2 ^ u - (M : ℚ) * 2 ^ E| ≤ 2 ^ u := by
        rw [hU]
        have e1 : (q2 : ℚ) * (2 ^ k * 2 ^ E) - (M : ℚ) * 2 ^ E
            = ((q2 : ℚ) * 2 ^ k - (M : ℚ)) * 2 ^ E := by ring
        rw [e1, abs_mul, abs_of_pos hEp]
        apply mul_le_mul_of_nonneg_right _ hEp.le
        rw [abs_le]
        constructor
        · rw [hMq]; nlinarith
        · rw [hMq]; nlinarith
      refine le_trans herr ?_
      unfold slack
      rcases max_cases (E + (bitlen M : Int) - 53) (-1074) with ⟨h1, _⟩ | ⟨h1, _⟩
      · rw [hud] at h1
        have hb := (bitlen_val M E).2 hM
        have e2 : u = ((bitlen M : Int) - 1 + E) + (-52) := by omega
        rw [e2, two_zpow_add]
        have e3 : (2 : ℚ) ^ (-52 : Int) = 1 / 2 ^ 52 := by norm_num [zpow_neg]
        rw [e3]
        have h4 : (2 : ℚ) ^ ((bitlen M : Int) - 1 + E) * (1 / 2 ^ 52) ≤
            (M : ℚ) * 2 ^ E / 2 ^ 52 := by
          rw [mul_one_div]
          exact div_le_div_of_nonneg_right hb (by positivity)
        have : (0 : ℚ) ≤ 1 / 2 ^ 1074 := by positivity
        linarith
      · rw [hud] at h1
        rw [h1]
        have e3 : (2 : ℚ) ^ (-1074 : Int) = 1 / 2 ^ 1074 := by
          rw [zpow_neg, one_div]
          norm_cast
        rw [e3]
        have : (0 : ℚ) ≤ (M : ℚ) * 2 ^ E / 2 ^ 52 := by positivity
        linarith
    · intro hbig
      have hb1 := (bitlen_val M E).1
      have hlt := lt_of_le_of_lt hbig hb1
      have hexp : (1024 : Int) < (bitlen M : Int) + E :=
        (zpow_lt_zpow_iff_right₀ (by norm_num : (1 : ℚ) < 2)).mp hlt
      have hueq : u = E + (bitlen M : Int) - 53 := by
        rw [← hud]
        exact max_eq_left (by omega)
      have hkn : k + 53 = bitlen M := by omega
      have hML := bitlen_le M hM
      have h52 : 2 ^ 52 ≤ q := by
        rw [← hqd]
        rw [Nat.le_div_iff_mul_le (by positivity)]
        have : 2 ^ 52 * 2 ^ k = 2 ^ (bitlen M - 1) := by
          rw [← pow_add]
          congr 1
          omega
        rw [this]
        exact hML
      have h52q : (2 : ℚ) ^ 52 ≤ (q2 : ℚ) := by
        have : ((2 ^ 52 : Nat) : ℚ) ≤ (q2 : ℚ) := Nat.cast_le.mpr (le_trans h52 hq1)
        rw [Nat.cast_pow] at this
        exact_mod_cast this
      have hup := two_zpow_pos u
      have h1 : (2 : ℚ) ^ (1024 : Int) ≤ 2 ^ ((52 : Int) + u) :=
        zpow_le_zpow_right₀ (by norm_num) (by omega)
      rw [two_zpow_add] at h1
      have h2 : (2 : ℚ) ^ (52 : Int) = 2 ^ 52 := by norm_cast
      rw [h2] at h1
      calc (2 : ℚ) ^ (1024 : Int) ≤ 2 ^ 52 * 2 ^ u := h1
        _ ≤ (q2 : ℚ) * 2 ^ u := mul_le_mul_of_nonneg_right h52q hup.le

end DoubleRounding2

section DoubleArith

/-! ## Bounds through the arithmetic of `double` -/

theorem round_cases (s : Bool) (M : Nat) (E : Int) :
    Double.round s M E = .inf s ∨
    ∃ m e, Double.round s M E = .fin s m e ∧
      |(m : ℚ) * 2 ^ e - (M : ℚ) * 2 ^ E| ≤ slack ((M : ℚ) * 2 ^ E) := by
  by_cases hM : M = 0
  · subst hM
    refine Or.inr ⟨0, 0, round_zero s E, ?_⟩
    simp [slack]
  · obtain ⟨q, u, h1, h2, _⟩ := round_spec s M E hM
    rcases pack_cases s q u with h | ⟨m, e, h3, h4⟩
    · exact Or.inl (h1.trans h)
    · exact Or.inr ⟨m, e, h1.trans h3, by rw [h4]; exact h2⟩

theorem round_fin (s : Bool) (M : Nat) (E : Int)
    (h : (M : ℚ) * 2 ^ E + slack ((M : ℚ) * 2 ^ E) < 2 ^ (1024 : Int)) :
    ∃ m e, Double.round s M E = .fin s m e ∧
      |(m : ℚ) * 2 ^ e - (M : ℚ) * 2 ^ E| ≤ slack ((M : ℚ) * 2 ^ E) := by
  by_cases hM : M = 0
  · subst hM
    refine ⟨0, 0, round_zero s E, ?_⟩
    simp [slack]
  · obtain ⟨q, u, h1, h2, _⟩ := round_spec s M E hM
    have hq : (q : ℚ) * 2 ^ u < 2 ^ (1024 : Int) := by
      have := (abs_le.mp h2).2
      linarith
    obtain ⟨m, e, h3, h4⟩ := pack_fin s q u hq
    exact ⟨m, e, h1.trans h3, by rw [h4]; exact h2⟩

theorem round_inf (s : Bool) (M : Nat) (E : Int)
    (h : (2 : ℚ) ^ (1024 : Int) ≤ (M : ℚ) * 2 ^ E) : Double.round s M E = .inf s := by
  have hM : M ≠ 0 := by
    intro h0
    rw [h0] at h
    simp at h
    exact absurd h (not_le.mpr (two_zpow_pos 1024))
  obtain ⟨q, u, h1, _, h3⟩ := round_spec s M E hM
  rw [h1]
  exact pack_inf s q u (h3 h)

/-- The magnitude `m * 2^e` of a finite value. -/
theorem val_fin_true (m : Nat) (e : Int) : (Double.fin true m e).val = -((m : ℚ) * 2 ^ e) := by
  simp [Double.val]

theorem val_fin_false (m : Nat) (e : Int) : (Double.fin false m e).val = (m : ℚ) * 2 ^ e := by
  simp [Double.val]

theorem abs_val_fin (s : Bool) (m : Nat) (e : Int) :
    |(Double.fin s m e).val| = (m : ℚ) * 2 ^ e := by
  have hp : (0 : ℚ) ≤ (m : ℚ) * 2 ^ e := mul_nonneg (Nat.cast_nonneg m) (two_zpow_pos e).le
  cases s
  · rw [val_fin_false, abs_of_nonneg hp]
  · rw [val_fin_true, abs_neg, abs_of_nonneg hp]

theorem within_fin_iff (B : ℚ) (s : Bool) (m : Nat) (e : Int) :
    Double.Within B (.fin s m e) ↔ (m : ℚ) * 2 ^ e ≤ B := by
  unfold Double.Within Double.Btw
  rw [← abs_val_fin s m e, abs_le]

theorem btw_nan (lo hi : ℚ) : Double.Btw lo hi .nan := trivial

theorem within_nan (B : ℚ) : Double.Within B .nan := trivial

theorem btw_mono {lo hi lo2 hi2 : ℚ} {x : Double} (h : Double.Btw lo hi x)
    (h1 : lo2 ≤ lo) (h2 : hi ≤ hi2) : Double.Btw lo2 hi2 x := by
  cases x with
  | fin s m e => exact ⟨le_trans h1 h.1, le_trans h.2 h2⟩
  | inf s => exact h
  | nan => trivial

theorem within_mono {A B : ℚ} {x : Double} (h : Double.Within A x) (hAB : A ≤ B) :
    Double.Within B x :=
  btw_mono h (by linarith) hAB

theorem btw_within {lo hi B : ℚ} {x : Double} (h : Double.Btw lo hi x)
    (h1 : -B ≤ lo) (h2 : hi ≤ B) : Double.Within B x :=
  btw_mono h h1 h2

theorem mul_def (x y : Double) : x * y = Double.mul x y := rfl

theorem add_def (x y : Double) : x + y = Double.add x y := rfl

theorem sub_def (x y : Double) : x - y = Double.add x (Double.neg y) := rfl

theorem neg_def (x : Double) : -x = Double.neg x := rfl

theorem div_def (x y : Double) : x / y = Double.div x y := rfl

theorem lt_def (x y : Double) : (x < y) = (Double.lt x y = true) := rfl

theorem btw_neg {lo hi : ℚ} {x : Double} (h : Double.Btw lo hi x) :
    Double.Btw (-hi) (-lo) (-x) := by
  cases x with
  | fin s m e =>
    have h1 := h.1
    have h2 := h.2
    cases s
    · rw [val_fin_false] at h1 h2
      show -hi ≤ (Double.fin true m e).val ∧ (Double.fin true m e).val ≤ -lo
      rw [val_fin_true]
      constructor <;> linarith
    · rw [val_fin_true] at h1 h2
      show -hi ≤ (Double.fin false m e).val ∧ (Double.fin false m e).val ≤ -lo
      rw [val_fin_false]
      constructor <;> linarith
  | inf s => exact h
  | nan => trivial

theorem within_neg {B : ℚ} {x : Double} (h : Double.Within B x) : Double.Within B (-x) := by
  have := btw_neg h
  rw [neg_neg] at this
  exact this

/-- A product of bounded values is bounded, up to one rounding. -/
theorem mul_within {A B C : ℚ} {x y : Double} (hx : Double.Within A x) (hy : Double.Within B y)
    (h : A * B + slack (A * B) ≤ C) (hC : C < 2 ^ (1024 : Int)) :
    Double.Within C (x * y) := by
  rw [mul_def]
  cases x with
  | nan => cases y <;> exact within_nan C
  | inf s => exact absurd hx id
  | fin s1 m1 e1 =>
    cases y with
    | nan => exact within_nan C
    | inf s => exact absurd hy id
    | fin s2 m2 e2 =>
      rw [within_fin_iff] at hx hy
      have p1 : (0 : ℚ) ≤ (m1 : ℚ) * 2 ^ e1 :=
        mul_nonneg (Nat.cast_nonneg m1) (two_zpow_pos e1).le
      have p2 : (0 : ℚ) ≤ (m2 : ℚ) * 2 ^ e2 :=
        mul_nonneg (Nat.cast_nonneg m2) (two_zpow_pos e2).le
      have hv : ((m1 * m2 : Nat) : ℚ) * 2 ^ (e1 + e2)
          = ((m1 : ℚ) * 2 ^ e1) * ((m2 : ℚ) * 2 ^ e2) := by
        rw [two_zpow_add]
        push_cast
        ring
      have hle : ((m1 * m2 : Nat) : ℚ) * 2 ^ (e1 + e2) ≤ A * B := by
        rw [hv]
        exact mul_le_mul hx hy p2 (le_trans p1 hx)
      have hs := slack_mono hle
      obtain ⟨m, e, h1, h2⟩ := round_fin (xor s1 s2) (m1 * m2) (e1 + e2) (by linarith)
      show Double.Within C (Double.round (xor s1 s2) (m1 * m2) (e1 + e2))
      rw [h1, within_fin_iff]
      have := (abs_le.mp h2).2
      linarith

theorem signed_cast (s : Bool) (m : Nat) (e1 e : Int) (h : e ≤ e1) :
    ((Double.signed s (m * 2 ^ (e1 - e).toNat) : Int) : ℚ) * 2 ^ e = (Double.fin s m e1).val := by
  have hk : ((e1 - e).toNat : Int) = e1 - e := by omega
  have hp : (2 : ℚ) ^ (e1 - e).toNat * 2 ^ e = 2 ^ e1 := by
    rw [← zpow_natCast, hk, ← two_zpow_add]
    congr 1
    omega
  cases s
  · rw [val_fin_false]
    simp only [Double.signed, Bool.false_eq_true, if_false]
    push_cast
    rw [mul_assoc, hp]
  · rw [val_fin_true]
    simp only [Double.signed, if_true]
    push_cast
    rw [neg_mul, mul_assoc, hp]

/-- The finite sum, exactly: the rounding of `|a| * 2^e` with the sign of `a`, where
`a * 2^e` is the sum of the two values. -/
theorem add_fin_val (s1 : Bool) (m1 : Nat) (e1 : Int) (s2 : Bool) (m2 : Nat) (e2 : Int) :
    ∃ a : Int, ((a : ℚ) * 2 ^ (min e1 e2) = (Double.fin s1 m1 e1).val + (Double.fin s2 m2 e2).val) ∧
      Double.add (.fin s1 m1 e1) (.fin s2 m2 e2) =
        if a = 0 then .fin (s1 && s2) 0 0 else Double.round (decide (a < 0)) a.natAbs (min e1 e2) := by
  refine ⟨Double.signed s1 (m1 * 2 ^ (e1 - min e1 e2).toNat) +
    Double.signed s2 (m2 * 2 ^ (e2 - min e1 e2).toNat), ?_, rfl⟩
  push_cast
  rw [add_mul, signed_cast s1 m1 e1 _ (min_le_left _ _),
    signed_cast s2 m2 e2 _ (min_le_right _ _)]

/-- A sum of bounded values is bounded, up to one rounding. -/
theorem add_btw {a b c d lo hi W : ℚ} {x y : Double}
    (hx : Double.Btw a b x) (hy : Double.Btw c d y)
    (hW1 : -W ≤ a + c) (hW2 : b + d ≤ W)
    (hlo : lo ≤ a + c - slack W) (hhi : b + d + slack W ≤ hi)
    (h1 : hi < 2 ^ (1024 : Int)) (h2 : -(2 : ℚ) ^ (1024 : Int) < lo) :
    Double.Btw lo hi (x + y) := by
  rw [add_def]
  cases x with
  | nan => cases y <;> exact btw_nan lo hi
  | inf s => exact absurd hx id
  | fin s1 m1 e1 =>
    cases y with
    | nan => exact btw_nan lo hi
    | inf s => exact absurd hy id
    | fin s2 m2 e2 =>
      obtain ⟨A, hA, hadd⟩ := add_fin_val s1 m1 e1 s2 m2 e2
      rw [hadd]
      have hsum1 : a + c ≤ (A : ℚ) * 2 ^ (min e1 e2) := by rw [hA]; exact add_le_add hx.1 hy.1
      have hsum2 : (A : ℚ) * 2 ^ (min e1 e2) ≤ b + d := by rw [hA]; exact add_le_add hx.2 hy.2
      have hWn : (0 : ℚ) ≤ W := by linarith
      have hsW := slack_nonneg hWn
      by_cases hz : A = 0
      · rw [if_pos hz]
        rw [hz] at hsum1 hsum2
        simp only [Int.cast_zero, zero_mul] at hsum1 hsum2
        show lo ≤ (Double.fin (s1 && s2) 0 0).val ∧ (Double.fin (s1 && s2) 0 0).val ≤ hi
        have : (Double.fin (s1 && s2) 0 0).val = 0 := by simp [Double.val]
        rw [this]
        constructor <;> linarith
      · rw [if_neg hz]
        have hp := two_zpow_pos (min e1 e2)
        have hv : ((A.natAbs : Nat) : ℚ) * 2 ^ (min e1 e2) = |(A : ℚ) * 2 ^ (min e1 e2)| := by
          rw [abs_mul, abs_of_pos hp]
          congr 1
          rw [Nat.cast_natAbs, Int.cast_abs]
        have hvW : ((A.natAbs : Nat) : ℚ) * 2 ^ (min e1 e2) ≤ W := by
          rw [hv, abs_le]
          constructor <;> linarith
        have hs := slack_mono hvW
        have hfin : ((A.natAbs : Nat) : ℚ) * 2 ^ (min e1 e2)
            + slack (((A.natAbs : Nat) : ℚ) * 2 ^ (min e1 e2)) < 2 ^ (1024 : Int) := by
          have : ((A.natAbs : Nat) : ℚ) * 2 ^ (min e1 e2) ≤ max (b + d) (-(a + c)) := by
            rw [hv, abs_le]
            constructor
            · have := le_max_right (b + d) (-(a + c)); linarith
            · have := le_max_left (b + d) (-(a + c)); linarith
          rcases max_cases (b + d) (-(a + c)) with ⟨hm, _⟩ | ⟨hm, _⟩ <;> rw [hm] at this <;> linarith
        obtain ⟨m, e, hr, herr⟩ := round_fin (decide (A < 0)) A.natAbs (min e1 e2) hfin
        rw [hr]
        have herr2 := abs_le.mp (le_trans herr hs)
        show lo ≤ (Double.fin (decide (A < 0)) m e).val ∧ (Double.fin (decide (A < 0)) m e).val ≤ hi
        by_cases hneg : A < 0
        · simp only [hneg, decide_True, val_fin_true]
          have hAq : (A : ℚ) < 0 := by exact_mod_cast hneg
          have hneg2 : (A : ℚ) * 2 ^ (min e1 e2) < 0 := mul_neg_of_neg_of_pos hAq hp
          rw [hv, abs_of_neg hneg2] at herr2
          constructor <;> linarith [herr2.1, herr2.2]
        · simp only [hneg, decide_False, val_fin_false]
          have hAq : (0 : ℚ) ≤ (A : ℚ) := by exact_mod_cast (not_lt.mp hneg)
          have hnn : (0 : ℚ) ≤ (A : ℚ) * 2 ^ (min e1 e2) := mul_nonneg hAq hp.le
          rw [hv, abs_of_nonneg hnn] at herr2
          constructor <;> linarith [herr2.1, herr2.2]

theorem sub_btw {a b c d lo hi W : ℚ} {x y : Double}
    (hx : Double.Btw a b x) (hy : Double.Btw c d y)
    (hW1 : -W ≤ a - d) (hW2 : b - c ≤ W)
    (hlo : lo ≤ a - d - slack W) (hhi : b - c + slack W ≤ hi)
    (h1 : hi < 2 ^ (1024 : Int)) (h2 : -(2 : ℚ) ^ (1024 : Int) < lo) :
    Double.Btw lo hi (x - y) := by
  have hy2 := btw_neg hy
  exact add_btw (W := W) hx hy2 (by linarith) (by linarith) (by linarith) (by linarith) h1 h2

end DoubleArith

section DoubleOrder

/-! ## Squares, overflow and comparisons in `double` -/

/-- A square of a value bounded away from zero is bounded from below, up to one rounding. -/
theorem mul_self_btw {a b t W C : ℚ} {x : Double} (hx : Double.Btw a b x) (ht : 0 ≤ t)
    (hside : b ≤ -t ∨ t ≤ a) (hW1 : -W ≤ a) (hW2 : b ≤ W)
    (hC : W * W + slack (W * W) ≤ C) (hC2 : C < 2 ^ (1024 : Int)) :
    Double.Btw (t * t - slack (W * W)) C (x * x) := by
  rw [mul_def]
  cases x with
  | nan => exact btw_nan _ _
  | inf s => exact absurd hx id
  | fin s m e =>
    have hmag := abs_val_fin s m e
    have hlow : t ≤ (m : ℚ) * 2 ^ e := by
      rw [← hmag]
      rcases hside with h | h
      · have := hx.2
        rw [abs_of_nonpos (by linarith)]
        linarith
      · have := hx.1
        rw [abs_of_nonneg (by linarith)]
        linarith
    have hupp : (m : ℚ) * 2 ^ e ≤ W := by
      rw [← hmag, abs_le]
      exact ⟨by linarith [hx.1], by linarith [hx.2]⟩
    have hv : ((m * m : Nat) : ℚ) * 2 ^ (e + e) = ((m : ℚ) * 2 ^ e) * ((m : ℚ) * 2 ^ e) := by
      rw [two_zpow_add]
      push_cast
      ring
    have hv1 : t * t ≤ ((m * m : Nat) : ℚ) * 2 ^ (e + e) := by
      rw [hv]
      exact mul_le_mul hlow hlow ht (le_trans ht hlow)
    have hv2 : ((m * m : Nat) : ℚ) * 2 ^ (e + e) ≤ W * W := by
      rw [hv]
      exact mul_le_mul hupp hupp (le_trans ht hlow) (le_trans (le_trans ht hlow) hupp)
    have hs := slack_mono hv2
    obtain ⟨m2, e2, h1, h2⟩ := round_fin (xor s s) (m * m) (e + e) (by linarith)
    show Double.Btw _ _ (Double.round (xor s s) (m * m) (e + e))
    rw [h1, Bool.xor_self]
    have h3 := abs_le.mp (le_trans h2 hs)
    show _ ≤ (Double.fin false m2 e2).val ∧ (Double.fin false m2 e2).val ≤ _
    rw [val_fin_false]
    constructor <;> linarith [h3.1, h3.2]

/-- A square is never negative. -/
theorem mul_self_nonneg_btw {W C : ℚ} {x : Double} (hx : Double.Within W x)
    (hC : W * W + slack (W * W) ≤ C) (hC2 : C < 2 ^ (1024 : Int)) :
    Double.Btw 0 C (x * x) := by
  rw [mul_def]
  cases x with
  | nan => exact btw_nan _ _
  | inf s => exact absurd hx id
  | fin s m e =>
    rw [within_fin_iff] at hx
    have p : (0 : ℚ) ≤ (m : ℚ) * 2 ^ e := mul_nonneg (Nat.cast_nonneg m) (two_zpow_pos e).le
    have hv : ((m * m : Nat) : ℚ) * 2 ^ (e + e) = ((m : ℚ) * 2 ^ e) * ((m : ℚ) * 2 ^ e) := by
      rw [two_zpow_add]
      push_cast
      ring
    have hv2 : ((m * m : Nat) : ℚ) * 2 ^ (e + e) ≤ W * W := by
      rw [hv]
      exact mul_le_mul hx hx p (le_trans p hx)
    have hs := slack_mono hv2
    obtain ⟨m2, e2, h1, h2⟩ := round_fin (xor s s) (m * m) (e + e) (by linarith)
    show Double.Btw _ _ (Double.round (xor s s) (m * m) (e + e))
    rw [h1, Bool.xor_self]
    have h3 := abs_le.mp (le_trans h2 hs)
    show _ ≤ (Double.fin false m2 e2).val ∧ (Double.fin false m2 e2).val ≤ _
    rw [val_fin_false]
    exact ⟨mul_nonneg (Nat.cast_nonneg m2) (two_zpow_pos e2).le, by linarith [h3.2]⟩

/-- A square of a value of magnitude at least `2^512` overflows. -/
theorem mul_self_blown {a b T : ℚ} {x : Double} (hx : Double.Btw a b x) (hT : 0 ≤ T)
    (hside : b ≤ -T ∨ T ≤ a) (hbig : (2 : ℚ) ^ (1024 : Int) ≤ T * T) :
    Double.Blown (x * x) := by
  rw [mul_def]
  cases x with
  | nan => trivial
  | inf s => exact absurd hx id
  | fin s m e =>
    have hmag := abs_val_fin s m e
    have hlow : T ≤ (m : ℚ) * 2 ^ e := by
      rw [← hmag]
      rcases hside with h | h
      · have := hx.2
        rw [abs_of_nonpos (by linarith)]
        linarith
      · have := hx.1
        rw [abs_of_nonneg (by linarith)]
        linarith
    have hv : ((m * m : Nat) : ℚ) * 2 ^ (e + e) = ((m : ℚ) * 2 ^ e) * ((m : ℚ) * 2 ^ e) := by
      rw [two_zpow_add]
      push_cast
      ring
    have hv1 : (2 : ℚ) ^ (1024 : Int) ≤ ((m * m : Nat) : ℚ) * 2 ^ (e + e) := by
      rw [hv]
      exact le_trans hbig (mul_le_mul hlow hlow hT (le_trans hT hlow))
    show Double.Blown (Double.round (xor s s) (m * m) (e + e))
    rw [round_inf _ _ _ hv1, Bool.xor_self]
    rfl

theorem add_blown {a b : ℚ} {x y : Double} (hx : Double.Blown x) (hy : Double.Btw a b y) :
    Double.Blown (x + y) := by
  rw [add_def]
  cases x with
  | fin s m e => exact absurd hx id
  | nan => cases y <;> trivial
  | inf s =>
    have hs : s = false := hx
    subst hs
    cases y with
    | fin s m e => rfl
    | inf s => exact absurd hy id
    | nan => trivial

theorem sub_blown {x y : Double} (hx : Double.Blown x) (hy : Double.Blown y) :
    x - y = Double.nan := by
  rw [sub_def]
  cases x with
  | fin s m e => exact absurd hx id
  | nan => cases y <;> rfl
  | inf s =>
    have hs : s = false := hx
    subst hs
    cases y with
    | fin s m e => exact absurd hy id
    | inf s =>
      have hs : s = false := hy
      subst hs
      rfl
    | nan => rfl

theorem lt_fin_iff (s1 : Bool) (m1 : Nat) (e1 : Int) (s2 : Bool) (m2 : Nat) (e2 : Int) :
    Double.fin s1 m1 e1 < Double.fin s2 m2 e2 ↔
      (Double.fin s1 m1 e1).val < (Double.fin s2 m2 e2).val := by
  rw [lt_def]
  simp only [Double.lt, decide_eq_true_eq]
  rw [← signed_cast s1 m1 e1 _ (min_le_left e1 e2), ← signed_cast s2 m2 e2 _ (min_le_right e1 e2)]
  rw [mul_lt_mul_right (two_zpow_pos _)]
  exact Int.cast_lt.symm

/-- A value that is NaN or at least `lo` is not below a finite value at most `lo`. -/
theorem not_lt_fin {lo hi : ℚ} {x : Double} (hx : Double.Btw lo hi x) (t : Bool) (m2 : Nat)
    (e2 : Int) (hy : (Double.fin t m2 e2).val ≤ lo) : ¬ x < Double.fin t m2 e2 := by
  cases x with
  | nan => rw [lt_def]; simp [Double.lt]
  | inf s => exact absurd hx id
  | fin s m e =>
    rw [lt_fin_iff]
    have := hx.1
    linarith

end DoubleOrder

section DoubleSqrt

/-! ## The square root -/

theorem isqrtAux_lt (n : Nat) : ∀ (i r : Nat), n < (r + 2 ^ i) * (r + 2 ^ i) →
    n < (isqrtAux n i r + 1) * (isqrtAux n i r + 1) := by
  intro i
  induction i with
  | zero => intro r h; simpa [isqrtAux] using h
  | succ i ih =>
    intro r h
    unfold isqrtAux
    apply ih
    by_cases hc : (r + 2 ^ i) * (r + 2 ^ i) ≤ n
    · rw [if_pos hc]
      have : r + 2 ^ i + 2 ^ i = r + 2 ^ (i + 1) := by rw [pow_succ]; ring
      rw [this]
      exact h
    · rw [if_neg hc]
      exact not_le.mp hc

theorem isqrt_lt (n : Nat) : n < (isqrt n + 1) * (isqrt n + 1) := by
  apply isqrtAux_lt
  have h := bitlen_lt n
  have h1 : 1 ≤ 2 ^ bitlen n := Nat.one_le_two_pow
  calc n < 2 ^ bitlen n := h
    _ = 2 ^ bitlen n * 1 := (Nat.mul_one _).symm
    _ ≤ 2 ^ bitlen n * 2 ^ bitlen n := Nat.mul_le_mul_left _ h1
    _ = (0 + 2 ^ bitlen n) * (0 + 2 ^ bitlen n) := by rw [Nat.zero_add]

theorem tol_double : (0.01 : Double) = .fin false 5764607523034235 (-59) := by decide

theorem one_double : (1 : Double) = .fin false 1 0 := rfl

/-- The computed root of a value that is NaN or at least `1` is not below `0.01`. -/
theorem sqrt_not_small (x : Double) (h : ¬ x < 1) : ¬ Double.sqrt x < (0.01 : Double) := by
  rw [tol_double]
  cases x with
  | nan => rw [lt_def]; simp [Double.sqrt, Double.lt]
  | inf s =>
    rw [one_double, lt_def] at h
    simp only [Double.lt] at h
    have hs : s = false := by simpa using h
    subst hs
    rw [lt_def]
    simp [Double.sqrt, Double.lt]
  | fin s m e =>
    rw [one_double, lt_fin_iff, val_fin_false] at h
    simp only [Nat.cast_one, zpow_zero, mul_one, not_lt] at h
    have hs : s = false := by
      cases s
      · rfl
      · rw [val_fin_true] at h
        have : (0 : ℚ) ≤ (m : ℚ) * 2 ^ e := mul_nonneg (Nat.cast_nonneg m) (two_zpow_pos e).le
        linarith
    subst hs
    rw [val_fin_false] at h
    have hm : m ≠ 0 := by
      intro h0
      rw [h0] at h
      simp at h
      linarith
    unfold Double.sqrt
    simp only [hm, if_false, Bool.false_eq_true]
    generalize htd : 110 + (e % 2).toNat = t
    have hte : (t : Int) = 110 + e % 2 := by
      rw [← htd]
      have : 0 ≤ e % 2 := Int.emod_nonneg e (by norm_num)
      push_cast
      omega
    generalize hhd : (e - (t : Int)) / 2 = hh
    have h2h : e - (t : Int) = 2 * hh := by omega
    have hr := isqrt_lt (m * 2 ^ t)
    generalize isqrt (m * 2 ^ t) = r at hr ⊢
    generalize hcd : (if r * r = m * 2 ^ t then 0 else 1) = c
    -- the value of the argument in terms of `N = m * 2^t`
    have hN : ((m * 2 ^ t : Nat) : ℚ) * 2 ^ (2 * hh) = (m : ℚ) * 2 ^ e := by
      have : e = (t : Int) + 2 * hh := by omega
      rw [this, two_zpow_add, zpow_natCast]
      push_cast
      ring
    have hrq : ((m * 2 ^ t : Nat) : ℚ) < ((r : ℚ) + 1) * ((r : ℚ) + 1) := by
      exact_mod_cast hr
    have hp := two_zpow_pos hh
    have h22 : (2 : ℚ) ^ (2 * hh) = 2 ^ hh * 2 ^ hh := by
      rw [← two_zpow_add]; congr 1; ring
    have hgt : 1 < (((r : ℚ) + 1) * 2 ^ hh) * (((r : ℚ) + 1) * 2 ^ hh) := by
      have h1 : (1 : ℚ) ≤ ((m * 2 ^ t : Nat) : ℚ) * (2 ^ hh * 2 ^ hh) := by
        rw [← h22, hN]; exact h
      have h2 : ((m * 2 ^ t : Nat) : ℚ) * (2 ^ hh * 2 ^ hh)
          < ((r : ℚ) + 1) * ((r : ℚ) + 1) * (2 ^ hh * 2 ^ hh) :=
        mul_lt_mul_of_pos_right hrq (mul_pos hp hp)
      calc (1 : ℚ) ≤ _ := h1
        _ < _ := h2
        _ = _ := by ring
    have hgt1 : 1 < ((r : ℚ) + 1) * 2 ^ hh := by
      by_contra hcon
      have hle := not_lt.mp hcon
      have hnn : (0 : ℚ) ≤ ((r : ℚ) + 1) * 2 ^ hh := by positivity
      have := mul_le_mul hle hle hnn (by norm_num : (0 : ℚ) ≤ 1)
      linarith
    have hr1 : 1 ≤ r := by
      rcases Nat.eq_zero_or_pos r with h0 | h0
      · rw [h0] at hr
        have : 0 < m * 2 ^ t := Nat.mul_pos (Nat.pos_of_ne_zero hm) (by positivity)
        omega
      · exact h0
    have hrh : (1 : ℚ) ≤ (r : ℚ) * 2 ^ hh := by
      by_cases hneg : 0 ≤ hh
      · have : (1 : ℚ) ≤ 2 ^ hh := by
          have := zpow_le_zpow_right₀ (by norm_num : (1 : ℚ) ≤ 2) hneg
          simpa using this
        have hrq1 : (1 : ℚ) ≤ (r : ℚ) := by exact_mod_cast hr1
        calc (1 : ℚ) = 1 * 1 := by ring
          _ ≤ (r : ℚ) * 2 ^ hh := mul_le_mul hrq1 this (by norm_num) (by linarith)
      · have hj : hh = -((-hh).toNat : Int) := by omega
        generalize (-hh).toNat = j at hj
        rw [hj, zpow_neg, zpow_natCast] at hgt1 ⊢
        have hjp : (0 : ℚ) < 2 ^ j := by positivity
        rw [← div_eq_mul_inv, lt_div_iff₀ hjp, one_mul] at hgt1
        rw [← div_eq_mul_inv, le_div_iff₀ hjp, one_mul]
        have : 2 ^ j < r + 1 := by exact_mod_cast hgt1
        have : 2 ^ j ≤ r := by omega
        exact_mod_cast this
    -- the value handed to the rounding is at least one
    have hMv : (1 : ℚ) ≤ ((2 * r + c : Nat) : ℚ) * 2 ^ (hh - 1) := by
      have e1 : (2 : ℚ) ^ (hh - 1) = 2 ^ hh / 2 := by
        have : hh - 1 = hh + (-1) := by ring
        rw [this, two_zpow_add]
        norm_num [div_eq_mul_inv]
      rw [e1]
      have hc0 : (0 : ℚ) ≤ (c : ℚ) := Nat.cast_nonneg c
      push_cast
      have : (r : ℚ) * 2 ^ hh ≤ (2 * (r : ℚ) + (c : ℚ)) * (2 ^ hh / 2) := by
        have : (2 * (r : ℚ) + (c : ℚ)) * (2 ^ hh / 2) = (r : ℚ) * 2 ^ hh + (c : ℚ) * 2 ^ hh / 2 := by
          ring
        rw [this]
        have : (0 : ℚ) ≤ (c : ℚ) * 2 ^ hh / 2 := by positivity
        linarith
      linarith
    rcases round_cases false (2 * r + c) (hh - 1) with hinf | ⟨m2, e2, hfin, herr⟩
    · rw [hinf, lt_def]
      simp [Double.lt]
    · rw [hfin, lt_fin_iff, val_fin_false, val_fin_false]
      have h3 := (abs_le.mp herr).1
      unfold slack at h3
      generalize ((2 * r + c : Nat) : ℚ) * 2 ^ (hh - 1) = V at hMv h3
      have hV : V / 2 ^ 52 ≤ V / 2 := by
        apply div_le_div_of_nonneg_left (by linarith) (by norm_num) (by norm_num)
      have hsmall : (1 : ℚ) / 2 ^ 1074 ≤ 1 / 4 := by
        apply div_le_div_of_nonneg_left (by norm_num) (by norm_num)
        calc (4 : ℚ) = 2 ^ 2 := by norm_num
          _ ≤ 2 ^ 1074 := pow_le_pow_right₀ (by norm_num) (by norm_num)
      have hval : ((5764607523034235 : Nat) : ℚ) * 2 ^ (-59 : Int) < 1 / 4 := by
        rw [zpow_neg]
        norm_num
      intro hlt
      generalize (m2 : ℚ) * 2 ^ e2 = R at h3 hlt
      generalize ((5764607523034235 : Nat) : ℚ) * 2 ^ (-59 : Int) = T at hval hlt
      generalize V / 2 ^ 52 = a at h3 hV
      generalize (1 : ℚ) / 2 ^ 1074 = b at h3 hsmall
      linarith

end DoubleSqrt

/-! ## The chain of a reachable manipulator, for any scalar type -/

section ShapeAny

variable {α : Type} [Zero α] [One α] [NatCast α] [OfScientific α] [Add α] [Sub α] [Mul α]
  [Div α] [Neg α] [LT α] [DecidableRel (fun a b : α => a < b)] [LE α]

theorem create_eq_pose_lit (b : Vec3D α) :
    ArmManipulator.create b = pose b 0.0 0.0 0.0 0.0 := rfl

/-- A reachable manipulator is the chain of `configure` with some angles. -/
theorem reachable_shape (L : CMath α) {m : ArmManipulator α} (h : Reachable L m) :
    ∃ b a0 a1 a2 a3, m = pose b a0 a1 a2 a3 := by
  induction h with
  | create base => exact ⟨base, _, _, _, _, create_eq_pose_lit base⟩
  | setAngles a _ ih =>
    obtain ⟨b, a0, a1, a2, a3, rfl⟩ := ih
    exact ⟨b, _, _, _, _, setAngles_pose b a0 a1 a2 a3 a⟩
  | solveIK tgt out _ ih =>
    obtain ⟨b, a0, a1, a2, a3, rfl⟩ := ih
    refine solveLoop_arm_induct (fun m => ∃ b a0 a1 a2 a3, m = pose b a0 a1 a2 a3) ?_ L tgt maxIt
      _ _ _ ⟨b, a0, a1, a2, a3, rfl⟩
    rintro m v ⟨b, a0, a1, a2, a3, rfl⟩
    exact ⟨b, _, _, _, _, setAngles_pose b a0 a1 a2 a3 v⟩

end ShapeAny

/-! ## Bounds on the end effector in `double` -/

section DoubleReach

theorem zero_lit_double : (0.0 : Double) = 0 := by decide

theorem create_eq_pose_double (b : Vec3D Double) :
    ArmManipulator.create b = pose b 0 0 0 0 := by
  rw [create_eq_pose_lit, zero_lit_double]

theorem two_pow_big : (2 : ℚ) ^ 1000 < 2 ^ (1024 : Int) := by
  calc (2 : ℚ) ^ 1000 = 2 ^ ((1000 : Nat) : Int) := (zpow_natCast 2 1000).symm
    _ < 2 ^ (1024 : Int) := zpow_lt_zpow_right₀ (by norm_num) (by norm_num)

/-- The four combinations of two bounded coordinates with a cosine and a sine that occur in
`rotX`, `rotY` and `rotZ`. -/
theorem comb_within {A B C : ℚ} {x y c s : Double} (hx : Double.Within A x)
    (hy : Double.Within B y) (hc : Double.Within 1 c) (hs : Double.Within 1 s)
    (hA : 0 ≤ A) (hB : 0 ≤ B)
    (hC : (A + B) * (1 + 1 / 2 ^ 50) + 1 / 2 ^ 1000 ≤ C) (hC2 : C ≤ 2 ^ 1000) :
    Double.Within C (x * c - y * s) ∧ Double.Within C (x * s + y * c) ∧
    Double.Within C (x * c + y * s) ∧ Double.Within C (-x * s + y * c) := by
  have hbig := two_pow_big
  have e1 : (1 : ℚ) / 2 ^ 1074 ≤ 1 / 2 ^ 1002 :=
    div_le_div_of_nonneg_left (by norm_num) (by positivity)
      (pow_le_pow_right₀ (by norm_num) (by norm_num))
  have e2 : (1 : ℚ) / 2 ^ 1002 = (1 / 2 ^ 1000) / 4 := by
    have : (2 : ℚ) ^ 1002 = 2 ^ 1000 * 4 := by
      rw [show (1002 : Nat) = 1000 + 2 from rfl, pow_add]
      norm_num
    rw [this, div_div]
  have e3 : (0 : ℚ) < 1 / 2 ^ 1000 := by positivity
  have e4 : (1 : ℚ) / 2 ^ 50 = 4 * (1 / 2 ^ 52) := by
    rw [show (2 : ℚ) ^ 52 = 2 ^ 50 * 4 by norm_num [pow_succ]]
    field_simp
  have e5 : (0 : ℚ) < 1 / 2 ^ 52 := by positivity
  have e6 : (1 : ℚ) / 2 ^ 52 ≤ 1 / 4 :=
    div_le_div_of_nonneg_left (by norm_num) (by norm_num) (by norm_num)
  generalize (1 : ℚ) / 2 ^ 1000 = η at hC e2 e3
  generalize hεd : (1 : ℚ) / 2 ^ 52 = ε at e4 e5 e6
  rw [e4] at hC
  have hsl : ∀ W : ℚ, 0 ≤ W → slack W ≤ W * ε + η / 4 := by
    intro W hW
    unfold slack
    rw [← hεd]
    have : W / 2 ^ 52 = W * (1 / 2 ^ 52) := by ring
    rw [this]
    linarith
  have hAε : 0 ≤ A * ε := mul_nonneg hA e5.le
  have hBε : 0 ≤ B * ε := mul_nonneg hB e5.le
  have hAεε : A * ε * ε ≤ A * ε / 4 := by nlinarith
  have hBεε : B * ε * ε ≤ B * ε / 4 := by nlinarith
  -- the products
  have mA : ∀ {u v : Double}, Double.Within A u → Double.Within 1 v →
      Double.Within (A + A * ε + η / 4) (u * v) := by
    intro u v hu hv
    refine mul_within hu hv ?_ ?_
    · rw [mul_one]; linarith [hsl A hA]
    · linarith
  have mB : ∀ {u v : Double}, Double.Within B u → Double.Within 1 v →
      Double.Within (B + B * ε + η / 4) (u * v) := by
    intro u v hu hv
    refine mul_within hu hv ?_ ?_
    · rw [mul_one]; linarith [hsl B hB]
    · linarith
  have hW0 : 0 ≤ A + A * ε + η / 4 + (B + B * ε + η / 4) := by linarith
  have hsW := hsl _ hW0
  have hηε : η * ε ≤ η / 4 := by nlinarith
  have key : A + A * ε + η / 4 + (B + B * ε + η / 4)
      + slack (A + A * ε + η / 4 + (B + B * ε + η / 4)) ≤ C := by
    have : (A + A * ε + η / 4 + (B + B * ε + η / 4)) * ε
        = A * ε + B * ε + A * ε * ε + B * ε * ε + (η * ε) / 2 := by ring
    rw [this] at hsW
    linarith
  have addW : ∀ {u v : Double}, Double.Within (A + A * ε + η / 4) u →
      Double.Within (B + B * ε + η / 4) v → Double.Within C (u + v) := by
    intro u v hu hv
    exact add_btw (W := A + A * ε + η / 4 + (B + B * ε + η / 4)) hu hv
      (by linarith) (by linarith) (by linarith) (by linarith) (by linarith) (by linarith)
  have subW : ∀ {u v : Double}, Double.Within (A + A * ε + η / 4) u →
      Double.Within (B + B * ε + η / 4) v → Double.Within C (u - v) := by
    intro u v hu hv
    exact sub_btw (W := A + A * ε + η / 4 + (B + B * ε + η / 4)) hu hv
      (by linarith) (by linarith) (by linarith) (by linarith) (by linarith) (by linarith)
  exact ⟨subW (mA hx hc) (mB hy hs), addW (mA hx hs) (mB hy hc), addW (mA hx hc) (mB hy hs),
    addW (mA (within_neg hx) hs) (mB hy hc)⟩

theorem rotZ_within {L : CMath Double} (hL : SaneMath L) {bx bz bw C : ℚ} {p : Vec3D Double}
    (a : Double) (hp : p.Within bx bz bw) (h1 : 0 ≤ bx) (h2 : 0 ≤ bz)
    (hC : (bx + bz) * (1 + 1 / 2 ^ 50) + 1 / 2 ^ 1000 ≤ C) (hC2 : C ≤ 2 ^ 1000) :
    (rotZ L p a).Within C C bw := by
  obtain ⟨k1, k2, _, _⟩ := comb_within hp.1 hp.2.1 (hL.1 a) (hL.2.1 a) h1 h2 hC hC2
  exact ⟨k1, k2, hp.2.2⟩

theorem rotY_within {L : CMath Double} (hL : SaneMath L) {bx bz bw C : ℚ} {p : Vec3D Double}
    (a : Double) (hp : p.Within bx bz bw) (h1 : 0 ≤ bx) (h2 : 0 ≤ bw)
    (hC : (bx + bw) * (1 + 1 / 2 ^ 50) + 1 / 2 ^ 1000 ≤ C) (hC2 : C ≤ 2 ^ 1000) :
    (rotY L p a).Within C bz C := by
  obtain ⟨_, _, k3, k4⟩ := comb_within hp.1 hp.2.2 (hL.1 a) (hL.2.1 a) h1 h2 hC hC2
  exact ⟨k3, hp.2.1, k4⟩

theorem rotX_within {L : CMath Double} (hL : SaneMath L) {bx bz bw C : ℚ} {p : Vec3D Double}
    (a : Double) (hp : p.Within bx bz bw) (h1 : 0 ≤ bz) (h2 : 0 ≤ bw)
    (hC : (bz + bw) * (1 + 1 / 2 ^ 50) + 1 / 2 ^ 1000 ≤ C) (hC2 : C ≤ 2 ^ 1000) :
    (rotX L p a).Within bx C C := by
  obtain ⟨k1, k2, _, _⟩ := comb_within hp.2.1 hp.2.2 (hL.1 a) (hL.2.1 a) h1 h2 hC hC2
  exact ⟨hp.1, k1, k2⟩

end DoubleReach

section DoubleForward

theorem slack_small {W : ℚ} (h1 : W ≤ 2 ^ 20) : slack W ≤ 1 / 1000 := by
  unfold slack
  have e1 : W / 2 ^ 52 ≤ 2 ^ 20 / 2 ^ 52 := div_le_div_of_nonneg_right h1 (by positivity)
  have e2 : (1 : ℚ) / 2 ^ 1074 ≤ 1 / 2 ^ 32 :=
    div_le_div_of_nonneg_left (by norm_num) (by positivity)
      (pow_le_pow_right₀ (by norm_num) (by norm_num))
  have e3 : (2 : ℚ) ^ 20 / 2 ^ 52 + 1 / 2 ^ 32 ≤ 1 / 1000 := by norm_num
  linarith

theorem small_lt_big {C : ℚ} (h : C ≤ 2 ^ 21) : C < 2 ^ (1024 : Int) := by
  have h1 : (2 : ℚ) ^ 21 = 2 ^ ((21 : Nat) : Int) := (zpow_natCast 2 21).symm
  have h2 : (2 : ℚ) ^ ((21 : Nat) : Int) < 2 ^ (1024 : Int) :=
    zpow_lt_zpow_right₀ (by norm_num) (by norm_num)
  linarith

/-- Products of values below `2^20`, with a fixed allowance for the rounding. -/
theorem mul_within_small {A B C : ℚ} {x y : Double} (hx : Double.Within A x)
    (hy : Double.Within B y) (h1 : A * B ≤ 2 ^ 20)
    (hC : A * B + 1 / 1000 ≤ C) (hC2 : C ≤ 2 ^ 21) : Double.Within C (x * y) :=
  mul_within hx hy (by linarith [slack_small h1]) (small_lt_big hC2)

/-- Sums of values below `2^20`, with a fixed allowance for the rounding. -/
theorem add_btw_small {a b c d lo hi : ℚ} {x y : Double}
    (hx : Double.Btw a b x) (hy : Double.Btw c d y)
    (hW1 : -(2 ^ 20) ≤ a + c) (hW2 : b + d ≤ 2 ^ 20)
    (hlo : lo ≤ a + c - 1 / 1000) (hhi : b + d + 1 / 1000 ≤ hi)
    (h1 : hi ≤ 2 ^ 21) (h2 : -(2 ^ 21) ≤ lo) : Double.Btw lo hi (x + y) := by
  have hs := slack_small (W := 2 ^ 20) (le_refl _)
  have hb := small_lt_big (C := 2 ^ 21) (le_refl _)
  generalize hσ : slack ((2 : ℚ) ^ 20) = σ at hs
  have k1 : lo ≤ a + c - slack (2 ^ 20) := by rw [hσ]; linarith
  have k2 : b + d + slack (2 ^ 20) ≤ hi := by rw [hσ]; linarith
  exact add_btw (W := 2 ^ 20) hx hy hW1 hW2 k1 k2 (by linarith) (by linarith)

theorem sub_btw_small {a b c d lo hi : ℚ} {x y : Double}
    (hx : Double.Btw a b x) (hy : Double.Btw c d y)
    (hW1 : -(2 ^ 20) ≤ a - d) (hW2 : b - c ≤ 2 ^ 20)
    (hlo : lo ≤ a - d - 1 / 1000) (hhi : b - c + 1 / 1000 ≤ hi)
    (h1 : hi ≤ 2 ^ 21) (h2 : -(2 ^ 21) ≤ lo) : Double.Btw lo hi (x - y) := by
  have hs := slack_small (W := 2 ^ 20) (le_refl _)
  have hb := small_lt_big (C := 2 ^ 21) (le_refl _)
  generalize hσ : slack ((2 : ℚ) ^ 20) = σ at hs
  have k1 : lo ≤ a - d - slack (2 ^ 20) := by rw [hσ]; linarith
  have k2 : b - c + slack (2 ^ 20) ≤ hi := by rw [hσ]; linarith
  exact sub_btw (W := 2 ^ 20) hx hy hW1 hW2 k1 k2 (by linarith) (by linarith)

theorem rot_side {S C : ℚ} (h1 : S ≤ 100) (hC : S + 1 / 1000 ≤ C) :
    S * (1 + 1 / 2 ^ 50) + 1 / 2 ^ 1000 ≤ C := by
  have e1 : (1 : ℚ) / 2 ^ 1000 ≤ 1 / 2 ^ 11 :=
    div_le_div_of_nonneg_left (by norm_num) (by positivity)
      (pow_le_pow_right₀ (by norm_num) (by norm_num))
  have e2 : S * (1 / 2 ^ 50) ≤ 100 * (1 / 2 ^ 50) :=
    mul_le_mul_of_nonneg_right h1 (by positivity)
  have e3 : (100 : ℚ) * (1 / 2 ^ 50) + 1 / 2 ^ 11 ≤ 1 / 1000 := by norm_num
  linarith

theorem small_le_big {C : ℚ} (h : C ≤ 2 ^ 21) : C ≤ 2 ^ 1000 :=
  le_trans h (pow_le_pow_right₀ (by norm_num) (by norm_num))

theorem val_zero_double : (0 : Double).val = 0 := by
  show (Double.fin false 0 0).val = 0
  simp [Double.val]

theorem within_zero_double : Double.Within 0 (0 : Double) := by
  show Double.Within 0 (Double.fin false 0 0)
  rw [within_fin_iff]
  simp

theorem within_one_double : Double.Within 1 (1 : Double) := by
  show Double.Within 1 (Double.fin false 1 0)
  rw [within_fin_iff]
  simp

theorem lit_two : (2.0 : Double) = .fin false 1 1 := by decide

theorem lit_three : (3.0 : Double) = .fin false 3 0 := by decide

theorem lit_two_half : (2.5 : Double) = .fin false 5 (-1) := by decide

theorem lit_one : (1.0 : Double) = .fin false 1 0 := by decide

theorem within_lit_two : Double.Within 2 (2.0 : Double) := by
  rw [lit_two, within_fin_iff]
  norm_num

theorem within_lit_three : Double.Within 3 (3.0 : Double) := by
  rw [lit_three, within_fin_iff]
  norm_num

theorem within_lit_two_half : Double.Within (5 / 2) (2.5 : Double) := by
  rw [lit_two_half, within_fin_iff]
  norm_num

theorem within_lit_one : Double.Within 1 (1.0 : Double) := by
  rw [lit_one, within_fin_iff]
  norm_num

theorem scale_within {p : Vec3D Double} {k : Double} {bx bz bw K u v w : ℚ}
    (hp : p.Within bx bz bw) (hk : Double.Within K k)
    (hx1 : bx * K + 1 / 1000 ≤ u) (hx2 : u ≤ 1000)
    (hz1 : bz * K + 1 / 1000 ≤ v) (hz2 : v ≤ 1000)
    (hw1 : bw * K + 1 / 1000 ≤ w) (hw2 : w ≤ 1000) :
    (p.scale k).Within u v w := by
  have hb : (1000 : ℚ) ≤ 2 ^ 20 := by norm_num
  have hb2 : (1000 : ℚ) ≤ 2 ^ 21 := by norm_num
  exact ⟨mul_within_small hp.1 hk (by linarith) hx1 (by linarith),
    mul_within_small hp.2.1 hk (by linarith) hz1 (by linarith),
    mul_within_small hp.2.2 hk (by linarith) hw1 (by linarith)⟩

/-- With a sane `<cmath>`, whatever the four angles (NaN and infinities included), the four
scaled link directions summed by `forward` are NaN or bounded, coordinate by coordinate. -/
theorem links_within {L : CMath Double} (hL : SaneMath L) (a0 a1 a2 a3 : Double) :
    ((rotZ L ⟨0, 1, 0⟩ a0).scale 2.0).Within 3 3 3 ∧
    ((rotY L (rotZ L ⟨0, 1, 0⟩ a0) a1).scale 3.0).Within 4 4 4 ∧
    ((rotX L (rotY L (rotZ L ⟨0, 1, 0⟩ a0) a1) a2).scale 2.5).Within 6 6 6 ∧
    ((rotY L (rotX L (rotY L (rotZ L ⟨0, 1, 0⟩ a0) a1) a2) a3).scale 1.0).Within 4 4 4 := by
  have he : (⟨0, 1, 0⟩ : Vec3D Double).Within 0 1 0 :=
    ⟨within_zero_double, within_one_double, within_zero_double⟩
  have d0 : (rotZ L ⟨0, 1, 0⟩ a0).Within (1001 / 1000) (1001 / 1000) 0 :=
    rotZ_within hL a0 he (by norm_num) (by norm_num)
      (rot_side (by norm_num) (by norm_num)) (small_le_big (by norm_num))
  have d1 : (rotY L (rotZ L ⟨0, 1, 0⟩ a0) a1).Within (1002 / 1000) (1001 / 1000) (1002 / 1000) :=
    rotY_within hL a1 d0 (by norm_num) (by norm_num)
      (rot_side (by norm_num) (by norm_num)) (small_le_big (by norm_num))
  have d2 : (rotX L (rotY L (rotZ L ⟨0, 1, 0⟩ a0) a1) a2).Within
      (1002 / 1000) (2004 / 1000) (2004 / 1000) :=
    rotX_within hL a2 d1 (by norm_num) (by norm_num)
      (rot_side (by norm_num) (by norm_num)) (small_le_big (by norm_num))
  have d3 : (rotY L (rotX L (rotY L (rotZ L ⟨0, 1, 0⟩ a0) a1) a2) a3).Within
      (3007 / 1000) (2004 / 1000) (3007 / 1000) :=
    rotY_within hL a3 d2 (by norm_num) (by norm_num)
      (rot_side (by norm_num) (by norm_num)) (small_le_big (by norm_num))
  exact ⟨scale_within d0 within_lit_two
      (by norm_num) (by norm_num) (by norm_num) (by norm_num) (by norm_num) (by norm_num),
    scale_within d1 within_lit_three
      (by norm_num) (by norm_num) (by norm_num) (by norm_num) (by norm_num) (by norm_num),
    scale_within d2 within_lit_two_half
      (by norm_num) (by norm_num) (by norm_num) (by norm_num) (by norm_num) (by norm_num),
    scale_within d3 within_lit_one
      (by norm_num) (by norm_num) (by norm_num) (by norm_num) (by norm_num) (by norm_num)⟩

end DoubleForward

section DoubleTargets

/-! ## Targets away from the arm, for a base of moderate size -/

theorem natAbs_val (A : Int) (e : Int) :
    ((A.natAbs : Nat) : ℚ) * 2 ^ e = |(A : ℚ) * 2 ^ e| := by
  rw [abs_mul, abs_of_pos (two_zpow_pos e)]
  congr 1
  rw [Nat.cast_natAbs, Int.cast_abs]

/-- A position near `r` plus a bounded step stays near `r`, up to one rounding. -/
theorem add_near {r d B D : ℚ} {x y : Double} (hx : Double.Near r d x)
    (hy : Double.Within B y) (hr : |r| + d + B ≤ 2 ^ 20) (hD : d + B + 1 / 1000 ≤ D) :
    Double.Near r D (x + y) := by
  rw [add_def]
  cases x with
  | nan => cases y <;> trivial
  | inf s => exact absurd hx id
  | fin s1 m1 e1 =>
    cases y with
    | nan => trivial
    | inf s => exact absurd hy id
    | fin s2 m2 e2 =>
      obtain ⟨A, hA, hadd⟩ := add_fin_val s1 m1 e1 s2 m2 e2
      rw [hadd]
      have hx1 : |(Double.fin s1 m1 e1).val - r| ≤ d := hx
      have hy1 : |(Double.fin s2 m2 e2).val| ≤ B := by
        rw [abs_le]; exact hy
      have hsum : |(A : ℚ) * 2 ^ (min e1 e2) - r| ≤ d + B := by
        rw [hA]
        have : (Double.fin s1 m1 e1).val + (Double.fin s2 m2 e2).val - r
            = ((Double.fin s1 m1 e1).val - r) + (Double.fin s2 m2 e2).val := by ring
        rw [this]
        exact le_trans (abs_add _ _) (add_le_add hx1 hy1)
      have hd0 : 0 ≤ d := le_trans (abs_nonneg _) hx1
      have hB0 : 0 ≤ B := le_trans (abs_nonneg _) hy1
      by_cases hz : A = 0
      · rw [if_pos hz]
        rw [hz] at hsum
        simp only [Int.cast_zero, zero_mul] at hsum
        show |(Double.fin (s1 && s2) 0 0).val - r| ≤ D
        have : (Double.fin (s1 && s2) 0 0).val = 0 := by simp [Double.val]
        rw [this]
        linarith
      · rw [if_neg hz]
        have hv := natAbs_val A (min e1 e2)
        have hvb : ((A.natAbs : Nat) : ℚ) * 2 ^ (min e1 e2) ≤ 2 ^ 20 := by
          rw [hv]
          have h1 : |(A : ℚ) * 2 ^ (min e1 e2)| ≤ |(A : ℚ) * 2 ^ (min e1 e2) - r| + |r| := by
            have := abs_add ((A : ℚ) * 2 ^ (min e1 e2) - r) r
            rwa [sub_add_cancel] at this
          linarith
        have hs := slack_small hvb
        have hfin : ((A.natAbs : Nat) : ℚ) * 2 ^ (min e1 e2)
            + slack (((A.natAbs : Nat) : ℚ) * 2 ^ (min e1 e2)) < 2 ^ (1024 : Int) := by
          have := small_lt_big (C := 2 ^ 20 + 1 / 1000) (by norm_num)
          linarith
        obtain ⟨m, e, hr2, herr⟩ := round_fin (decide (A < 0)) A.natAbs (min e1 e2) hfin
        rw [hr2]
        have herr2 := le_trans herr hs
        show |(Double.fin (decide (A < 0)) m e).val - r| ≤ D
        have hp := two_zpow_pos (min e1 e2)
        have hclose : |(Double.fin (decide (A < 0)) m e).val - (A : ℚ) * 2 ^ (min e1 e2)|
            ≤ 1 / 1000 := by
          by_cases hneg : A < 0
          · simp only [hneg, decide_True, val_fin_true]
            have hAq : (A : ℚ) < 0 := by exact_mod_cast hneg
            have hneg2 : (A : ℚ) * 2 ^ (min e1 e2) < 0 := mul_neg_of_neg_of_pos hAq hp
            rw [hv, abs_of_neg hneg2] at herr2
            have : -((m : ℚ) * 2 ^ e) - (A : ℚ) * 2 ^ (min e1 e2)
                = -((m : ℚ) * 2 ^ e - -((A : ℚ) * 2 ^ (min e1 e2))) := by ring
            rw [this, abs_neg]
            exact herr2
          · simp only [hneg, decide_False, val_fin_false]
            have hAq : (0 : ℚ) ≤ (A : ℚ) := by exact_mod_cast (not_lt.mp hneg)
            have hnn : (0 : ℚ) ≤ (A : ℚ) * 2 ^ (min e1 e2) := mul_nonneg hAq hp.le
            rw [hv, abs_of_nonneg hnn] at herr2
            exact herr2
        have : (Double.fin (decide (A < 0)) m e).val - r
            = ((Double.fin (decide (A < 0)) m e).val - (A : ℚ) * 2 ^ (min e1 e2))
              + ((A : ℚ) * 2 ^ (min e1 e2) - r) := by ring
        rw [this]
        have := abs_add ((Double.fin (decide (A < 0)) m e).val - (A : ℚ) * 2 ^ (min e1 e2))
          ((A : ℚ) * 2 ^ (min e1 e2) - r)
        linarith

end DoubleTargets

section DoubleBase

/-! ## The end effector stays near the base -/

theorem near_self {B : ℚ} {x : Double} (h : Double.Small B x) :
    Double.Near x.val 0 x ∧ |x.val| ≤ B := by
  cases x with
  | nan => exact absurd h id
  | inf s => exact absurd h id
  | fin s m e =>
    refine ⟨?_, ?_⟩
    · show |(Double.fin s m e).val - (Double.fin s m e).val| ≤ 0
      rw [sub_self, abs_zero]
    · rw [abs_val_fin]; exact h

/-- Four bounded steps from a finite start of moderate size. -/
theorem walk_near {B : ℚ} {x s0 s1 s2 s3 : Double} (hx : Double.Small B x) (hB : B ≤ 100000)
    (h0 : Double.Within 3 s0) (h1 : Double.Within 4 s1) (h2 : Double.Within 6 s2)
    (h3 : Double.Within 4 s3) : Double.Near x.val 20 (x + s0 + s1 + s2 + s3) := by
  obtain ⟨n0, hr⟩ := near_self hx
  generalize x.val = r at n0 hr
  have hr2 : |r| ≤ 100000 := le_trans hr hB
  have k : (100000 : ℚ) + 20 ≤ 2 ^ 20 := by norm_num
  have n1 := add_near (D := 7 / 2) n0 h0 (by linarith) (by norm_num)
  have n2 := add_near (D := 8) n1 h1 (by linarith) (by norm_num)
  have n3 := add_near (D := 15) n2 h2 (by linarith) (by norm_num)
  exact add_near n3 h3 (by linarith) (by norm_num)

/-- With a sane `<cmath>`, whatever the four angles (NaN and infinities included), every
coordinate of the end effector is NaN or within `20` of that coordinate of the base, for a
base with finite coordinates of absolute value at most `100000`. -/
theorem forward_near {L : CMath Double} (hL : SaneMath L) (b : Vec3D Double)
    (hb : Double.Small 100000 b.x ∧ Double.Small 100000 b.y ∧ Double.Small 100000 b.z)
    (a0 a1 a2 a3 : Double) :
    Double.Near b.x.val 20 ((pose b a0 a1 a2 a3).forward L).x ∧
    Double.Near b.y.val 20 ((pose b a0 a1 a2 a3).forward L).y ∧
    Double.Near b.z.val 20 ((pose b a0 a1 a2 a3).forward L).z := by
  rw [forward_pose]
  obtain ⟨s0, s1, s2, s3⟩ := links_within hL a0 a1 a2 a3
  exact ⟨walk_near hb.1 (le_refl _) s0.1 s1.1 s2.1 s3.1,
    walk_near hb.2.1 (le_refl _) s0.2.1 s1.2.1 s2.2.1 s3.2.1,
    walk_near hb.2.2 (le_refl _) s0.2.2 s1.2.2 s2.2.2 s3.2.2⟩

theorem small_zero_double : Double.Small 100000 (0 : Double) := by
  show ((0 : Nat) : ℚ) * 2 ^ (0 : Int) ≤ 100000
  norm_num

theorem within_of_near_zero {d : ℚ} {x : Double} (h : Double.Near 0 d x) :
    Double.Within d x := by
  cases x with
  | nan => trivial
  | inf s => exact absurd h id
  | fin s m e =>
    have h1 : |(Double.fin s m e).val - 0| ≤ d := h
    rw [sub_zero] at h1
    exact abs_le.mp h1

/-- The special case of the base `(0, 0, 0)`: every coordinate of the end effector is NaN or
at most `20` in absolute value. -/
theorem forward_within {L : CMath Double} (hL : SaneMath L) (a0 a1 a2 a3 : Double) :
    ((pose (⟨0, 0, 0⟩ : Vec3D Double) a0 a1 a2 a3).forward L).Within 20 20 20 := by
  obtain ⟨h1, h2, h3⟩ := forward_near hL ⟨0, 0, 0⟩
    ⟨small_zero_double, small_zero_double, small_zero_double⟩ a0 a1 a2 a3
  rw [show (⟨0, 0, 0⟩ : Vec3D Double).x.val = 0 from val_zero_double] at h1
  rw [show (⟨0, 0, 0⟩ : Vec3D Double).y.val = 0 from val_zero_double] at h2
  rw [show (⟨0, 0, 0⟩ : Vec3D Double).z.val = 0 from val_zero_double] at h3
  exact ⟨within_of_near_zero h1, within_of_near_zero h2, within_of_near_zero h3⟩

end DoubleBase

section DoubleFar

/-! ## A target so far that the squared distance overflows -/

theorem btw_zero_double : Double.Btw 0 0 (0 : Double) := by
  show (0 : ℚ) ≤ (Double.fin false 0 0).val ∧ (Double.fin false 0 0).val ≤ 0
  rw [val_fin_false]
  norm_num

theorem slack_side {W C : ℚ} (h : W ≤ 2 ^ 20) (hC : W + 1 / 1000 ≤ C) : W + slack W ≤ C := by
  have := slack_small h
  linarith

/-- The squared distance of a bounded coordinate from `0`. -/
theorem sq_diff_zero {x : Double} (hx : Double.Within 20 x) :
    Double.Btw 0 500 ((x - 0) * (x - 0)) := by
  have d : Double.Within 21 (x - 0) :=
    sub_btw_small hx btw_zero_double (by norm_num) (by norm_num) (by norm_num) (by norm_num)
      (by norm_num) (by norm_num)
  exact mul_self_nonneg_btw d (slack_side (by norm_num) (by norm_num))
    (small_lt_big (by norm_num))

set_option maxRecDepth 100000 in
set_option exponentiation.threshold 5000 in
theorem lit_huge : (1e200 : Double) = .fin false 2941796710330669 613 := by decide

theorem btw_huge : Double.Btw (2 ^ 664) (2 ^ 665) (1e200 : Double) := by
  rw [lit_huge]
  show (2 : ℚ) ^ 664 ≤ (Double.fin false 2941796710330669 613).val ∧
    (Double.fin false 2941796710330669 613).val ≤ 2 ^ 665
  rw [val_fin_false]
  have e0 : (2 : ℚ) ^ (613 : Int) = 2 ^ 613 := zpow_natCast 2 613
  rw [e0]
  have p : (0 : ℚ) ≤ 2 ^ 613 := by positivity
  have e1 : (2 : ℚ) ^ 664 = 2 ^ 51 * 2 ^ 613 := by rw [← pow_add]
  have e2 : (2 : ℚ) ^ 665 = 2 ^ 52 * 2 ^ 613 := by rw [← pow_add]
  rw [e1, e2]
  exact ⟨mul_le_mul_of_nonneg_right (by norm_num) p, mul_le_mul_of_nonneg_right (by norm_num) p⟩

/-- The square of the difference of a small value and a value of the size of `1e200`
overflows. -/
theorem sq_diff_huge {x t : Double} (hx : Double.Within 20 x)
    (ht : Double.Btw (2 ^ 664) (2 ^ 665) t) : Double.Blown ((x - t) * (x - t)) := by
  have hsl : slack (2 ^ 666) ≤ 2 ^ 615 := by
    unfold slack
    have e1 : (2 : ℚ) ^ 666 / 2 ^ 52 = 2 ^ 614 := by
      rw [show (666 : Nat) = 614 + 52 from rfl, pow_add]
      field_simp
    have e2 : (1 : ℚ) / 2 ^ 1074 ≤ 1 := by
      apply div_le_one_of_le₀ _ (by positivity)
      exact one_le_pow₀ (by norm_num)
    have e3 : (1 : ℚ) ≤ 2 ^ 614 := one_le_pow₀ (by norm_num)
    rw [e1]
    have : (2 : ℚ) ^ 615 = 2 * 2 ^ 614 := by rw [pow_succ]; ring
    linarith
  have p663 : (0 : ℚ) < 2 ^ 663 := by positivity
  have q664 : (2 : ℚ) ^ 664 = 2 * 2 ^ 663 := by rw [pow_succ]; ring
  have q665 : (2 : ℚ) ^ 665 = 4 * 2 ^ 663 := by rw [pow_succ, q664]; ring
  have q666 : (2 : ℚ) ^ 666 = 8 * 2 ^ 663 := by rw [pow_succ, q665]; ring
  have q667 : (2 : ℚ) ^ 667 = 16 * 2 ^ 663 := by rw [pow_succ, q666]; ring
  have q615 : (2 : ℚ) ^ 615 ≤ 2 ^ 663 / 4 := by
    rw [show (663 : Nat) = 615 + 48 from rfl, pow_add]
    have : (0 : ℚ) < 2 ^ 615 := by positivity
    have h48 : (4 : ℚ) ≤ 2 ^ 48 := by norm_num
    rw [le_div_iff₀ (by norm_num)]
    nlinarith
  have h20 : (20 : ℚ) ≤ 2 ^ 663 / 4 := by
    have : (80 : ℚ) ≤ 2 ^ 663 :=
      le_trans (by norm_num : (80 : ℚ) ≤ 2 ^ 7) (pow_le_pow_right₀ (by norm_num) (by norm_num))
    linarith
  have hbig : (2 : ℚ) ^ 667 < 2 ^ (1024 : Int) := by
    calc (2 : ℚ) ^ 667 = 2 ^ ((667 : Nat) : Int) := (zpow_natCast 2 667).symm
      _ < 2 ^ (1024 : Int) := zpow_lt_zpow_right₀ (by norm_num) (by norm_num)
  generalize hσ : slack ((2 : ℚ) ^ 666) = σ at hsl
  have k1 : -(2 : ℚ) ^ 666 ≤ -20 - 2 ^ 665 := by rw [q666, q665]; linarith
  have k2 : (20 : ℚ) - 2 ^ 664 ≤ 2 ^ 666 := by rw [q666, q664]; linarith
  have k3 : -(2 : ℚ) ^ 667 ≤ -20 - 2 ^ 665 - slack (2 ^ 666) := by
    rw [hσ, q667, q665]; linarith
  have k4 : (20 : ℚ) - 2 ^ 664 + slack (2 ^ 666) ≤ -(2 ^ 663) := by
    rw [hσ, q664]; linarith
  have k5 : -(2 : ℚ) ^ 663 < 2 ^ (1024 : Int) := by linarith
  have k6 : -(2 : ℚ) ^ (1024 : Int) < -(2 ^ 667) := by linarith
  have dx : Double.Btw (-(2 ^ 667)) (-(2 ^ 663)) (x - t) :=
    sub_btw (W := 2 ^ 666) hx ht k1 k2 k3 k4 k5 k6
  refine mul_self_blown dx p663.le (Or.inl (le_refl _)) ?_
  rw [← pow_add]
  calc (2 : ℚ) ^ (1024 : Int) ≤ 2 ^ ((663 + 663 : Nat) : Int) :=
        zpow_le_zpow_right₀ (by norm_num) (by norm_num)
    _ = 2 ^ (663 + 663) := zpow_natCast 2 _

set_option maxRecDepth 100000 in
set_option exponentiation.threshold 5000 in
/-- With a sane `<cmath>`, for every configuration of the chain at base `(0, 0, 0)` the
squared distance to the target `(1e200, 0, 0)` overflows: it is `+inf` or NaN. -/
theorem blown_double {L : CMath Double} (hL : SaneMath L) (a0 a1 a2 a3 : Double) :
    Double.Blown
      (sqDist ((pose (⟨0, 0, 0⟩ : Vec3D Double) a0 a1 a2 a3).forward L) ⟨1e200, 0, 0⟩) := by
  have hf := forward_within hL a0 a1 a2 a3
  generalize (pose (⟨0, 0, 0⟩ : Vec3D Double) a0 a1 a2 a3).forward L = cur at hf ⊢
  exact add_blown (add_blown (sq_diff_huge hf.1 btw_huge) (sq_diff_zero hf.2.1))
    (sq_diff_zero hf.2.2)

end DoubleFar

section DoubleSolve

/-! ## `solveIK` in `double` -/

theorem clamp_nan (lo hi : Double) : clamp Double.nan lo hi = Double.nan := by
  unfold clamp
  have h1 : ¬ Double.nan < lo := by rw [lt_def]; simp [Double.lt]
  have h2 : ¬ hi < Double.nan := by rw [lt_def]; cases hi <;> simp [Double.lt]
  rw [if_neg h1, if_neg h2]

theorem nan_div (y : Double) : Double.nan / y = Double.nan := by
  rw [div_def]; cases y <;> rfl

theorem mul_nan (x : Double) : x * Double.nan = Double.nan := by
  rw [mul_def]; cases x <;> rfl

theorem sub_nan (x : Double) : x - Double.nan = Double.nan := by
  rw [sub_def]; cases x <;> rfl

/-- The clamp to `[-1, 1]` is NaN or lies in `[-1, 1]`. -/
theorem clamp_unit_within (v : Double) : Double.Within 1 (clamp v (-1) 1) := by
  have hm1 : (-1 : Double) = Double.fin true 1 0 := rfl
  have h1 : (1 : Double) = Double.fin false 1 0 := rfl
  have w1 : Double.Within 1 (Double.fin true 1 0) := by rw [within_fin_iff]; norm_num
  have w2 : Double.Within 1 (Double.fin false 1 0) := by rw [within_fin_iff]; norm_num
  unfold clamp
  rw [hm1, h1]
  split_ifs with c1 c2
  · exact w1
  · exact w2
  · cases v with
    | nan => exact within_nan 1
    | inf s =>
      exfalso
      rw [lt_def] at c1 c2
      simp only [Double.lt] at c1 c2
      cases s <;> simp at c1 c2
    | fin s m e =>
      rw [lt_fin_iff, val_fin_true] at c1
      rw [lt_fin_iff, val_fin_false] at c2
      norm_num at c1 c2
      exact ⟨by linarith, by linarith⟩

theorem sane_coarseMath : SaneMath coarseMath :=
  ⟨fun _ => clamp_unit_within _, fun _ => clamp_unit_within _, rfl⟩

theorem coarse_cos_zero : coarseMath.cos 0 = 1 := by decide

theorem coarse_sin_zero : coarseMath.sin 0 = 0 := by decide

/-- An overflowed squared distance does not pass the tolerance test. -/
theorem blown_not_close {v : Double} (h : Double.Blown v) : ¬ Double.sqrt v < tol := by
  apply sqrt_not_small
  cases v with
  | fin s m e => exact absurd h id
  | inf s =>
    have hs : s = false := h
    subst hs
    rw [lt_def]
    simp [Double.lt, one_double]
  | nan => rw [lt_def]; simp [Double.lt]

set_option maxRecDepth 100000 in
set_option exponentiation.threshold 5000 in
/-- With a sane `<cmath>` and the target `(1e200, 0, 0)`, one pass of the main loop of
`solveIK` on a chain at base `(0, 0, 0)` turns every entry of the working vector, and every
joint angle, into NaN. -/
theorem ikIter_nan {L : CMath Double} (hL : SaneMath L) (a0 a1 a2 a3 : Double)
    (o : List Double) (ho : o.length = 4) :
    ikIter L ⟨1e200, 0, 0⟩ (pose (⟨0, 0, 0⟩ : Vec3D Double) a0 a1 a2 a3, o) =
      (pose ⟨0, 0, 0⟩ Double.nan Double.nan Double.nan Double.nan,
        [Double.nan, Double.nan, Double.nan, Double.nan]) := by
  obtain ⟨h1, h2, h3, _⟩ := ikIter_spec L ⟨1e200, 0, 0⟩
    (pose (⟨0, 0, 0⟩ : Vec3D Double) a0 a1 a2 a3) o (by rw [ho]; exact le_refl 4)
  have hent : ∀ i, i < 4 →
      (ikIter L ⟨1e200, 0, 0⟩ (pose (⟨0, 0, 0⟩ : Vec3D Double) a0 a1 a2 a3, o)).2[i]?
        = some Double.nan := by
    intro i hi
    rw [h2 i (by rw [ho]; exact hi)]
    have hc : Double.Blown (cost L (pose (⟨0, 0, 0⟩ : Vec3D Double) a0 a1 a2 a3) ⟨1e200, 0, 0⟩
        (o.set i (o.getD i 0 + 0.001))) := by
      unfold cost ArmManipulator.endEffector
      rw [setAngles_pose]
      exact blown_double hL _ _ _ _
    have hd : Double.Blown (sqDist
        ((pose (⟨0, 0, 0⟩ : Vec3D Double) a0 a1 a2 a3).endEffector L) ⟨1e200, 0, 0⟩) :=
      blown_double hL a0 a1 a2 a3
    rw [sub_blown hc hd, nan_div, mul_nan, sub_nan]
  have hlist : (ikIter L ⟨1e200, 0, 0⟩ (pose (⟨0, 0, 0⟩ : Vec3D Double) a0 a1 a2 a3, o)).2
      = [Double.nan, Double.nan, Double.nan, Double.nan] := by
    apply List.ext_getElem?
    intro i
    by_cases hi : i < 4
    · rw [hent i hi]
      interval_cases i <;> rfl
    · have hl : (ikIter L ⟨1e200, 0, 0⟩
          (pose (⟨0, 0, 0⟩ : Vec3D Double) a0 a1 a2 a3, o)).2.length ≤ i := by
        rw [h1, ho]; omega
      rw [List.getElem?_eq_none hl, List.getElem?_eq_none (by simp; omega)]
  refine Prod.ext ?_ hlist
  rw [h3, hlist, setAngles_four_pose, clamp_nan, clamp_nan, clamp_nan]

end DoubleSolve

section DoubleRuns

/-! ## The zero pose and the overflowing solve in `double` -/

/-- With `cos 0 = 1` and `sin 0 = 0` the zero pose adds the four link vectors to the base one
after another, each sum rounded. -/
theorem forward_zero_double (L : CMath Double) (hc : L.cos 0 = 1) (hs : L.sin 0 = 0)
    (b : Vec3D Double) :
    (pose b 0 0 0 0).forward L =
      (((b.add ⟨0, 2, 0⟩).add ⟨0, 3, 0⟩).add ⟨0, 2.5, 0⟩).add ⟨0, 1, 0⟩ := by
  rw [forward_pose]
  have rz : rotZ L (⟨0, 1, 0⟩ : Vec3D Double) 0 = ⟨0, 1, 0⟩ := by
    simp only [rotZ, hc, hs]; rfl
  have ry : rotY L (⟨0, 1, 0⟩ : Vec3D Double) 0 = ⟨0, 1, 0⟩ := by
    simp only [rotY, hc, hs]; rfl
  have rx : rotX L (⟨0, 1, 0⟩ : Vec3D Double) 0 = ⟨0, 1, 0⟩ := by
    simp only [rotX, hc, hs]; rfl
  rw [rz, ry, rx, ry]
  rfl

theorem angles_pose_any (b : Vec3D Double) (a0 a1 a2 a3 : Double) :
    (pose b a0 a1 a2 a3).angles = [a0, a1, a2, a3] := rfl

set_option maxRecDepth 100000 in
set_option exponentiation.threshold 5000 in
/-- With a sane `<cmath>` and the target `(1e200, 0, 0)`, `solveIK` on a chain at base
`(0, 0, 0)` reports failure and leaves NaN in the four joints and in the working vector. -/
theorem solveIK_nan_double {L : CMath Double} (hL : SaneMath L) (a0 a1 a2 a3 : Double)
    (out : List Double) :
    ((pose (⟨0, 0, 0⟩ : Vec3D Double) a0 a1 a2 a3).solveIK L ⟨1e200, 0, 0⟩ out).ok = false ∧
    ((pose (⟨0, 0, 0⟩ : Vec3D Double) a0 a1 a2 a3).solveIK L ⟨1e200, 0, 0⟩ out).arm =
      pose ⟨0, 0, 0⟩ Double.nan Double.nan Double.nan Double.nan ∧
    ((pose (⟨0, 0, 0⟩ : Vec3D Double) a0 a1 a2 a3).solveIK L ⟨1e200, 0, 0⟩ out).out =
      [Double.nan, Double.nan, Double.nan, Double.nan] := by
  have hok : ((pose (⟨0, 0, 0⟩ : Vec3D Double) a0 a1 a2 a3).solveIK L ⟨1e200, 0, 0⟩ out).ok
      = false := by
    unfold ArmManipulator.solveIK ArmManipulator.endEffector
    refine solveLoop_fails
      (fun m => ∃ a0 a1 a2 a3, m = pose (⟨0, 0, 0⟩ : Vec3D Double) a0 a1 a2 a3) ?_ L _ ?_ maxIt
      _ _ ⟨a0, a1, a2, a3, rfl⟩
    · rintro m v ⟨b0, b1, b2, b3, rfl⟩
      exact ⟨_, _, _, _, setAngles_pose _ b0 b1 b2 b3 v⟩
    · rintro m ⟨b0, b1, b2, b3, rfl⟩
      rw [hL.2.2]
      exact blown_not_close (blown_double hL b0 b1 b2 b3)
  have hit := solveLoop_false_iterate L ⟨1e200, 0, 0⟩ maxIt
    (pose (⟨0, 0, 0⟩ : Vec3D Double) a0 a1 a2 a3)
    (pose (⟨0, 0, 0⟩ : Vec3D Double) a0 a1 a2 a3).angles hok
  have hinv : ∀ n : Nat, (∃ b0 b1 b2 b3,
      ((ikIter L ⟨1e200, 0, 0⟩)^[n] (pose (⟨0, 0, 0⟩ : Vec3D Double) a0 a1 a2 a3,
        (pose (⟨0, 0, 0⟩ : Vec3D Double) a0 a1 a2 a3).angles)).1
        = pose (⟨0, 0, 0⟩ : Vec3D Double) b0 b1 b2 b3) ∧
      ((ikIter L ⟨1e200, 0, 0⟩)^[n] (pose (⟨0, 0, 0⟩ : Vec3D Double) a0 a1 a2 a3,
        (pose (⟨0, 0, 0⟩ : Vec3D Double) a0 a1 a2 a3).angles)).2.length = 4 := by
    intro n
    induction n with
    | zero => exact ⟨⟨a0, a1, a2, a3, rfl⟩, rfl⟩
    | succ n ih =>
      obtain ⟨⟨b0, b1, b2, b3, h1⟩, h2⟩ := ih
      rw [Function.iterate_succ_apply']
      generalize (ikIter L ⟨1e200, 0, 0⟩)^[n] (pose (⟨0, 0, 0⟩ : Vec3D Double) a0 a1 a2 a3,
        (pose (⟨0, 0, 0⟩ : Vec3D Double) a0 a1 a2 a3).angles) = s at h1 h2 ⊢
      obtain ⟨s1, s2⟩ := s
      simp only at h1 h2
      subst h1
      rw [ikIter_nan hL b0 b1 b2 b3 s2 h2]
      exact ⟨⟨_, _, _, _, rfl⟩, rfl⟩
  have hlast : (ikIter L ⟨1e200, 0, 0⟩)^[maxIt] (pose (⟨0, 0, 0⟩ : Vec3D Double) a0 a1 a2 a3,
      (pose (⟨0, 0, 0⟩ : Vec3D Double) a0 a1 a2 a3).angles) =
      (pose ⟨0, 0, 0⟩ Double.nan Double.nan Double.nan Double.nan,
        [Double.nan, Double.nan, Double.nan, Double.nan]) := by
    have h100 : maxIt = 99 + 1 := rfl
    rw [h100, Function.iterate_succ_apply']
    obtain ⟨⟨b0, b1, b2, b3, h1⟩, h2⟩ := hinv 99
    generalize (ikIter L ⟨1e200, 0, 0⟩)^[99] (pose (⟨0, 0, 0⟩ : Vec3D Double) a0 a1 a2 a3,
      (pose (⟨0, 0, 0⟩ : Vec3D Double) a0 a1 a2 a3).angles) = s at h1 h2 ⊢
    obtain ⟨s1, s2⟩ := s
    simp only at h1 h2
    subst h1
    exact ikIter_nan hL b0 b1 b2 b3 s2 h2
  unfold ArmManipulator.solveIK at hok ⊢
  rw [hlast] at hit
  exact ⟨hok, congrArg Prod.fst hit, congrArg Prod.snd hit⟩

end DoubleRuns

section Claims

variable {α : Type} [LinearOrderedField α]

/-! ## Forward kinematics (C1, C2) -/

/-- Claim C1. For every base `b` and every four joint angles `a0 .. a3` (the state
`pose b a0 a1 a2 a3`: joint axes Z, Y, X, Y, link lengths 2.0, 3.0, 2.5, 1.0, every local
direction `(0,1,0)`), `forward` and `endEffector` return
`b + 2.0 * R0 e + 3.0 * R1 (R0 e) + 2.5 * R2 (R1 (R0 e)) + 1.0 * R3 (R2 (R1 (R0 e)))` with
`e = (0,1,0)` and `Rj` the rotation of joint `j` at its current angle, joint 0 applied first;
the sum is accumulated from the left, starting at the base. -/
theorem C1_forward_is_sum_of_rotated_links (L : CMath α) (b : Vec3D α) (a0 a1 a2 a3 : α) :
    (pose b a0 a1 a2 a3).joints.map ArmJoint.axis = [Axis.Z, Axis.Y, Axis.X, Axis.Y] ∧
    (pose b a0 a1 a2 a3).angles = [a0, a1, a2, a3] ∧
    (pose b a0 a1 a2 a3).links.map ArmLink.len = [2.0, 3.0, 2.5, 1.0] ∧
    (pose b a0 a1 a2 a3).basePos = b ∧
    (pose b a0 a1 a2 a3).forward L =
      (((b.add ((rotZ L ⟨0, 1, 0⟩ a0).scale 2.0)).add
          ((rotY L (rotZ L ⟨0, 1, 0⟩ a0) a1).scale 3.0)).add
          ((rotX L (rotY L (rotZ L ⟨0, 1, 0⟩ a0) a1) a2).scale 2.5)).add
          ((rotY L (rotX L (rotY L (rotZ L ⟨0, 1, 0⟩ a0) a1) a2) a3).scale 1.0) ∧
    (pose b a0 a1 a2 a3).endEffector L = (pose b a0 a1 a2 a3).forward L :=
  ⟨rfl, rfl, rfl, rfl, forward_pose L b a0 a1 a2 a3, rfl⟩

/-- Claim C2. In every state of the manipulator (any base, any joints, any angles) the last
element of `jointsWorld()` is the value of `forward()`, which is also `endEffector()`. -/
theorem C2_forward_eq_last_jointsWorld (L : CMath α) (m : ArmManipulator α) :
    (m.jointsWorld L).getLast? = some (m.forward L) ∧
      (m.jointsWorld L).getLast? = some (m.endEffector L) := by
  have h := (jointsWorld_fold L m (List.range m.joints.length) m.basePos [m.basePos] rfl).1
  exact ⟨h, h⟩

/-! ## Outcome of `solveIK` (C3 - C6) -/

/-- Claim C3. Whenever `solveIK`, called in a reachable state with any target, returns `true`,
the end effector of the manipulator after the call is at distance strictly less than `0.01`
from the target (the distance being `sqrt` of the squared distance `sqDist`). -/
theorem C3_success_within_tolerance (L : CMath α) (m : ArmManipulator α) (tgt : Vec3D α)
    (out : List α) (hm : Reachable L m) (hok : (m.solveIK L tgt out).ok = true) :
    L.sqrt (sqDist ((m.solveIK L tgt out).arm.forward L) tgt) < 0.01 :=
  (solveLoop_post L tgt maxIt m m.angles (m.endEffector L)
    (setAngles_angles_posed (reachable_posed L hm)) rfl).2 hok

theorem C3_success_within_tolerance_witness :
    Reachable ⟨Real.cos, Real.sin, Real.sqrt⟩ (ArmManipulator.create (⟨0, 0, 0⟩ : Vec3D ℝ)) ∧
    ((ArmManipulator.create (⟨0, 0, 0⟩ : Vec3D ℝ)).solveIK ⟨Real.cos, Real.sin, Real.sqrt⟩
      ⟨0, 8.5, 0⟩ []).ok = true ∧
    Real.sqrt (sqDist (((ArmManipulator.create (⟨0, 0, 0⟩ : Vec3D ℝ)).solveIK
      ⟨Real.cos, Real.sin, Real.sqrt⟩ ⟨0, 8.5, 0⟩ []).arm.forward
        ⟨Real.cos, Real.sin, Real.sqrt⟩) ⟨0, 8.5, 0⟩) < 0.01 :=
  have hok : ((ArmManipulator.create (⟨0, 0, 0⟩ : Vec3D ℝ)).solveIK
      ⟨Real.cos, Real.sin, Real.sqrt⟩ ⟨0, 8.5, 0⟩ []).ok = true := by
    rw [solveIK_of_close _ _ _ (posed_create _) zero_pose_close]
  ⟨Reachable.create _, hok,
    C3_success_within_tolerance ⟨Real.cos, Real.sin, Real.sqrt⟩ _ _ _ (Reachable.create _) hok⟩

/-- Claim C5. If, in a reachable state, the end effector is already within `0.01` of the target,
`solveIK` returns `true`, hands back exactly `angles()`, and leaves the joint angles (indeed
the whole manipulator) unchanged. -/
theorem C5_already_close_is_noop (L : CMath α) (m : ArmManipulator α) (tgt : Vec3D α)
    (out : List α) (hm : Reachable L m)
    (hc : L.sqrt (sqDist (m.endEffector L) tgt) < 0.01) :
    (m.solveIK L tgt out).ok = true ∧ (m.solveIK L tgt out).out = m.angles ∧
      (m.solveIK L tgt out).arm.angles = m.angles ∧ (m.solveIK L tgt out).arm = m := by
  rw [solveIK_of_close L tgt out (reachable_posed L hm) hc]
  exact ⟨rfl, rfl, rfl, rfl⟩

theorem C5_already_close_is_noop_witness :
    Reachable ⟨Real.cos, Real.sin, Real.sqrt⟩ (ArmManipulator.create (⟨0, 0, 0⟩ : Vec3D ℝ)) ∧
    Real.sqrt (sqDist ((ArmManipulator.create (⟨0, 0, 0⟩ : Vec3D ℝ)).endEffector
        ⟨Real.cos, Real.sin, Real.sqrt⟩) ⟨0, 8.5, 0⟩) < 0.01 ∧
    ((ArmManipulator.create (⟨0, 0, 0⟩ : Vec3D ℝ)).solveIK ⟨Real.cos, Real.sin, Real.sqrt⟩
      ⟨0, 8.5, 0⟩ []).ok = true ∧
    ((ArmManipulator.create (⟨0, 0, 0⟩ : Vec3D ℝ)).solveIK ⟨Real.cos, Real.sin, Real.sqrt⟩
      ⟨0, 8.5, 0⟩ []).out = [0, 0, 0, 0] ∧
    ((ArmManipulator.create (⟨0, 0, 0⟩ : Vec3D ℝ)).solveIK ⟨Real.cos, Real.sin, Real.sqrt⟩
      ⟨0, 8.5, 0⟩ []).arm.angles = [0, 0, 0, 0] :=
  have h := C5_already_close_is_noop ⟨Real.cos, Real.sin, Real.sqrt⟩
    (ArmManipulator.create (⟨0, 0, 0⟩ : Vec3D ℝ)) ⟨0, 8.5, 0⟩ [] (Reachable.create _)
    zero_pose_close_lit
  have ha : (ArmManipulator.create (⟨0, 0, 0⟩ : Vec3D ℝ)).angles = [0, 0, 0, 0] := by
    rw [create_eq_pose]; rfl
  ⟨Reachable.create _, zero_pose_close_lit, h.1, h.2.1.trans ha, h.2.2.1.trans ha⟩

/-- Claim C6. When `solveIK`, called in a reachable state, returns `false`, the vector it hands
back is the working vector after the 100th pass of the loop (100 gradient updates from
`angles()`), the manipulator is the one left by that pass, and its `angles()` are that vector
with each entry clamped to the limit of its joint.  The pre-solve angles are not put back:
there is a failing call (in real arithmetic) after which `angles()` differs from before. -/
theorem C6_failure_leaves_final_iterate (L : CMath α) (m : ArmManipulator α) (tgt : Vec3D α)
    (out : List α) (hm : Reachable L m) (hfail : (m.solveIK L tgt out).ok = false) :
    (m.solveIK L tgt out).out = ((ikIter L tgt)^[100] (m, m.angles)).2 ∧
    (m.solveIK L tgt out).arm = ((ikIter L tgt)^[100] (m, m.angles)).1 ∧
    (∃ o0 o1 o2 o3, (m.solveIK L tgt out).out = [o0, o1, o2, o3] ∧
      (m.solveIK L tgt out).arm.angles =
        [clamp o0 (-M_PI) M_PI, clamp o1 (-M_PI / 2) (M_PI / 2), clamp o2 0 8,
          clamp o3 (-M_PI) M_PI]) ∧
    (∃ (m0 : ArmManipulator ℝ) (t : Vec3D ℝ),
      Reachable ⟨Real.cos, Real.sin, Real.sqrt⟩ m0 ∧
      (m0.solveIK ⟨Real.cos, Real.sin, Real.sqrt⟩ t []).ok = false ∧
      (m0.solveIK ⟨Real.cos, Real.sin, Real.sqrt⟩ t []).arm.angles ≠ m0.angles) := by
  obtain ⟨h1, h2, h3⟩ := solveIK_false_post L m tgt out (reachable_posed L hm) hfail
  refine ⟨h1, h2, h3, ArmManipulator.create ⟨0, 0, 0⟩, ⟨-1000, 0, 0⟩, Reachable.create _,
    failed_solve_moves_arm.1, fun heq => ?_⟩
  have h0 := failed_solve_moves_arm.2.1
  have h1 := failed_solve_moves_arm.2.2
  rw [heq, h0] at h1
  exact absurd (Option.some.inj h1) (ne_of_lt (M_PI_pos (α := ℝ)))

theorem C6_failure_leaves_final_iterate_witness :
    Reachable ⟨Real.cos, Real.sin, Real.sqrt⟩ (ArmManipulator.create (⟨0, 0, 0⟩ : Vec3D ℝ)) ∧
    ((ArmManipulator.create (⟨0, 0, 0⟩ : Vec3D ℝ)).solveIK ⟨Real.cos, Real.sin, Real.sqrt⟩
      ⟨-1000, 0, 0⟩ []).ok = false ∧
    (∃ o0 o1 o2 o3,
      ((ArmManipulator.create (⟨0, 0, 0⟩ : Vec3D ℝ)).solveIK ⟨Real.cos, Real.sin, Real.sqrt⟩
        ⟨-1000, 0, 0⟩ []).out = [o0, o1, o2, o3] ∧
      ((ArmManipulator.create (⟨0, 0, 0⟩ : Vec3D ℝ)).solveIK ⟨Real.cos, Real.sin, Real.sqrt⟩
        ⟨-1000, 0, 0⟩ []).arm.angles =
        [clamp o0 (-M_PI) M_PI, clamp o1 (-M_PI / 2) (M_PI / 2), clamp o2 0 8,
          clamp o3 (-M_PI) M_PI]) ∧
    (ArmManipulator.create (⟨0, 0, 0⟩ : Vec3D ℝ)).angles[0]? = some 0 ∧
    ((ArmManipulator.create (⟨0, 0, 0⟩ : Vec3D ℝ)).solveIK ⟨Real.cos, Real.sin, Real.sqrt⟩
      ⟨-1000, 0, 0⟩ []).arm.angles[0]? = some (M_PI : ℝ) :=
  ⟨Reachable.create _, failed_solve_moves_arm.1,
    (C6_failure_leaves_final_iterate ⟨Real.cos, Real.sin, Real.sqrt⟩ _ _ _
      (Reachable.create _) failed_solve_moves_arm.1).2.2.1,
    failed_solve_moves_arm.2.1, failed_solve_moves_arm.2.2⟩

/-! ## Joint limits and `setAngles` (C7 - C10) -/

set_option maxRecDepth 100000 in
set_option exponentiation.threshold 5000 in
/-- Claim C7, the failing input.  In the `double` arithmetic of the program, with any
`<cmath>` whose cosines and sines are NaN or lie in `[-1, 1]` and whose square root is
correctly rounded: from every reachable state with base `(0, 0, 0)`, the call of `solveIK`
with the finite target `(1e200, 0, 0)` reports failure and leaves a reachable state in which
all four stored angles are NaN.  No stored angle then lies within its limits: both
comparisons `low <= angle` and `angle <= high` are false. -/
theorem C7_overflow_stores_nan (L : CMath Double) (m : ArmManipulator Double)
    (out : List Double) (hL : SaneMath L) (hm : Reachable L m)
    (hb : m.basePos = ⟨0, 0, 0⟩) :
    (m.solveIK L ⟨1e200, 0, 0⟩ out).ok = false ∧
    Reachable L (m.solveIK L ⟨1e200, 0, 0⟩ out).arm ∧
    (m.solveIK L ⟨1e200, 0, 0⟩ out).arm.angles =
      [Double.nan, Double.nan, Double.nan, Double.nan] ∧
    ∀ j ∈ (m.solveIK L ⟨1e200, 0, 0⟩ out).arm.joints,
      j.angle = Double.nan ∧ ¬ j.lims.low ≤ j.angle ∧ ¬ j.angle ≤ j.lims.high := by
  have hr := Reachable.solveIK ⟨1e200, 0, 0⟩ out hm
  obtain ⟨b, a0, a1, a2, a3, rfl⟩ := reachable_shape L hm
  have hb2 : b = ⟨0, 0, 0⟩ := hb
  subst hb2
  obtain ⟨h1, h2, _⟩ := solveIK_nan_double hL a0 a1 a2 a3 out
  refine ⟨h1, hr, by rw [h2]; rfl, ?_⟩
  rw [h2]
  intro j hj
  have hle : ∀ x : Double, ¬ x ≤ Double.nan := by
    intro x h
    have h3 : Double.le x Double.nan = true := h
    cases x <;> simp [Double.le] at h3
  have hge : ∀ x : Double, ¬ Double.nan ≤ x := by
    intro x h
    have h3 : Double.le Double.nan x = true := h
    simp [Double.le] at h3
  simp only [pose, List.mem_cons, List.mem_singleton, List.not_mem_nil, or_false] at hj
  rcases hj with rfl | rfl | rfl | rfl <;> exact ⟨rfl, hle _, hge _⟩

set_option maxRecDepth 100000 in
set_option exponentiation.threshold 5000 in
/-- Witness for C7: the freshly constructed arm at base `(0, 0, 0)` with the coarse
`<cmath>`. -/
theorem C7_overflow_stores_nan_witness :
    SaneMath coarseMath ∧
    Reachable coarseMath (ArmManipulator.create (⟨0, 0, 0⟩ : Vec3D Double)) ∧
    (ArmManipulator.create (⟨0, 0, 0⟩ : Vec3D Double)).basePos = ⟨0, 0, 0⟩ ∧
    ((ArmManipulator.create (⟨0, 0, 0⟩ : Vec3D Double)).solveIK coarseMath
      ⟨1e200, 0, 0⟩ []).arm.angles = [Double.nan, Double.nan, Double.nan, Double.nan] :=
  ⟨sane_coarseMath, Reachable.create _, rfl,
    (C7_overflow_stores_nan coarseMath _ [] sane_coarseMath (Reachable.create _) rfl).2.2.1⟩

/-- Claim C8. For every configured chain, every input `v` and every `i < min (len v) 4`, after
`setAngles v` the angle of joint `i` is `clamp v[i] low_i high_i`, the limits being
`[-M_PI, M_PI]`, `[-M_PI/2, M_PI/2]`, `[0, 8]`, `[-M_PI, M_PI]`; setting joint 1 to `M_PI`
stores `M_PI/2` and setting it to `-10` stores `-M_PI/2`.  `setAngles` is a total function:
there is no failing case. -/
theorem C8_setAngles_clamps (b : Vec3D α) (a0 a1 a2 a3 : α) (v : List α) (i : Nat)
    (hi : i < min v.length 4) :
    (∃ x lo hgh,
      v[i]? = some x ∧
      ((pose b a0 a1 a2 a3).joints.map (fun j => (j.lims.low, j.lims.high)))[i]?
        = some (lo, hgh) ∧
      [((-M_PI : α), (M_PI : α)), (-M_PI / 2, M_PI / 2), (0, 8), (-M_PI, M_PI)][i]?
        = some (lo, hgh) ∧
      ((pose b a0 a1 a2 a3).setAngles v).angles[i]? = some (clamp x lo hgh)) ∧
    (∀ x : α, ((pose b a0 a1 a2 a3).setAngles [x, M_PI]).angles[1]? = some ((M_PI / 2 : α))) ∧
    (∀ x : α, ((pose b a0 a1 a2 a3).setAngles [x, (-10 : α)]).angles[1]? = some ((-M_PI / 2 : α))) := by
  have hpi := M_PI_pos (α := α)
  refine ⟨?_, ?_, ?_⟩
  · have hv : i < v.length := lt_of_lt_of_le hi (min_le_left _ _)
    have h4 : i < 4 := lt_of_lt_of_le hi (min_le_right _ _)
    rw [setAngles_pose]
    interval_cases i
    · exact ⟨v[0], -M_PI, M_PI, List.getElem?_eq_getElem hv, rfl, rfl, by
        simp [pose, ArmManipulator.angles, ArmJoint.get, newAngle, List.getElem?_eq_getElem hv]⟩
    · exact ⟨v[1], -M_PI / 2, M_PI / 2, List.getElem?_eq_getElem hv, rfl, rfl, by
        simp [pose, ArmManipulator.angles, ArmJoint.get, newAngle, List.getElem?_eq_getElem hv]⟩
    · exact ⟨v[2], 0, 8, List.getElem?_eq_getElem hv, rfl, rfl, by
        simp [pose, ArmManipulator.angles, ArmJoint.get, newAngle, List.getElem?_eq_getElem hv]⟩
    · exact ⟨v[3], -M_PI, M_PI, List.getElem?_eq_getElem hv, rfl, rfl, by
        simp [pose, ArmManipulator.angles, ArmJoint.get, newAngle, List.getElem?_eq_getElem hv]⟩
  · intro x
    rw [setAngles_pose]
    simp [ArmManipulator.angles, pose, ArmJoint.get, newAngle, clamp_pi_joint1]
  · intro x
    rw [setAngles_pose]
    simp [ArmManipulator.angles, pose, ArmJoint.get, newAngle, clamp_minus_ten_joint1]

theorem C8_setAngles_clamps_witness :
    1 < min ([1, 5, -2] : List ℚ).length 4 ∧
    ((pose (⟨0, 0, 0⟩ : Vec3D ℚ) 0 0 0 0).setAngles [1, 5, -2]).angles[1]?
      = some (clamp (5 : ℚ) (-M_PI / 2) (M_PI / 2)) := by
  refine ⟨by decide, ?_⟩
  obtain ⟨x, lo, hgh, hx, _, hl, ha⟩ :=
    (C8_setAngles_clamps (⟨0, 0, 0⟩ : Vec3D ℚ) 0 0 0 0 [1, 5, -2] 1 (by decide)).1
  simp only [List.getElem?_cons_succ, List.getElem?_cons_zero, Option.some.injEq,
    Prod.mk.injEq] at hx hl
  rw [ha, ← hx, ← hl.1, ← hl.2]

/-- Claim C9. `setAngles v` leaves every joint of index `>= len v` as it was (so a short `v`
touches only the leading joints), gives the same result as `setAngles` on the first
`joints.size()` values of `v` (the first 4 for a configured chain; extras are ignored), and
never changes the base position, the links, or the axis and limit of any joint. -/
theorem C9_setAngles_short_long_frame (m : ArmManipulator α) (v : List α) :
    (m.setAngles v).joints.drop v.length = m.joints.drop v.length ∧
    (m.setAngles v).joints.length = m.joints.length ∧
    m.setAngles v = m.setAngles (v.take m.joints.length) ∧
    (∀ (b : Vec3D α) (a0 a1 a2 a3 : α),
      (pose b a0 a1 a2 a3).setAngles v = (pose b a0 a1 a2 a3).setAngles (v.take 4)) ∧
    (m.setAngles v).basePos = m.basePos ∧
    (m.setAngles v).links = m.links ∧
    (m.setAngles v).joints.map ArmJoint.axis = m.joints.map ArmJoint.axis ∧
    (m.setAngles v).joints.map ArmJoint.lims = m.joints.map ArmJoint.lims := by
  refine ⟨setAnglesLoop_drop _ _, setAnglesLoop_length _ _, ?_, ?_, rfl, rfl,
    setAnglesLoop_axis _ _, setAnglesLoop_lims _ _⟩
  · simp only [ArmManipulator.setAngles, setAnglesLoop_take]
  · intro b a0 a1 a2 a3
    have h := setAnglesLoop_take (pose b a0 a1 a2 a3).joints v
    simp only [ArmManipulator.setAngles]
    rw [← h]
    rfl

/-- Claim C10. Clamping is idempotent: for a joint whose limit has `low <= high` and every `a`,
`set(a)` followed by `set(get())` leaves the stored angle (and the joint) unchanged; the four
configured joints have `low <= high`, and `setAngles(angles())` leaves every reachable state
unchanged. -/
theorem C10_clamp_idempotent (L : CMath α) (j : ArmJoint α) (a : α) (m : ArmManipulator α)
    (h : j.lims.low ≤ j.lims.high) (hm : Reachable L m) :
    ((j.set a).set (j.set a).get).get = (j.set a).get ∧
    (j.set a).set (j.set a).get = j.set a ∧
    (∀ jt ∈ m.joints, jt.lims.low ≤ jt.lims.high) ∧
    m.setAngles m.angles = m := by
  have h1 : (j.set a).set (j.set a).get = j.set a := by
    obtain ⟨ax, ang, lo, hgh, en⟩ := j
    cases en
    · rfl
    · simp only [ArmJoint.set, ArmJoint.get, AngleLimit.apply, if_true]
      rw [clamp_idem _ _ _ h]
  refine ⟨by rw [h1], h1, ?_, setAngles_angles_posed (reachable_posed L hm)⟩
  obtain ⟨b, a0, a1, a2, a3, rfl, _⟩ := reachable_posed L hm
  intro jt hjt
  simp only [pose, List.mem_cons, List.mem_singleton, List.not_mem_nil, or_false] at hjt
  rcases hjt with rfl | rfl | rfl | rfl
  · exact limit0_ok
  · exact limit1_ok
  · exact limit2_ok
  · exact limit0_ok

theorem C10_clamp_idempotent_witness :
    (-1 : ℝ) ≤ 1 ∧
    Reachable ⟨Real.cos, Real.sin, Real.sqrt⟩
      ((ArmManipulator.create (⟨0, 0, 0⟩ : Vec3D ℝ)).setAngles [10, -10]) ∧
    (((⟨Axis.Y, 0, AngleLimit.ofRange (-1) 1⟩ : ArmJoint ℝ).set 5).set
      ((⟨Axis.Y, 0, AngleLimit.ofRange (-1) 1⟩ : ArmJoint ℝ).set 5).get).get
        = ((⟨Axis.Y, 0, AngleLimit.ofRange (-1) 1⟩ : ArmJoint ℝ).set 5).get ∧
    ((ArmManipulator.create (⟨0, 0, 0⟩ : Vec3D ℝ)).setAngles [10, -10]).setAngles
      ((ArmManipulator.create (⟨0, 0, 0⟩ : Vec3D ℝ)).setAngles [10, -10]).angles
        = (ArmManipulator.create (⟨0, 0, 0⟩ : Vec3D ℝ)).setAngles [10, -10] :=
  have h := C10_clamp_idempotent ⟨Real.cos, Real.sin, Real.sqrt⟩
    (⟨Axis.Y, 0, AngleLimit.ofRange (-1) 1⟩ : ArmJoint ℝ) 5
    ((ArmManipulator.create (⟨0, 0, 0⟩ : Vec3D ℝ)).setAngles [10, -10])
    (by show (-1 : ℝ) ≤ 1; norm_num) (Reachable.setAngles _ (Reachable.create _))
  ⟨by norm_num, Reachable.setAngles _ (Reachable.create _), h.1, h.2.2.2⟩

/-! ## Zero pose, shape and reach (C11, C12, C16) -/

set_option maxRecDepth 100000 in
set_option exponentiation.threshold 5000 in
/-- Counterexample to C11 as stated: in `double`, with base `(0, 2^52, 0)` and all angles `0`,
`forwardKinematics()` is `(0, 2^52 + 9, 0)` (the sum `2^52 + 7.5` rounds to `2^52 + 8`),
whereas `b + (0, 8.5, 0)` is `(0, 2^52 + 8, 0)`; with base `(0, 0.024, 0)` it is
`(0, 8.524000000000001, 0)` and not `(0, 0.024 + 8.5, 0)`. -/
theorem C11_counterexample :
    (ArmManipulator.create (⟨0, 4503599627370496, 0⟩ : Vec3D Double)).forward coarseMath
      = ⟨0, 4503599627370505, 0⟩ ∧
    (⟨0, 4503599627370496, 0⟩ : Vec3D Double).add ⟨0, 8.5, 0⟩ = ⟨0, 4503599627370504, 0⟩ ∧
    (4503599627370505 : Double) ≠ 4503599627370504 ∧
    (ArmManipulator.create (⟨0, 0.024, 0⟩ : Vec3D Double)).forward coarseMath
      = ⟨0, 8.524000000000001, 0⟩ ∧
    (⟨0, 0.024, 0⟩ : Vec3D Double).add ⟨0, 8.5, 0⟩ = ⟨0, 8.524, 0⟩ ∧
    (8.524000000000001 : Double) ≠ 8.524 := by
  refine ⟨?_, rfl, by decide, ?_, rfl, by decide⟩
  · rw [create_eq_pose_double, forward_zero_double _ coarse_cos_zero coarse_sin_zero]
    rfl
  · rw [create_eq_pose_double, forward_zero_double _ coarse_cos_zero coarse_sin_zero]
    rfl

set_option maxRecDepth 100000 in
set_option exponentiation.threshold 5000 in
/-- Claim C11, amended.  In the `double` arithmetic of the program, with `cos 0 = 1` and
`sin 0 = 0`: for every base position `b`, with all four joint angles `0`,
`forwardKinematics()` is `b` with the link vectors `(0, 2, 0)`, `(0, 3, 0)`, `(0, 2.5, 0)` and
`(0, 1, 0)` added one after another, each sum rounded; for base `(0, 0, 0)` it equals
`(0, 8.5, 0)`. -/
theorem C11_zero_pose_reach (L : CMath Double) (b : Vec3D Double)
    (hc : L.cos 0 = 1) (hs : L.sin 0 = 0) :
    (pose b 0 0 0 0).forward L =
      (((b.add ⟨0, 2, 0⟩).add ⟨0, 3, 0⟩).add ⟨0, 2.5, 0⟩).add ⟨0, 1, 0⟩ ∧
    (ArmManipulator.create b).forward L =
      (((b.add ⟨0, 2, 0⟩).add ⟨0, 3, 0⟩).add ⟨0, 2.5, 0⟩).add ⟨0, 1, 0⟩ ∧
    (pose (⟨0, 0, 0⟩ : Vec3D Double) 0 0 0 0).forward L = ⟨0, 8.5, 0⟩ ∧
    (ArmManipulator.create (⟨0, 0, 0⟩ : Vec3D Double)).forward L = ⟨0, 8.5, 0⟩ := by
  refine ⟨forward_zero_double L hc hs b, ?_, ?_, ?_⟩
  · rw [create_eq_pose_double]; exact forward_zero_double L hc hs b
  · rw [forward_zero_double L hc hs]; rfl
  · rw [create_eq_pose_double, forward_zero_double L hc hs]; rfl

set_option maxRecDepth 100000 in
set_option exponentiation.threshold 5000 in
/-- Witness for C11: the coarse `<cmath>` and the base `(1, 2, 3)`, where the result is
`(1, 10.5, 3)`. -/
theorem C11_zero_pose_reach_witness :
    coarseMath.cos 0 = 1 ∧ coarseMath.sin 0 = 0 ∧
    (ArmManipulator.create (⟨1, 2, 3⟩ : Vec3D Double)).forward coarseMath = ⟨1, 10.5, 3⟩ ∧
    (ArmManipulator.create (⟨0, 0, 0⟩ : Vec3D Double)).forward coarseMath = ⟨0, 8.5, 0⟩ := by
  have h := C11_zero_pose_reach coarseMath ⟨1, 2, 3⟩ coarse_cos_zero coarse_sin_zero
  refine ⟨coarse_cos_zero, coarse_sin_zero, ?_, h.2.2.2⟩
  rw [h.2.1]
  rfl

/-- Claim C12. In every reachable state `angles()` has 4 elements (the joint count),
`jointsWorld()` has 5, the joint and link vectors have the same length, and the first element
of `jointsWorld()` is the base position. -/
theorem C12_chain_shape (L : CMath α) (m : ArmManipulator α) (hm : Reachable L m) :
    m.count = 4 ∧ m.angles.length = m.count ∧
    (m.jointsWorld L).length = m.count + 1 ∧ (m.jointsWorld L).length = 5 ∧
    m.joints.length = m.links.length ∧
    (m.jointsWorld L).head? = some m.basePos ∧ (m.jointsWorld L)[0]? = some m.basePos := by
  obtain ⟨h1, h2, h3, h4⟩ := posed_shape (reachable_posed L hm)
  have hl := jointsWorld_length L m
  have hh := jointsWorld_head L m
  refine ⟨h4, by rw [h3, h4], ?_, by rw [hl, h1], by rw [h1, h2], hh, ?_⟩
  · rw [hl]; rfl
  · rw [← List.head?_eq_getElem?]; exact hh

theorem C12_chain_shape_witness :
    Reachable ⟨Real.cos, Real.sin, Real.sqrt⟩
      ((ArmManipulator.create (⟨1, 2, 3⟩ : Vec3D ℝ)).setAngles [1, 1]) ∧
    ((ArmManipulator.create (⟨1, 2, 3⟩ : Vec3D ℝ)).setAngles [1, 1]).angles.length = 4 ∧
    (((ArmManipulator.create (⟨1, 2, 3⟩ : Vec3D ℝ)).setAngles [1, 1]).jointsWorld
      ⟨Real.cos, Real.sin, Real.sqrt⟩).length = 5 ∧
    (((ArmManipulator.create (⟨1, 2, 3⟩ : Vec3D ℝ)).setAngles [1, 1]).jointsWorld
      ⟨Real.cos, Real.sin, Real.sqrt⟩).head? = some ⟨1, 2, 3⟩ :=
  have h := C12_chain_shape ⟨Real.cos, Real.sin, Real.sqrt⟩
    ((ArmManipulator.create (⟨1, 2, 3⟩ : Vec3D ℝ)).setAngles [1, 1])
    (Reachable.setAngles _ (Reachable.create _))
  ⟨Reachable.setAngles _ (Reachable.create _), h.2.1.trans h.1, h.2.2.2.1, h.2.2.2.2.2.1⟩

/-- Claim C13. For a handle to a reachable manipulator and every `int` count other than 4,
`Arm_SolveIK` returns 0 and neither the manipulator (hence its joint angles) nor the caller's
array changes: the solver is not run. -/
theorem C13_count_mismatch_is_noop (L : CMath α) (m : ArmManipulator α) (tx ty tz : α)
    (ang : List α) (n : Int) (hm : Reachable L m) (hlo : -2 ^ 31 ≤ n) (hhi : n < 2 ^ 31)
    (hn : n ≠ 4) :
    Arm_SolveIK L (some m) tx ty tz ang n = ⟨0, some m, ang⟩ ∧
    (Arm_SolveIK L (some m) tx ty tz ang n).ret = 0 ∧
    (Arm_SolveIK L (some m) tx ty tz ang n).arm = some m ∧
    (Arm_SolveIK L (some m) tx ty tz ang n).ang = ang := by
  have hcount : m.count = 4 := (posed_shape (reachable_posed L hm)).2.2.2
  have hne : toSizeT n ≠ m.count := by
    rw [hcount]; exact toSizeT_ne_four n hlo hhi hn
  have h : Arm_SolveIK L (some m) tx ty tz ang n = ⟨0, some m, ang⟩ := by
    simp only [Arm_SolveIK, if_pos hne]
  rw [h]
  exact ⟨rfl, rfl, rfl, rfl⟩

theorem C13_count_mismatch_is_noop_witness :
    Reachable ⟨Real.cos, Real.sin, Real.sqrt⟩ (ArmManipulator.create (⟨0, 0, 0⟩ : Vec3D ℝ)) ∧
    (-2 ^ 31 ≤ (-1 : Int) ∧ (-1 : Int) < 2 ^ 31 ∧ (-1 : Int) ≠ 4) ∧
    Arm_SolveIK ⟨Real.cos, Real.sin, Real.sqrt⟩
      (some (ArmManipulator.create (⟨0, 0, 0⟩ : Vec3D ℝ))) (-1000) 0 0 [9, 9, 9, 9] (-1)
      = ⟨0, some (ArmManipulator.create (⟨0, 0, 0⟩ : Vec3D ℝ)), [9, 9, 9, 9]⟩ :=
  ⟨Reachable.create _, ⟨by decide, by decide, by decide⟩,
    (C13_count_mismatch_is_noop ⟨Real.cos, Real.sin, Real.sqrt⟩ _ (-1000) 0 0 [9, 9, 9, 9]
      (-1) (Reachable.create _) (by decide) (by decide) (by decide)).1⟩

/-- Claim C14. For a handle to a reachable manipulator, `count = 4` and a caller's array of at
least four entries, `Arm_SolveIK` returns 1 exactly when the core `solveIK` returns `true` and
0 otherwise; the manipulator is the one the solver leaves behind in both cases; on 1 the first
four entries of the array are the solver's vector (the rest is untouched), on 0 the whole
array is untouched. -/
theorem C14_boundary_follows_solver (L : CMath α) (m : ArmManipulator α) (tx ty tz : α)
    (ang : List α) (hm : Reachable L m) (hlen : 4 ≤ ang.length) :
    ((Arm_SolveIK L (some m) tx ty tz ang 4).ret = 1 ↔
      (m.solveIK L ⟨tx, ty, tz⟩ (List.replicate 4 0)).ok = true) ∧
    ((Arm_SolveIK L (some m) tx ty tz ang 4).ret = 0 ↔
      (m.solveIK L ⟨tx, ty, tz⟩ (List.replicate 4 0)).ok = false) ∧
    (Arm_SolveIK L (some m) tx ty tz ang 4).arm
      = some (m.solveIK L ⟨tx, ty, tz⟩ (List.replicate 4 0)).arm ∧
    ((Arm_SolveIK L (some m) tx ty tz ang 4).ret = 1 →
      (Arm_SolveIK L (some m) tx ty tz ang 4).ang.take 4
        = (m.solveIK L ⟨tx, ty, tz⟩ (List.replicate 4 0)).out ∧
      (Arm_SolveIK L (some m) tx ty tz ang 4).ang.drop 4 = ang.drop 4) ∧
    ((Arm_SolveIK L (some m) tx ty tz ang 4).ret = 0 →
      (Arm_SolveIK L (some m) tx ty tz ang 4).ang = ang) := by
  have hp := reachable_posed L hm
  have hl := solveIK_out_length L m ⟨tx, ty, tz⟩ [] hp
  have hsame : m.solveIK L ⟨tx, ty, tz⟩ (List.replicate 4 0) = m.solveIK L ⟨tx, ty, tz⟩ [] :=
    rfl
  rw [Arm_SolveIK_four L m tx ty tz ang hp hlen, hsame]
  generalize m.solveIK L ⟨tx, ty, tz⟩ [] = r at hl
  obtain ⟨ok, arm, out⟩ := r
  cases ok
  · simp
  · have h1 : List.take 4 (out ++ List.drop 4 ang) = out := List.take_left' hl
    have h2 : List.drop 4 (out ++ List.drop 4 ang) = List.drop 4 ang := List.drop_left' hl
    simp [h1, h2]

theorem C14_boundary_follows_solver_witness :
    Reachable ⟨Real.cos, Real.sin, Real.sqrt⟩ (ArmManipulator.create (⟨0, 0, 0⟩ : Vec3D ℝ)) ∧
    4 ≤ ([9, 9, 9, 9, 9] : List ℝ).length ∧
    (Arm_SolveIK ⟨Real.cos, Real.sin, Real.sqrt⟩
      (some (ArmManipulator.create (⟨0, 0, 0⟩ : Vec3D ℝ))) 0 8.5 0 [9, 9, 9, 9, 9] 4).ret = 1 ∧
    (Arm_SolveIK ⟨Real.cos, Real.sin, Real.sqrt⟩
      (some (ArmManipulator.create (⟨0, 0, 0⟩ : Vec3D ℝ))) 0 8.5 0 [9, 9, 9, 9, 9] 4).ang.take 4
        = [0, 0, 0, 0] ∧
    (Arm_SolveIK ⟨Real.cos, Real.sin, Real.sqrt⟩
      (some (ArmManipulator.create (⟨0, 0, 0⟩ : Vec3D ℝ))) (-1000) 0 0 [9, 9, 9, 9, 9] 4).ret
        = 0 ∧
    (Arm_SolveIK ⟨Real.cos, Real.sin, Real.sqrt⟩
      (some (ArmManipulator.create (⟨0, 0, 0⟩ : Vec3D ℝ))) (-1000) 0 0 [9, 9, 9, 9, 9] 4).ang
        = [9, 9, 9, 9, 9] ∧
    (ArmManipulator.create (⟨0, 0, 0⟩ : Vec3D ℝ)).angles[0]? = some 0 ∧
    (Arm_SolveIK ⟨Real.cos, Real.sin, Real.sqrt⟩
      (some (ArmManipulator.create (⟨0, 0, 0⟩ : Vec3D ℝ))) (-1000) 0 0 [9, 9, 9, 9, 9] 4).arm
        = some ((ArmManipulator.create (⟨0, 0, 0⟩ : Vec3D ℝ)).solveIK
            ⟨Real.cos, Real.sin, Real.sqrt⟩ ⟨-1000, 0, 0⟩ []).arm ∧
    ((ArmManipulator.create (⟨0, 0, 0⟩ : Vec3D ℝ)).solveIK
      ⟨Real.cos, Real.sin, Real.sqrt⟩ ⟨-1000, 0, 0⟩ []).arm.angles[0]? = some (M_PI : ℝ) := by
  have hs := C14_boundary_follows_solver ⟨Real.cos, Real.sin, Real.sqrt⟩
    (ArmManipulator.create (⟨0, 0, 0⟩ : Vec3D ℝ)) 0 8.5 0 [9, 9, 9, 9, 9]
    (Reachable.create _) (by simp)
  have hf := C14_boundary_follows_solver ⟨Real.cos, Real.sin, Real.sqrt⟩
    (ArmManipulator.create (⟨0, 0, 0⟩ : Vec3D ℝ)) (-1000) 0 0 [9, 9, 9, 9, 9]
    (Reachable.create _) (by simp)
  have hok : ((ArmManipulator.create (⟨0, 0, 0⟩ : Vec3D ℝ)).solveIK
      ⟨Real.cos, Real.sin, Real.sqrt⟩ ⟨0, 8.5, 0⟩ (List.replicate 4 0))
        = ⟨true, ArmManipulator.create ⟨0, 0, 0⟩,
            (ArmManipulator.create (⟨0, 0, 0⟩ : Vec3D ℝ)).angles⟩ :=
    solveIK_of_close _ _ _ (posed_create _) zero_pose_close
  have ha : (ArmManipulator.create (⟨0, 0, 0⟩ : Vec3D ℝ)).angles = [0, 0, 0, 0] := by
    rw [create_eq_pose]; rfl
  have hr1 := hs.1.mpr (by rw [hok])
  have hr0 := hf.2.1.mpr failed_solve_moves_arm.1
  refine ⟨Reachable.create _, by simp, hr1, ?_, hr0, hf.2.2.2.2 hr0,
    failed_solve_moves_arm.2.1, hf.2.2.1, failed_solve_moves_arm.2.2⟩
  rw [(hs.2.2.2.1 hr1).1, hok, ha]

/-- Claim C15. With a null handle `Arm_GetJointCount` returns 0, `Arm_SolveIK` returns 0 and
leaves the array unchanged, and `Arm_SetAngles`, `Arm_GetJointPos` and `Arm_Debug` do nothing
(`Arm_GetJointPos` leaves both the buffer and `*cnt` as they were, `Arm_Debug` prints
nothing); with a handle to a reachable manipulator `Arm_GetJointCount` returns 4. -/
theorem C15_null_handle_safe (L : CMath α) (m : ArmManipulator α) (a p ang : List α)
    (n cnt : Int) (tx ty tz : α) (cout : List (Tok α)) (hm : Reachable L m) :
    Arm_GetJointCount (none : Option (ArmManipulator α)) = 0 ∧
    Arm_SolveIK L none tx ty tz ang n = ⟨0, none, ang⟩ ∧
    Arm_SetAngles none a n = none ∧
    Arm_GetJointPos L none p cnt = (p, cnt) ∧
    Arm_Debug L none cout = cout ∧
    Arm_GetJointCount (some m) = 4 := by
  refine ⟨rfl, rfl, rfl, rfl, rfl, ?_⟩
  show toInt m.count = 4
  rw [(posed_shape (reachable_posed L hm)).2.2.2]
  exact toInt_four

theorem C15_null_handle_safe_witness :
    Reachable ⟨Real.cos, Real.sin, Real.sqrt⟩ (ArmManipulator.create (⟨0, 0, 0⟩ : Vec3D ℝ)) ∧
    Arm_SolveIK ⟨Real.cos, Real.sin, Real.sqrt⟩ none 0 8.5 0 [9, 9, 9, 9] 4
      = ⟨0, none, [9, 9, 9, 9]⟩ ∧
    Arm_GetJointPos ⟨Real.cos, Real.sin, Real.sqrt⟩ none [7, 7, 7] 5 = ([7, 7, 7], 5) ∧
    Arm_GetJointCount (Arm_Create (0 : ℝ) 0 0) = 4 :=
  have h := C15_null_handle_safe ⟨Real.cos, Real.sin, Real.sqrt⟩
    (ArmManipulator.create (⟨0, 0, 0⟩ : Vec3D ℝ)) [1, 2] [7, 7, 7] [9, 9, 9, 9] 4 5 0 8.5 0 []
    (Reachable.create _)
  ⟨Reachable.create _, h.2.1, h.2.2.2.1, h.2.2.2.2.2⟩

/-! ## The iteration of `solveIK` (C17, C18, C19) -/

/-- Claim C17. Let `w` be the working vector at the top of a pass of the main loop of
`solveIK` started in a reachable state `m` (the state after `k` passes is
`(ikIter L tgt)^[k] (m, angles())`).  A pass that does not stop hands the loop the state
`ikIter` of the current one, in which every entry `i` of the working vector is
`w[i] - 0.01 * g_i` with `g_i = (cost(w with entry i raised by 0.001) - cost(w)) / 0.001`,
`cost(v)` being the squared distance between the target and the end effector after
`setAngles(v)`, and in which the manipulator has been set from the new vector by `setAngles`. -/
theorem C17_gradient_step (L : CMath α) (m : ArmManipulator α) (tgt : Vec3D α) (k i : Nat)
    (hm : Reachable L m) (hi : i < 4) :
    ((ikIter L tgt)^[k] (m, m.angles)).2.length = 4 ∧
    ((ikIter L tgt)^[k + 1] (m, m.angles)).2.length = 4 ∧
    ((ikIter L tgt)^[k + 1] (m, m.angles)).2[i]? =
      some (((ikIter L tgt)^[k] (m, m.angles)).2.getD i 0 - 0.01 *
        ((cost L m tgt (((ikIter L tgt)^[k] (m, m.angles)).2.set i
            (((ikIter L tgt)^[k] (m, m.angles)).2.getD i 0 + 0.001))
          - cost L m tgt ((ikIter L tgt)^[k] (m, m.angles)).2) / 0.001)) ∧
    ((ikIter L tgt)^[k + 1] (m, m.angles)).1
      = m.setAngles ((ikIter L tgt)^[k + 1] (m, m.angles)).2 ∧
    (∀ v : List α, cost L m tgt v = sqDist ((m.setAngles v).endEffector L) tgt) ∧
    (∀ n : Nat, ¬ closeEnough L tgt ((ikIter L tgt)^[k] (m, m.angles)) →
      solveLoop L tgt (n + 1) ((ikIter L tgt)^[k] (m, m.angles)).1
          ((ikIter L tgt)^[k] (m, m.angles)).2
          (((ikIter L tgt)^[k] (m, m.angles)).1.endEffector L) =
        solveLoop L tgt n ((ikIter L tgt)^[k + 1] (m, m.angles)).1
          ((ikIter L tgt)^[k + 1] (m, m.angles)).2
          (((ikIter L tgt)^[k + 1] (m, m.angles)).1.endEffector L)) := by
  have hp := reachable_posed L hm
  obtain ⟨i1, i2, i3, i4⟩ := iterate_inv L tgt m hp k
  obtain ⟨j1, _, _, _⟩ := iterate_inv L tgt m hp (k + 1)
  rw [Function.iterate_succ_apply'] at j1 ⊢
  generalize (ikIter L tgt)^[k] (m, m.angles) = s at i1 i2 i3 i4 j1 ⊢
  obtain ⟨_, r2, r3, _⟩ := ikIter_spec L tgt s.1 s.2 (by rw [i1, i2])
  have e : ikIter L tgt (s.1, s.2) = ikIter L tgt s := rfl
  rw [e] at r2 r3
  have hcur : sqDist (s.1.endEffector L) tgt = cost L m tgt s.2 := by
    show _ = sqDist ((m.setAngles s.2).endEffector L) tgt
    rw [← i4 s.2 (by rw [i1]), i3]
  have hpert : cost L s.1 tgt (s.2.set i (s.2.getD i 0 + 0.001))
      = cost L m tgt (s.2.set i (s.2.getD i 0 + 0.001)) := by
    show sqDist ((s.1.setAngles _).endEffector L) tgt
      = sqDist ((m.setAngles _).endEffector L) tgt
    rw [i4 _ (by rw [List.length_set, i1])]
  refine ⟨i1, j1, ?_, ?_, fun _ => rfl, fun n hc => solveLoop_step L tgt n s hc⟩
  · rw [r2 i (by rw [i1]; exact hi), hpert, hcur]
    rfl
  · rw [r3, i4 _ (by rw [j1])]

theorem C17_gradient_step_witness :
    Reachable ⟨Real.cos, Real.sin, Real.sqrt⟩ (ArmManipulator.create (⟨0, 0, 0⟩ : Vec3D ℝ)) ∧
    (2 : Nat) < 4 ∧
    ((ikIter ⟨Real.cos, Real.sin, Real.sqrt⟩ ⟨-1000, 0, 0⟩)^[0 + 1]
      (ArmManipulator.create (⟨0, 0, 0⟩ : Vec3D ℝ),
        (ArmManipulator.create (⟨0, 0, 0⟩ : Vec3D ℝ)).angles)).2[2]? =
      some (((ikIter ⟨Real.cos, Real.sin, Real.sqrt⟩ ⟨-1000, 0, 0⟩)^[0]
          (ArmManipulator.create (⟨0, 0, 0⟩ : Vec3D ℝ),
            (ArmManipulator.create (⟨0, 0, 0⟩ : Vec3D ℝ)).angles)).2.getD 2 0 - 0.01 *
        ((cost ⟨Real.cos, Real.sin, Real.sqrt⟩ (ArmManipulator.create (⟨0, 0, 0⟩ : Vec3D ℝ))
            ⟨-1000, 0, 0⟩
            (((ikIter ⟨Real.cos, Real.sin, Real.sqrt⟩ ⟨-1000, 0, 0⟩)^[0]
              (ArmManipulator.create (⟨0, 0, 0⟩ : Vec3D ℝ),
                (ArmManipulator.create (⟨0, 0, 0⟩ : Vec3D ℝ)).angles)).2.set 2
              (((ikIter ⟨Real.cos, Real.sin, Real.sqrt⟩ ⟨-1000, 0, 0⟩)^[0]
                (ArmManipulator.create (⟨0, 0, 0⟩ : Vec3D ℝ),
                  (ArmManipulator.create (⟨0, 0, 0⟩ : Vec3D ℝ)).angles)).2.getD 2 0 + 0.001))
          - cost ⟨Real.cos, Real.sin, Real.sqrt⟩ (ArmManipulator.create (⟨0, 0, 0⟩ : Vec3D ℝ))
            ⟨-1000, 0, 0⟩
            ((ikIter ⟨Real.cos, Real.sin, Real.sqrt⟩ ⟨-1000, 0, 0⟩)^[0]
              (ArmManipulator.create (⟨0, 0, 0⟩ : Vec3D ℝ),
                (ArmManipulator.create (⟨0, 0, 0⟩ : Vec3D ℝ)).angles)).2) / 0.001)) ∧
    ((ikIter ⟨Real.cos, Real.sin, Real.sqrt⟩ ⟨-1000, 0, 0⟩)^[0 + 1]
      (ArmManipulator.create (⟨0, 0, 0⟩ : Vec3D ℝ),
        (ArmManipulator.create (⟨0, 0, 0⟩ : Vec3D ℝ)).angles)).1
      = (ArmManipulator.create (⟨0, 0, 0⟩ : Vec3D ℝ)).setAngles
          ((ikIter ⟨Real.cos, Real.sin, Real.sqrt⟩ ⟨-1000, 0, 0⟩)^[0 + 1]
            (ArmManipulator.create (⟨0, 0, 0⟩ : Vec3D ℝ),
              (ArmManipulator.create (⟨0, 0, 0⟩ : Vec3D ℝ)).angles)).2 :=
  have h := C17_gradient_step ⟨Real.cos, Real.sin, Real.sqrt⟩
    (ArmManipulator.create (⟨0, 0, 0⟩ : Vec3D ℝ)) ⟨-1000, 0, 0⟩ 0 2 (Reachable.create _)
    (by decide)
  ⟨Reachable.create _, by decide, h.2.2.1, h.2.2.2.1⟩

/-- Claim C18. `solveIK` is a total function that makes at most 100 passes.  It returns
`false` exactly when none of the 100 tolerance tests, made on the starting state and on the
states after passes 1 to 99, succeeds, and then it has made all 100 gradient updates;
otherwise it returns `true` at the first state that passes the test, having applied the
working vector of that state. -/
theorem C18_iteration_cap (L : CMath α) (m : ArmManipulator α) (tgt : Vec3D α)
    (out : List α) :
    ((m.solveIK L tgt out).ok = false ↔
      ∀ k, k < 100 → ¬ closeEnough L tgt ((ikIter L tgt)^[k] (m, m.angles))) ∧
    ((m.solveIK L tgt out).ok = false →
      ((m.solveIK L tgt out).arm, (m.solveIK L tgt out).out)
        = (ikIter L tgt)^[100] (m, m.angles)) ∧
    (∀ k, k < 100 →
      (∀ j, j < k → ¬ closeEnough L tgt ((ikIter L tgt)^[j] (m, m.angles))) →
      closeEnough L tgt ((ikIter L tgt)^[k] (m, m.angles)) →
      m.solveIK L tgt out =
        ⟨true, ((ikIter L tgt)^[k] (m, m.angles)).1.setAngles
            ((ikIter L tgt)^[k] (m, m.angles)).2,
          ((ikIter L tgt)^[k] (m, m.angles)).2⟩) ∧
    ((m.solveIK L tgt out).ok = true →
      ∃ k, k < 100 ∧ closeEnough L tgt ((ikIter L tgt)^[k] (m, m.angles)) ∧
        (∀ j, j < k → ¬ closeEnough L tgt ((ikIter L tgt)^[j] (m, m.angles))) ∧
        m.solveIK L tgt out =
          ⟨true, ((ikIter L tgt)^[k] (m, m.angles)).1.setAngles
              ((ikIter L tgt)^[k] (m, m.angles)).2,
            ((ikIter L tgt)^[k] (m, m.angles)).2⟩) :=
  ⟨solveLoop_false_iff L tgt maxIt (m, m.angles),
    solveLoop_false_iterate L tgt maxIt m m.angles,
    solveLoop_first_pass L tgt maxIt (m, m.angles),
    solveLoop_true_first L tgt maxIt (m, m.angles)⟩

theorem C18_iteration_cap_witness :
    ((ArmManipulator.create (⟨0, 0, 0⟩ : Vec3D ℝ)).solveIK ⟨Real.cos, Real.sin, Real.sqrt⟩
      ⟨0, 100, 0⟩ []).ok = false ∧
    (∀ k, k < 100 → ¬ closeEnough ⟨Real.cos, Real.sin, Real.sqrt⟩ ⟨0, 100, 0⟩
      ((ikIter ⟨Real.cos, Real.sin, Real.sqrt⟩ ⟨0, 100, 0⟩)^[k]
        (ArmManipulator.create (⟨0, 0, 0⟩ : Vec3D ℝ),
          (ArmManipulator.create (⟨0, 0, 0⟩ : Vec3D ℝ)).angles))) ∧
    (((ArmManipulator.create (⟨0, 0, 0⟩ : Vec3D ℝ)).solveIK ⟨Real.cos, Real.sin, Real.sqrt⟩
      ⟨0, 8.5, 0⟩ []).ok = true ∧
    closeEnough ⟨Real.cos, Real.sin, Real.sqrt⟩ ⟨0, 8.5, 0⟩
      ((ikIter ⟨Real.cos, Real.sin, Real.sqrt⟩ ⟨0, 8.5, 0⟩)^[0]
        (ArmManipulator.create (⟨0, 0, 0⟩ : Vec3D ℝ),
          (ArmManipulator.create (⟨0, 0, 0⟩ : Vec3D ℝ)).angles))) :=
  have hfail := solveIK_far (ArmManipulator.create (⟨0, 0, 0⟩ : Vec3D ℝ)) ⟨0, 100, 0⟩ []
    (posed_create _) far_target_example
  have hc : closeEnough ⟨Real.cos, Real.sin, Real.sqrt⟩ ⟨0, 8.5, 0⟩
      ((ikIter ⟨Real.cos, Real.sin, Real.sqrt⟩ ⟨0, 8.5, 0⟩)^[0]
        (ArmManipulator.create (⟨0, 0, 0⟩ : Vec3D ℝ),
          (ArmManipulator.create (⟨0, 0, 0⟩ : Vec3D ℝ)).angles)) := zero_pose_close
  ⟨hfail,
    (C18_iteration_cap ⟨Real.cos, Real.sin, Real.sqrt⟩
      (ArmManipulator.create (⟨0, 0, 0⟩ : Vec3D ℝ)) ⟨0, 100, 0⟩ []).1.mp hfail,
    by
      rw [(C18_iteration_cap ⟨Real.cos, Real.sin, Real.sqrt⟩
        (ArmManipulator.create (⟨0, 0, 0⟩ : Vec3D ℝ)) ⟨0, 8.5, 0⟩ []).2.2.1 0 (by decide)
        (fun j hj => absurd hj (Nat.not_lt_zero j)) hc],
    hc⟩

/-- Claim C19 is refuted as stated. Base `(0,0,0)`, zero pose, target `(-0.02, 8.5, 0)`:
`solveIK` returns `true` after one update, and the vector it hands back has a negative entry
for joint 2 (limit `[0, 8]`) while `angles()` holds `0` there, so the returned vector is not
`angles()` and not within the joint limits. -/
theorem C19_counterexample :
    Reachable ⟨Real.cos, Real.sin, Real.sqrt⟩ (ArmManipulator.create (⟨0, 0, 0⟩ : Vec3D ℝ)) ∧
    ((ArmManipulator.create (⟨0, 0, 0⟩ : Vec3D ℝ)).solveIK ⟨Real.cos, Real.sin, Real.sqrt⟩
      ⟨-0.02, 8.5, 0⟩ []).ok = true ∧
    ((ArmManipulator.create (⟨0, 0, 0⟩ : Vec3D ℝ)).solveIK ⟨Real.cos, Real.sin, Real.sqrt⟩
      ⟨-0.02, 8.5, 0⟩ []).out ≠
      ((ArmManipulator.create (⟨0, 0, 0⟩ : Vec3D ℝ)).solveIK ⟨Real.cos, Real.sin, Real.sqrt⟩
        ⟨-0.02, 8.5, 0⟩ []).arm.angles ∧
    (∃ x : ℝ, ((ArmManipulator.create (⟨0, 0, 0⟩ : Vec3D ℝ)).solveIK
      ⟨Real.cos, Real.sin, Real.sqrt⟩ ⟨-0.02, 8.5, 0⟩ []).out[2]? = some x ∧ x < 0) ∧
    ((ArmManipulator.create (⟨0, 0, 0⟩ : Vec3D ℝ)).solveIK ⟨Real.cos, Real.sin, Real.sqrt⟩
      ⟨-0.02, 8.5, 0⟩ []).arm.angles[2]? = some 0 := by
  obtain ⟨A, p2, _, _, hneg, hrun⟩ := overshoot_run
  rw [hrun]
  refine ⟨Reachable.create _, rfl, ?_, ⟨p2, rfl, hneg⟩, rfl⟩
  intro heq
  have heq2 : ([A, 0, p2, 0] : List ℝ) = (pose (⟨0, 0, 0⟩ : Vec3D ℝ) A 0 0 0).angles := heq
  have h2 : ([A, 0, p2, 0] : List ℝ)[2]? = (pose (⟨0, 0, 0⟩ : Vec3D ℝ) A 0 0 0).angles[2]? := by
    rw [← heq2]
  have h3 : (pose (⟨0, 0, 0⟩ : Vec3D ℝ) A 0 0 0).angles[2]? = some 0 := rfl
  rw [h3] at h2
  simp only [List.getElem?_cons_succ, List.getElem?_cons_zero, Option.some.injEq] at h2
  linarith

/-- Claim C19 as amended. Whenever `solveIK`, called in a reachable state, returns `true`,
`angles()` after the call is the returned vector with each entry clamped into the limit range
of its joint; the returned vector is `angles()` itself when all its entries lie within the
limits; and the boundary writes the returned vector into the first four entries of the
caller's array. -/
theorem C19_success_vector_clamped (L : CMath α) (m : ArmManipulator α) (tx ty tz : α)
    (out ang : List α) (hm : Reachable L m)
    (hok : (m.solveIK L ⟨tx, ty, tz⟩ out).ok = true) (hlen : 4 ≤ ang.length) :
    (∃ o0 o1 o2 o3, (m.solveIK L ⟨tx, ty, tz⟩ out).out = [o0, o1, o2, o3] ∧
      (m.solveIK L ⟨tx, ty, tz⟩ out).arm.angles =
        [clamp o0 (-M_PI) M_PI, clamp o1 (-M_PI / 2) (M_PI / 2), clamp o2 0 8,
          clamp o3 (-M_PI) M_PI] ∧
      (InLimits o0 o1 o2 o3 →
        (m.solveIK L ⟨tx, ty, tz⟩ out).out = (m.solveIK L ⟨tx, ty, tz⟩ out).arm.angles)) ∧
    (Arm_SolveIK L (some m) tx ty tz ang 4).ang.take 4
      = (m.solveIK L ⟨tx, ty, tz⟩ out).out := by
  have hp := reachable_posed L hm
  constructor
  · obtain ⟨o0, o1, o2, o3, h1, h2⟩ := solveIK_angles_clamped L m ⟨tx, ty, tz⟩ out hp
    refine ⟨o0, o1, o2, o3, h1, h2, fun hl => ?_⟩
    obtain ⟨l0, l1, l2, l3⟩ := hl
    rw [h1, h2, clamp_of_bounds _ _ _ l0.1 l0.2, clamp_of_bounds _ _ _ l1.1 l1.2,
      clamp_of_bounds _ _ _ l2.1 l2.2, clamp_of_bounds _ _ _ l3.1 l3.2]
  · have hsame : m.solveIK L ⟨tx, ty, tz⟩ out = m.solveIK L ⟨tx, ty, tz⟩ [] := rfl
    rw [hsame] at hok ⊢
    rw [Arm_SolveIK_four L m tx ty tz ang hp hlen]
    simp only [hok, if_true]
    exact List.take_left' (solveIK_out_length L m ⟨tx, ty, tz⟩ [] hp)

theorem C19_success_vector_clamped_witness :
    Reachable ⟨Real.cos, Real.sin, Real.sqrt⟩ (ArmManipulator.create (⟨0, 0, 0⟩ : Vec3D ℝ)) ∧
    ((ArmManipulator.create (⟨0, 0, 0⟩ : Vec3D ℝ)).solveIK ⟨Real.cos, Real.sin, Real.sqrt⟩
      ⟨-0.02, 8.5, 0⟩ []).ok = true ∧
    4 ≤ ([9, 9, 9, 9] : List ℝ).length ∧
    (Arm_SolveIK ⟨Real.cos, Real.sin, Real.sqrt⟩
        (some (ArmManipulator.create (⟨0, 0, 0⟩ : Vec3D ℝ))) (-0.02) 8.5 0
        [9, 9, 9, 9] 4).ang.take 4
      = ((ArmManipulator.create (⟨0, 0, 0⟩ : Vec3D ℝ)).solveIK ⟨Real.cos, Real.sin, Real.sqrt⟩
          ⟨-0.02, 8.5, 0⟩ []).out := by
  have hok : ((ArmManipulator.create (⟨0, 0, 0⟩ : Vec3D ℝ)).solveIK
      ⟨Real.cos, Real.sin, Real.sqrt⟩ ⟨-0.02, 8.5, 0⟩ []).ok = true := by
    obtain ⟨A, p2, _, _, _, hrun⟩ := overshoot_run
    rw [hrun]
  exact ⟨Reachable.create _, hok, by simp,
    (C19_success_vector_clamped ⟨Real.cos, Real.sin, Real.sqrt⟩
      (ArmManipulator.create (⟨0, 0, 0⟩ : Vec3D ℝ)) (-0.02) 8.5 0 [] [9, 9, 9, 9]
      (Reachable.create _) hok (by simp)).2⟩

/-! ## The default `AngleLimit` (C20) -/

/-- Claim C20 is refuted as stated. The default-constructed `AngleLimit` is enabled, and its
`apply` does not return the angle `10` unchanged: it returns `M_PI`. -/
theorem C20_counterexample :
    (AngleLimit.ofDefaults : AngleLimit ℚ).enabled = true ∧
    (AngleLimit.ofDefaults : AngleLimit ℚ).apply 10 = M_PI ∧
    (AngleLimit.ofDefaults : AngleLimit ℚ).apply 10 ≠ 10 := by
  have h : (AngleLimit.ofDefaults : AngleLimit ℚ).apply 10 = M_PI := by
    simp only [AngleLimit.apply, AngleLimit.ofDefaults, if_true]
    exact clamp_of_high_le _ _ _ limit0_ok (by unfold M_PI; norm_num)
  refine ⟨rfl, h, ?_⟩
  rw [h]
  unfold M_PI
  norm_num

/-- Claim C20 as amended. The default-constructed `AngleLimit` is enabled with range
`[-M_PI, M_PI]`, so its `apply` clamps into that range.  For any limit, `apply` returns the
angle unchanged if the limit is disabled and `std::clamp(a, low, high)` otherwise, which for
`low <= high` lies in `[low, high]` and is `a` itself when `a` already lies there. -/
theorem C20_default_limit_clamps (lim : AngleLimit α) (a : α) (h : lim.low ≤ lim.high) :
    (AngleLimit.ofDefaults : AngleLimit α) = ⟨-M_PI, M_PI, true⟩ ∧
    (AngleLimit.ofDefaults : AngleLimit α).apply a = clamp a (-M_PI) M_PI ∧
    (-M_PI ≤ (AngleLimit.ofDefaults : AngleLimit α).apply a ∧
      (AngleLimit.ofDefaults : AngleLimit α).apply a ≤ M_PI) ∧
    lim.apply a = (if lim.enabled then clamp a lim.low lim.high else a) ∧
    (if lim.enabled then
      (lim.low ≤ lim.apply a ∧ lim.apply a ≤ lim.high) ∧
        (lim.low ≤ a ∧ a ≤ lim.high → lim.apply a = a)
    else lim.apply a = a) := by
  have hd : (AngleLimit.ofDefaults : AngleLimit α).apply a = clamp a (-M_PI) M_PI := rfl
  refine ⟨rfl, hd, ?_, rfl, ?_⟩
  · rw [hd]; exact clamp_bounds a _ _ limit0_ok
  · obtain ⟨lo, hgh, en⟩ := lim
    cases en
    · exact rfl
    · simp only [AngleLimit.apply, if_true]
      exact ⟨clamp_bounds a lo hgh h, fun hb => clamp_of_bounds a lo hgh hb.1 hb.2⟩

theorem C20_default_limit_clamps_witness :
    (0 : ℚ) ≤ 8 ∧
    (AngleLimit.ofDefaults : AngleLimit ℚ).apply 10 = clamp 10 (-M_PI) M_PI ∧
    (AngleLimit.ofRange (0 : ℚ) 8).apply 9 = clamp 9 0 8 :=
  have h := C20_default_limit_clamps (AngleLimit.ofRange (0 : ℚ) 8) 10 (by
    show (0 : ℚ) ≤ 8
    norm_num)
  have h9 := C20_default_limit_clamps (AngleLimit.ofRange (0 : ℚ) 8) 9 (by
    show (0 : ℚ) ≤ 8
    norm_num)
  ⟨by norm_num, h.2.1, h9.2.2.2.1⟩

end Claims

end ArmApi
